import Mathlib

/-!
# Dynamic time warping: `c_dtw` and `c_diag_step` of `DTW.cpp`

A shallow embedding of the two C functions of `DTW.cpp`.

* A C buffer (`float*`, `int*`) is a function from an `Int` index to its content;
  writing an element is `wr`.
* `float` values are rationals. `c_dtw` and `c_diag_step` are the two functions in exact
  arithmetic: their additions `score + dist` and `d[t] + csm[t]` are not rounded. The
  theorems on them that compare sums say so. `c_dtw_rnd` and `c_diag_step_rnd` are the same
  functions with every addition rounded by a function `rnd`; `rnd = fl32` is the rounding of
  binary32, and `rnd = id` gives `c_dtw` and `c_diag_step` back.
* `int` values are unbounded integers: the development covers the executions in which
  the index arithmetic `i*N + j` does not overflow.
* A `for (int i = 0; i < n; i++)` loop is `forLoop n body`.
* The buffers passed to a function do not overlap: each is a function of its own.
-/

namespace DTW

/-- The tag `LEFT` (`#define LEFT 0`). -/
def LEFT : Int := 0

/-- The tag `UP` (`#define UP 1`). -/
def UP : Int := 1

/-- The tag `DIAG` (`#define DIAG 2`). -/
def DIAG : Int := 2

/-- A `float*` buffer. -/
abbrev FBuf := Int → ℚ

/-- An `int*` buffer. -/
abbrev IBuf := Int → Int

/-- The assignment `b[k] = v`. -/
def wr {α : Type} (b : Int → α) (k : Int) (v : α) : Int → α :=
  fun x => if x = k then v else b x

/-- Runs `body 0`, `body 1`, ..., `body (n-1)` in this order. -/
def loopN {σ : Type} (body : Int → σ → σ) : Nat → σ → σ
  | 0, s => s
  | n + 1, s => body (n : Int) (loopN body n s)

/-- The loop `for (int i = 0; i < n; i++) body(i)`; no iteration when `n ≤ 0`. -/
def forLoop {σ : Type} (n : Int) (body : Int → σ → σ) (s : σ) : σ :=
  loopN body n.toNat s

/-- The buffers `c_dtw` writes: `P`, `U`, `L`, `UL`, `S`. -/
structure Mem where
  P : IBuf
  U : FBuf
  L : FBuf
  UL : FBuf
  S : FBuf

/-- Lines 10-18 of `c_dtw`: with `debug == 1`, `U`, `L`, `UL` are filled with `-1`. -/
def c_dtw_init (M N debug : Int) (m : Mem) : Mem :=
  if debug = 1 then
    forLoop M (fun i m =>
      forLoop N (fun j m =>
        { m with U := wr m.U (i * N + j) (-1),
                 L := wr m.L (i * N + j) (-1),
                 UL := wr m.UL (i * N + j) (-1) }) m) m
  else m

/-- Lines 51-62 of `c_dtw`: the selection chain, started from `score = -1`; it yields
the selected score and the buffer `P` after the writes to `P[k]`. -/
def c_dtw_select (left up diag : ℚ) (P : IBuf) (k : Int) : ℚ × IBuf :=
  let s0 : ℚ × IBuf := (-1, P)
  let s1 : ℚ × IBuf := if left > -1 then (left, wr s0.2 k LEFT) else s0
  let s2 : ℚ × IBuf := if up > -1 ∧ (up < s1.1 ∨ s1.1 = -1) then (up, wr s1.2 k UP) else s1
  let s3 : ℚ × IBuf :=
    if diag > -1 ∧ (diag ≤ s2.1 ∨ s2.1 = -1) then (diag, wr s2.2 k DIAG) else s2
  s3

/-- Lines 21-69 of `c_dtw`: the body of the inner loop, for the cell `(i, j)`. -/
def c_dtw_cell (CSM : FBuf) (N debug : Int) (i j : Int) (m : Mem) : Mem :=
  let dist := CSM (i * N + j)
  if i = 0 ∧ j = 0 then
    let m1 : Mem :=
      if debug = 1 then { m with U := wr m.U 0 0, L := wr m.L 0 0, UL := wr m.UL 0 0 }
      else m
    { m1 with S := wr m1.S (i * N + j) (0 + dist) }
  else
    let left : ℚ := if j > 0 then m.S (i * N + (j - 1)) else -1
    let up : ℚ := if i > 0 then m.S ((i - 1) * N + j) else -1
    let diag : ℚ := if i > 0 ∧ j > 0 then m.S ((i - 1) * N + (j - 1)) else -1
    let sel := c_dtw_select left up diag m.P (i * N + j)
    let m1 : Mem := { m with P := sel.2 }
    let m2 : Mem :=
      if debug = 1 then
        { m1 with U := wr m1.U (i * N + j) up,
                  L := wr m1.L (i * N + j) left,
                  UL := wr m1.UL (i * N + j) diag }
      else m1
    { m2 with S := wr m2.S (i * N + j) (sel.1 + dist) }

/-- Lines 19-71 of `c_dtw`: the two nested loops over the cells, in row-major order. -/
def c_dtw_fill (CSM : FBuf) (M N debug : Int) (m : Mem) : Mem :=
  forLoop M (fun i m => forLoop N (fun j m => c_dtw_cell CSM N debug i j m) m) m

/-- The function `c_dtw`: the returned value `S[M*N-1]` and the buffers it leaves. -/
def c_dtw (CSM : FBuf) (P : IBuf) (M N debug : Int) (U L UL S : FBuf) : ℚ × Mem :=
  let m := c_dtw_fill CSM M N debug (c_dtw_init M N debug ⟨P, U, L, UL, S⟩)
  (m.S (M * N - 1), m)

/-- The variables `c_diag_step` carries through its loop: `score` and the buffers it
writes. -/
structure DiagSt where
  score : ℚ
  d2 : FBuf
  U : FBuf
  L : FBuf
  UL : FBuf
  S : FBuf

/-- Lines 142-150 of `c_diag_step`: the selection chain, started from the score carried by
the loop. -/
def c_diag_select (left up diag score : ℚ) : ℚ :=
  let s1 : ℚ := if left > -1 then left else score
  let s2 : ℚ := if up > -1 ∧ (up < s1 ∨ s1 = -1) then up else s1
  let s3 : ℚ := if diag > -1 ∧ (diag < s2 ∨ s2 = -1) then diag else s2
  s3

/-- Lines 114-141 of `c_diag_step`: the candidates `(left, up, diag)` read from the rolling
buffers, in the three cases on the start `(i1, j1)` of the diagonal. -/
def c_diag_cands (d0 d1 csm0 csm1 : FBuf) (M i1 j1 thisi idx : Int) : ℚ × ℚ × ℚ :=
  if j1 = 0 then
    let left : ℚ := if idx > 0 then d1 (idx - 1) + csm1 (idx - 1) else -1
    let diag : ℚ := if idx > 0 ∧ thisi > 0 then d0 (idx - 1) + csm0 (idx - 1) else -1
    let up : ℚ := if thisi > 0 then d1 idx + csm1 idx else -1
    (left, up, diag)
  else if i1 = M - 1 ∧ j1 = 1 then
    let left : ℚ := d1 idx + csm1 idx
    if thisi > 0 then (left, d1 (idx + 1) + csm1 (idx + 1), d0 idx + csm0 idx)
    else (left, -1, -1)
  else if i1 = M - 1 ∧ j1 > 1 then
    let left : ℚ := d1 idx + csm1 idx
    if thisi > 0 then (left, d1 (idx + 1) + csm1 (idx + 1), d0 (idx + 1) + csm0 (idx + 1))
    else (left, -1, -1)
  else (-1, -1, -1)

/-- Lines 86-159 of `c_diag_step`: the body of the loop, for the local offset `idx` on the
diagonal `i`. -/
def c_diag_iter (d0 d1 csm0 csm1 : FBuf) (M N i debug : Int) (idx : Int) (st : DiagSt) :
    DiagSt :=
  let i1 : Int := if i ≥ M then M - 1 else i
  let j1 : Int := if i ≥ M then i - (M - 1) else 0
  let j2 : Int := if i ≥ N then N - 1 else i
  let i2 : Int := if i ≥ N then i - (N - 1) else 0
  let thisi := i1 - idx
  let thisj := j1 + idx
  let st1 : DiagSt :=
    if thisi ≥ i2 ∧ thisj ≤ j2 then
      if thisi = 0 ∧ thisj = 0 then
        if debug = -1 then
          { st with score := 0, S := wr st.S 0 0, U := wr st.U 0 (-1),
                    L := wr st.L 0 (-1), UL := wr st.UL 0 (-1) }
        else { st with score := 0 }
      else
        let c := c_diag_cands d0 d1 csm0 csm1 M i1 j1 thisi idx
        let score := c_diag_select c.1 c.2.1 c.2.2 st.score
        if debug = 1 then
          { st with score := score,
                    U := wr st.U (thisi * N + thisj) c.2.1,
                    L := wr st.L (thisi * N + thisj) c.1,
                    UL := wr st.UL (thisi * N + thisj) c.2.2,
                    S := wr st.S (thisi * N + thisj) score }
        else { st with score := score }
    else st
  { st1 with d2 := wr st1.d2 idx st1.score }

/-- The function `c_diag_step`: one anti-diagonal `i` of the sweep. -/
def c_diag_step (d0 d1 d2 csm0 csm1 : FBuf) (M N diagLen i debug : Int)
    (U L UL S : FBuf) : DiagSt :=
  forLoop diagLen (c_diag_iter d0 d1 csm0 csm1 M N i debug) ⟨-1, d2, U, L, UL, S⟩


/-! ## The recurrence of `c_dtw` without the buffers -/

/-- The score the selection chain of `c_dtw` ends with. -/
def selScore (left up diag : ℚ) : ℚ :=
  let s1 : ℚ := if left > -1 then left else -1
  let s2 : ℚ := if up > -1 ∧ (up < s1 ∨ s1 = -1) then up else s1
  if diag > -1 ∧ (diag ≤ s2 ∨ s2 = -1) then diag else s2

/-- The last tag the selection chain of `c_dtw` writes, `none` when it writes none. -/
def selTag (left up diag : ℚ) : Option Int :=
  let s1 : ℚ := if left > -1 then left else -1
  let t1 : Option Int := if left > -1 then some LEFT else none
  let s2 : ℚ := if up > -1 ∧ (up < s1 ∨ s1 = -1) then up else s1
  let t2 : Option Int := if up > -1 ∧ (up < s1 ∨ s1 = -1) then some UP else t1
  if diag > -1 ∧ (diag ≤ s2 ∨ s2 = -1) then some DIAG else t2

/-- The accumulated cost of the cell `(i, j)`, as a function of the cost matrix: the
recurrence the loops of `c_dtw` run, without the buffers. -/
def Sref (CSM : FBuf) (n : Nat) (i j : Nat) : ℚ :=
  if i = 0 ∧ j = 0 then 0 + CSM ((i : Int) * n + j)
  else
    selScore (if _h : j > 0 then Sref CSM n i (j - 1) else -1)
        (if _h : i > 0 then Sref CSM n (i - 1) j else -1)
        (if _h : i > 0 ∧ j > 0 then Sref CSM n (i - 1) (j - 1) else -1)
      + CSM ((i : Int) * n + j)
termination_by (i, j)
decreasing_by
  · right; omega
  · left; omega
  · left; omega

/-- The candidate `left` of the cell `(i, j)`. -/
def candL (CSM : FBuf) (n : Nat) (i j : Nat) : ℚ :=
  if j > 0 then Sref CSM n i (j - 1) else -1

/-- The candidate `up` of the cell `(i, j)`. -/
def candU (CSM : FBuf) (n : Nat) (i j : Nat) : ℚ :=
  if i > 0 then Sref CSM n (i - 1) j else -1

/-- The candidate `diag` of the cell `(i, j)`. -/
def candD (CSM : FBuf) (n : Nat) (i j : Nat) : ℚ :=
  if i > 0 ∧ j > 0 then Sref CSM n (i - 1) (j - 1) else -1

/-- The tag of the cell `(i, j)`: `none` for a cell `c_dtw` writes no tag for. -/
def Tref (CSM : FBuf) (n : Nat) (i j : Nat) : Option Int :=
  if i = 0 ∧ j = 0 then none
  else selTag (candL CSM n i j) (candU CSM n i j) (candD CSM n i j)

/-- The buffers after `c_dtw` has processed the cells of row-major index below `t`, from
the buffers `m0`. -/
def fillMem (CSM : FBuf) (n : Nat) (debug : Int) (m0 : Mem) (t : Int) : Mem where
  P := fun x => if 0 ≤ x ∧ x < t then
      (match Tref CSM n (x.toNat / n) (x.toNat % n) with
        | some tg => tg
        | none => m0.P x)
    else m0.P x
  U := fun x => if debug = 1 ∧ 0 ≤ x ∧ x < t then
      (if x = 0 then 0 else candU CSM n (x.toNat / n) (x.toNat % n))
    else m0.U x
  L := fun x => if debug = 1 ∧ 0 ≤ x ∧ x < t then
      (if x = 0 then 0 else candL CSM n (x.toNat / n) (x.toNat % n))
    else m0.L x
  UL := fun x => if debug = 1 ∧ 0 ≤ x ∧ x < t then
      (if x = 0 then 0 else candD CSM n (x.toNat / n) (x.toNat % n))
    else m0.UL x
  S := fun x => if 0 ≤ x ∧ x < t then Sref CSM n (x.toNat / n) (x.toNat % n) else m0.S x

/-- The candidates `(left, up, diag)` the cell `(i, j)` reads from `S`. -/
def cands (S : FBuf) (N i j : Int) : ℚ × ℚ × ℚ :=
  (if j > 0 then S (i * N + (j - 1)) else -1,
   if i > 0 then S ((i - 1) * N + j) else -1,
   if i > 0 ∧ j > 0 then S ((i - 1) * N + (j - 1)) else -1)

/-- The buffers after the initialisation loops of `c_dtw` have processed the cells of
row-major index below `t`. -/
def initMem (m0 : Mem) (t : Int) : Mem where
  P := m0.P
  U := fun x => if 0 ≤ x ∧ x < t then -1 else m0.U x
  L := fun x => if 0 ≤ x ∧ x < t then -1 else m0.L x
  UL := fun x => if 0 ≤ x ∧ x < t then -1 else m0.UL x
  S := m0.S

/-! ## Paths, the backtrace and the hypotheses of the claims -/

/-- A cell `(i, j)` of the matrix. -/
abbrev Cell := Int × Int

/-- One step of a monotone path, from `a` to `b`: `(0,+1)`, `(+1,0)` or `(+1,+1)`. -/
def isStep (a b : Cell) : Prop :=
  b = (a.1, a.2 + 1) ∨ b = (a.1 + 1, a.2) ∨ b = (a.1 + 1, a.2 + 1)

instance isStep_decidable : DecidableRel isStep := fun a b => by
  unfold isStep; infer_instance

/-- The list `l` is a monotone path from the cell `a` to the cell `b`. -/
def IsPath (l : List Cell) (a b : Cell) : Prop :=
  l.head? = some a ∧ l.getLast? = some b ∧ l.Chain' isStep

/-- The sum of `CSM` over the cells of `l`, in a matrix of `N` columns. -/
def pathCost (CSM : FBuf) (N : Int) (l : List Cell) : ℚ :=
  (l.map (fun c => CSM (c.1 * N + c.2))).sum

/-- Modelled from the spec: the backtrace walk, which `DTW.cpp` does not contain. One step
from the cell `c`, read from the tag `P(c)`: `LEFT` leads to `(i, j-1)`, `UP` to
`(i-1, j)`, `DIAG` to `(i-1, j-1)`; any other content of `P(c)` leads nowhere. -/
def backStep (P : IBuf) (N : Int) (c : Cell) : Cell :=
  if P (c.1 * N + c.2) = LEFT then (c.1, c.2 - 1)
  else if P (c.1 * N + c.2) = UP then (c.1 - 1, c.2)
  else if P (c.1 * N + c.2) = DIAG then (c.1 - 1, c.2 - 1)
  else c

/-- Modelled from the spec: the cells the backtrace visits from `c`, `c` first, following
`backStep` until `(0, 0)` is reached or `fuel` steps have been made. -/
def backtrace (P : IBuf) (N : Int) : Nat → Cell → List Cell
  | 0, c => [c]
  | fuel + 1, c => if c = (0, 0) then [c] else c :: backtrace P N fuel (backStep P N c)

/-- Every entry of the `m × n` cost matrix is non-negative (cells as naturals). -/
def NonNegN (CSM : FBuf) (m n : Nat) : Prop :=
  ∀ i j : Nat, i < m → j < n → 0 ≤ CSM ((i : Int) * n + j)

/-- Every entry of the `M × N` cost matrix is non-negative. -/
def NonNeg (CSM : FBuf) (M N : Int) : Prop :=
  ∀ i j : Int, 0 ≤ i → i < M → 0 ≤ j → j < N → 0 ≤ CSM (i * N + j)

/-- The accumulated cost at a cell given by integer coordinates. -/
def SrefC (CSM : FBuf) (n : Nat) (c : Cell) : ℚ := Sref CSM n c.1.toNat c.2.toNat

/-! ## The diagonal sweep: geometry, driver and invariant -/

/-- The row `i1` of the start of the diagonal `k` (lines 87-92 of `c_diag_step`). -/
def dI1 (M k : Int) : Int := if k ≥ M then M - 1 else k

/-- The column `j1` of the start of the diagonal `k` (lines 88-92 of `c_diag_step`). -/
def dJ1 (M k : Int) : Int := if k ≥ M then k - (M - 1) else 0

/-- The column `j2` of the end of the diagonal `k` (lines 93-98 of `c_diag_step`). -/
def dJ2 (N k : Int) : Int := if k ≥ N then N - 1 else k

/-- The row `i2` of the end of the diagonal `k` (lines 94-98 of `c_diag_step`). -/
def dI2 (N k : Int) : Int := if k ≥ N then k - (N - 1) else 0

/-- The range test of line 102 of `c_diag_step`, for the local offset `idx`. -/
def inDiag (M N k idx : Int) : Prop :=
  dI1 M k - idx ≥ dI2 N k ∧ dJ1 M k + idx ≤ dJ2 N k

instance inDiag_decidable (M N k idx : Int) : Decidable (inDiag M N k idx) := by
  unfold inDiag; infer_instance

/-- The candidate `left` of the cell `(i, j)`, from the recurrence. -/
def cL (CSM : FBuf) (n : Nat) (i j : Int) : ℚ :=
  if j > 0 then SrefC CSM n (i, j - 1) else -1

/-- The candidate `up` of the cell `(i, j)`, from the recurrence. -/
def cU (CSM : FBuf) (n : Nat) (i j : Int) : ℚ :=
  if i > 0 then SrefC CSM n (i - 1, j) else -1

/-- The candidate `diag` of the cell `(i, j)`, from the recurrence. -/
def cD (CSM : FBuf) (n : Nat) (i j : Int) : ℚ :=
  if i > 0 ∧ j > 0 then SrefC CSM n (i - 1, j - 1) else -1

/-- The rolling buffers `d`, `csm` hold the diagonal `k`: at every local offset `t` in
range, `d[t] + csm[t]` is the accumulated cost of the cell at this offset. -/
def HoldsDiag (CSM : FBuf) (M N : Int) (n : Nat) (k : Int) (d csm : FBuf) : Prop :=
  ∀ t : Int, 0 ≤ t → inDiag M N k t →
    d t + csm t = SrefC CSM n (dI1 M k - t, dJ1 M k + t)

/-- The buffers of the diagonal sweep: the rolling buffers `d0`, `d1`, `d2`, `csm0`, `csm1`
and the debug matrices. -/
structure SweepSt where
  d0 : FBuf
  d1 : FBuf
  d2 : FBuf
  csm0 : FBuf
  csm1 : FBuf
  U : FBuf
  L : FBuf
  UL : FBuf
  S : FBuf

/-- Modelled from the spec: the values of `CSM` along the diagonal `k`, the driver of the
sweep (which `DTW.cpp` does not contain) hands to `c_diag_step`: at the local offset `t`,
the entry of the cell `(i1 - t, j1 + t)`. -/
def diagCSM (CSM : FBuf) (M N k : Int) : FBuf :=
  fun t => CSM ((dI1 M k - t) * N + (dJ1 M k + t))

/-- Modelled from the spec: the length of the diagonal `k`, which the driver of the sweep
recomputes before each step: the number of local offsets in range, `i1 - i2 + 1`. -/
def diagLength (M N k : Int) : Int := dI1 M k - dI2 N k + 1

/-- Modelled from the spec: one round of the driver of the sweep, which `DTW.cpp` does not
contain. It runs `c_diag_step` on the diagonal `k` with `diagLen` the length of this
diagonal, then rotates the buffers: the output `d2` becomes `d1`, the old `d1` becomes `d0`
(the old `d0` is the next output buffer), and `csm1`, `csm0` become the values of `CSM`
along the diagonals `k` and `k - 1`. -/
def sweepRound (CSM : FBuf) (M N debug : Int) (k : Int) (s : SweepSt) : SweepSt :=
  let r := c_diag_step s.d0 s.d1 s.d2 s.csm0 s.csm1 M N (diagLength M N k) k debug
    s.U s.L s.UL s.S
  { d0 := s.d1, d1 := r.d2, d2 := s.d0, csm0 := s.csm1, csm1 := diagCSM CSM M N k,
    U := r.U, L := r.L, UL := r.UL, S := r.S }

/-- Modelled from the spec: the driver of the sweep over the diagonals `0, ..., K-1`. -/
def sweep (CSM : FBuf) (M N debug : Int) (K : Int) (s : SweepSt) : SweepSt :=
  forLoop K (sweepRound CSM M N debug) s

/-- Modelled from the spec: the last step of the sweep, `c_diag_step` on the diagonal
`M + N - 2`, after the driver has run the diagonals before it. -/
def sweepLast (CSM : FBuf) (M N debug : Int) (s : SweepSt) : DiagSt :=
  let t := sweep CSM M N debug (M + N - 2) s
  c_diag_step t.d0 t.d1 t.d2 t.csm0 t.csm1 M N (diagLength M N (M + N - 2)) (M + N - 2) debug
    t.U t.L t.UL t.S

/-- The score `c_diag_step` has after the iteration `idx`, from the score `s` before it. -/
def iterScore (d0 d1 csm0 csm1 : FBuf) (M N k idx : Int) (s : ℚ) : ℚ :=
  if inDiag M N k idx then
    if dI1 M k - idx = 0 ∧ dJ1 M k + idx = 0 then 0
    else c_diag_select
      (c_diag_cands d0 d1 csm0 csm1 M (dI1 M k) (dJ1 M k) (dI1 M k - idx) idx).1
      (c_diag_cands d0 d1 csm0 csm1 M (dI1 M k) (dJ1 M k) (dI1 M k - idx) idx).2.1
      (c_diag_cands d0 d1 csm0 csm1 M (dI1 M k) (dJ1 M k) (dI1 M k - idx) idx).2.2 s
  else s

/-- Modelled from the spec: the sweep with `debug = 1` over all the diagonals
`0, ..., M + N - 2`, after `U`, `L`, `UL` have been initialised to `-1` the way `c_dtw`
does it (its lines 10-18). -/
def sweepDebug (CSM : FBuf) (M N : Int) (s : SweepSt) : SweepSt :=
  let m0 := c_dtw_init M N 1 ⟨fun _ => 0, s.U, s.L, s.UL, s.S⟩
  sweep CSM M N 1 (M + N - 1) { s with U := m0.U, L := m0.L, UL := m0.UL }

/-! ## A concrete cost matrix and the accesses of a diagonal step -/

/-- The cost matrix `[[0,2,5],[1,0,2],[4,1,0]]`, row-major. -/
def csm33 : FBuf := fun k =>
  if k = 0 then 0 else if k = 1 then 2 else if k = 2 then 5
  else if k = 3 then 1 else if k = 4 then 0 else if k = 5 then 2
  else if k = 6 then 4 else if k = 7 then 1 else 0

/-- The indices at which `c_diag_step` reads `d1` and `csm1` for the local offset `idx`
(lines 117-141), in the order of the three cases. -/
def c_diag_reads1 (M i1 j1 thisi idx : Int) : List Int :=
  if j1 = 0 then
    (if idx > 0 then [idx - 1] else []) ++ (if thisi > 0 then [idx] else [])
  else if i1 = M - 1 ∧ j1 = 1 then
    idx :: (if thisi > 0 then [idx + 1] else [])
  else if i1 = M - 1 ∧ j1 > 1 then
    idx :: (if thisi > 0 then [idx + 1] else [])
  else []

/-- The indices at which `c_diag_step` reads `d0` and `csm0` for the local offset `idx`
(lines 117-141), in the order of the three cases. -/
def c_diag_reads0 (M i1 j1 thisi idx : Int) : List Int :=
  if j1 = 0 then
    (if idx > 0 ∧ thisi > 0 then [idx - 1] else [])
  else if i1 = M - 1 ∧ j1 = 1 then
    (if thisi > 0 then [idx] else [])
  else if i1 = M - 1 ∧ j1 > 1 then
    (if thisi > 0 then [idx + 1] else [])
  else []

/-- The accesses of one iteration of the loop of `c_diag_step` (lines 86-159), for the local
offset `idx` on the diagonal `i`: the indices read in `d1`/`csm1`, the indices read in
`d0`/`csm0`, the index written in `d2`, and the indices written in `U`, `L`, `UL`, `S`. -/
def c_diag_iter_access (M N i debug idx : Int) :
    List Int × List Int × Int × List Int :=
  let i1 : Int := if i ≥ M then M - 1 else i
  let j1 : Int := if i ≥ M then i - (M - 1) else 0
  let j2 : Int := if i ≥ N then N - 1 else i
  let i2 : Int := if i ≥ N then i - (N - 1) else 0
  let thisi := i1 - idx
  let thisj := j1 + idx
  if thisi ≥ i2 ∧ thisj ≤ j2 then
    if thisi = 0 ∧ thisj = 0 then
      ([], [], idx, if debug = -1 then [0] else [])
    else
      (c_diag_reads1 M i1 j1 thisi idx, c_diag_reads0 M i1 j1 thisi idx, idx,
        if debug = 1 then [thisi * N + thisj] else [])
  else ([], [], idx, [])
/-! ## The binary32 arithmetic of the code -/

/-- Lines 21-69 of `c_dtw`, with the `float` addition of line 69 rounded by `rnd`: the body
of the inner loop, for the cell `(i, j)`. With `rnd = id` it is `c_dtw_cell`. -/
def c_dtw_cell_rnd (rnd : ℚ → ℚ) (CSM : FBuf) (N debug : Int) (i j : Int) (m : Mem) : Mem :=
  let dist := CSM (i * N + j)
  if i = 0 ∧ j = 0 then
    let m1 : Mem :=
      if debug = 1 then { m with U := wr m.U 0 0, L := wr m.L 0 0, UL := wr m.UL 0 0 }
      else m
    { m1 with S := wr m1.S (i * N + j) (rnd (0 + dist)) }
  else
    let left : ℚ := if j > 0 then m.S (i * N + (j - 1)) else -1
    let up : ℚ := if i > 0 then m.S ((i - 1) * N + j) else -1
    let diag : ℚ := if i > 0 ∧ j > 0 then m.S ((i - 1) * N + (j - 1)) else -1
    let sel := c_dtw_select left up diag m.P (i * N + j)
    let m1 : Mem := { m with P := sel.2 }
    let m2 : Mem :=
      if debug = 1 then
        { m1 with U := wr m1.U (i * N + j) up,
                  L := wr m1.L (i * N + j) left,
                  UL := wr m1.UL (i * N + j) diag }
      else m1
    { m2 with S := wr m2.S (i * N + j) (rnd (sel.1 + dist)) }

/-- Lines 19-71 of `c_dtw`, with the `float` addition rounded by `rnd`. -/
def c_dtw_fill_rnd (rnd : ℚ → ℚ) (CSM : FBuf) (M N debug : Int) (m : Mem) : Mem :=
  forLoop M (fun i m => forLoop N (fun j m => c_dtw_cell_rnd rnd CSM N debug i j m) m) m

/-- The function `c_dtw` with every `float` addition rounded by `rnd`: `rnd = fl32` is the
binary32 arithmetic of the code (as long as no sum overflows), `rnd = id` is `c_dtw`, the
exact arithmetic. -/
def c_dtw_rnd (rnd : ℚ → ℚ) (CSM : FBuf) (P : IBuf) (M N debug : Int) (U L UL S : FBuf) :
    ℚ × Mem :=
  let m := c_dtw_fill_rnd rnd CSM M N debug (c_dtw_init M N debug ⟨P, U, L, UL, S⟩)
  (m.S (M * N - 1), m)

/-- Lines 114-141 of `c_diag_step`, with the `float` additions rounded by `rnd`. -/
def c_diag_cands_rnd (rnd : ℚ → ℚ) (d0 d1 csm0 csm1 : FBuf) (M i1 j1 thisi idx : Int) :
    ℚ × ℚ × ℚ :=
  if j1 = 0 then
    let left : ℚ := if idx > 0 then rnd (d1 (idx - 1) + csm1 (idx - 1)) else -1
    let diag : ℚ := if idx > 0 ∧ thisi > 0 then rnd (d0 (idx - 1) + csm0 (idx - 1)) else -1
    let up : ℚ := if thisi > 0 then rnd (d1 idx + csm1 idx) else -1
    (left, up, diag)
  else if i1 = M - 1 ∧ j1 = 1 then
    let left : ℚ := rnd (d1 idx + csm1 idx)
    if thisi > 0 then
      (left, rnd (d1 (idx + 1) + csm1 (idx + 1)), rnd (d0 idx + csm0 idx))
    else (left, -1, -1)
  else if i1 = M - 1 ∧ j1 > 1 then
    let left : ℚ := rnd (d1 idx + csm1 idx)
    if thisi > 0 then
      (left, rnd (d1 (idx + 1) + csm1 (idx + 1)), rnd (d0 (idx + 1) + csm0 (idx + 1)))
    else (left, -1, -1)
  else (-1, -1, -1)

/-- Lines 86-159 of `c_diag_step`, with the `float` additions rounded by `rnd`. -/
def c_diag_iter_rnd (rnd : ℚ → ℚ) (d0 d1 csm0 csm1 : FBuf) (M N i debug : Int) (idx : Int)
    (st : DiagSt) : DiagSt :=
  let i1 : Int := if i ≥ M then M - 1 else i
  let j1 : Int := if i ≥ M then i - (M - 1) else 0
  let j2 : Int := if i ≥ N then N - 1 else i
  let i2 : Int := if i ≥ N then i - (N - 1) else 0
  let thisi := i1 - idx
  let thisj := j1 + idx
  let st1 : DiagSt :=
    if thisi ≥ i2 ∧ thisj ≤ j2 then
      if thisi = 0 ∧ thisj = 0 then
        if debug = -1 then
          { st with score := 0, S := wr st.S 0 0, U := wr st.U 0 (-1),
                    L := wr st.L 0 (-1), UL := wr st.UL 0 (-1) }
        else { st with score := 0 }
      else
        let c := c_diag_cands_rnd rnd d0 d1 csm0 csm1 M i1 j1 thisi idx
        let score := c_diag_select c.1 c.2.1 c.2.2 st.score
        if debug = 1 then
          { st with score := score,
                    U := wr st.U (thisi * N + thisj) c.2.1,
                    L := wr st.L (thisi * N + thisj) c.1,
                    UL := wr st.UL (thisi * N + thisj) c.2.2,
                    S := wr st.S (thisi * N + thisj) score }
        else { st with score := score }
    else st
  { st1 with d2 := wr st1.d2 idx st1.score }

/-- The function `c_diag_step` with every `float` addition rounded by `rnd`; with `rnd = id`
it is `c_diag_step`. -/
def c_diag_step_rnd (rnd : ℚ → ℚ) (d0 d1 d2 csm0 csm1 : FBuf) (M N diagLen i debug : Int)
    (U L UL S : FBuf) : DiagSt :=
  forLoop diagLen (c_diag_iter_rnd rnd d0 d1 csm0 csm1 M N i debug) ⟨-1, d2, U, L, UL, S⟩

/-- Modelled from the spec: `sweepRound` over `c_diag_step_rnd`. -/
def sweepRound_rnd (rnd : ℚ → ℚ) (CSM : FBuf) (M N debug : Int) (k : Int) (s : SweepSt) :
    SweepSt :=
  let r := c_diag_step_rnd rnd s.d0 s.d1 s.d2 s.csm0 s.csm1 M N (diagLength M N k) k debug
    s.U s.L s.UL s.S
  { d0 := s.d1, d1 := r.d2, d2 := s.d0, csm0 := s.csm1, csm1 := diagCSM CSM M N k,
    U := r.U, L := r.L, UL := r.UL, S := r.S }

/-- Modelled from the spec: `sweepLast` over `c_diag_step_rnd`. -/
def sweepLast_rnd (rnd : ℚ → ℚ) (CSM : FBuf) (M N debug : Int) (s : SweepSt) : DiagSt :=
  let t := forLoop (M + N - 2) (sweepRound_rnd rnd CSM M N debug) s
  c_diag_step_rnd rnd t.d0 t.d1 t.d2 t.csm0 t.csm1 M N (diagLength M N (M + N - 2))
    (M + N - 2) debug t.U t.L t.UL t.S


/-! ## The loops of `c_dtw` compute the recurrence -/

theorem wr_same {α : Type} (b : Int → α) (k : Int) (v : α) : wr b k v k = v := by
  simp [wr]

theorem wr_other {α : Type} (b : Int → α) (k x : Int) (v : α) (h : x ≠ k) :
    wr b k v x = b x := by
  simp [wr, h]

theorem wr_wr {α : Type} (b : Int → α) (k : Int) (v w : α) :
    wr (wr b k v) k w = wr b k w := by
  funext x; by_cases h : x = k <;> simp [wr, h]

theorem c_dtw_select_fst (l u d : ℚ) (P : IBuf) (k : Int) :
    (c_dtw_select l u d P k).1 = selScore l u d := by
  simp only [c_dtw_select, selScore]
  split_ifs <;> rfl

theorem c_dtw_select_snd (l u d : ℚ) (P : IBuf) (k : Int) :
    (c_dtw_select l u d P k).2 = (match selTag l u d with
      | some t => wr P k t
      | none => P) := by
  simp only [c_dtw_select, selTag]
  split_ifs <;> simp [wr_wr]

theorem Sref_eq (CSM : FBuf) (n i j : Nat) :
    Sref CSM n i j = if i = 0 ∧ j = 0 then 0 + CSM ((i : Int) * n + j)
      else selScore (candL CSM n i j) (candU CSM n i j) (candD CSM n i j)
        + CSM ((i : Int) * n + j) := by
  rw [Sref]
  simp only [candL, candU, candD, dite_eq_ite]

theorem cell_div (n i j : Nat) (hj : j < n) : ((i : Int) * n + j).toNat / n = i := by
  have h : ((i : Int) * n + j) = ((i * n + j : Nat) : Int) := by push_cast; ring
  rw [h, Int.toNat_ofNat, Nat.add_comm, Nat.add_mul_div_right _ _ (by omega)]
  simp [Nat.div_eq_of_lt hj]

theorem cell_mod (n i j : Nat) (hj : j < n) : ((i : Int) * n + j).toNat % n = j := by
  have h : ((i : Int) * n + j) = ((i * n + j : Nat) : Int) := by push_cast; ring
  rw [h, Int.toNat_ofNat, Nat.add_comm, Nat.add_mul_mod_self_right]
  exact Nat.mod_eq_of_lt hj

theorem fillMem_S_cell (CSM : FBuf) (n : Nat) (debug : Int) (m0 : Mem) (t : Int)
    (i j : Nat) (hj : j < n) (ht : (i : Int) * n + j < t) :
    (fillMem CSM n debug m0 t).S ((i : Int) * n + j) = Sref CSM n i j := by
  have h0 : (0 : Int) ≤ (i : Int) * n + j := by positivity
  simp only [fillMem, h0, ht, and_self, if_true, cell_div n i j hj, cell_mod n i j hj]

theorem fillMem_zero (CSM : FBuf) (n : Nat) (debug : Int) (m0 : Mem) :
    fillMem CSM n debug m0 0 = m0 := by
  have h : ∀ x : Int, ¬ (0 ≤ x ∧ x < 0) := fun x hx => by omega
  cases m0
  simp [fillMem, h]

theorem fillMem_read_left (CSM : FBuf) (n : Nat) (debug : Int) (m0 : Mem)
    (i j : Nat) (hj : j < n) (h : 0 < j) :
    (fillMem CSM n debug m0 ((i : Int) * n + j)).S ((i : Int) * n + ((j : Int) - 1))
      = Sref CSM n i (j - 1) := by
  have e : ((j : Int) - 1) = ((j - 1 : Nat) : Int) := by omega
  rw [e]
  exact fillMem_S_cell CSM n debug m0 _ i (j - 1) (by omega) (by omega)

theorem fillMem_read_up (CSM : FBuf) (n : Nat) (debug : Int) (m0 : Mem)
    (i j : Nat) (hj : j < n) (h : 0 < i) :
    (fillMem CSM n debug m0 ((i : Int) * n + j)).S (((i : Int) - 1) * n + j)
      = Sref CSM n (i - 1) j := by
  have e : ((i : Int) - 1) = ((i - 1 : Nat) : Int) := by omega
  have hlt : ((i : Int) - 1) * n + j < (i : Int) * n + j := by
    have : (0 : Int) < n := by omega
    linarith
  rw [e] at hlt ⊢
  exact fillMem_S_cell CSM n debug m0 _ (i - 1) j hj hlt

theorem fillMem_read_diag (CSM : FBuf) (n : Nat) (debug : Int) (m0 : Mem)
    (i j : Nat) (hj : j < n) (h : 0 < i) (h2 : 0 < j) :
    (fillMem CSM n debug m0 ((i : Int) * n + j)).S (((i : Int) - 1) * n + ((j : Int) - 1))
      = Sref CSM n (i - 1) (j - 1) := by
  have e : ((i : Int) - 1) = ((i - 1 : Nat) : Int) := by omega
  have e2 : ((j : Int) - 1) = ((j - 1 : Nat) : Int) := by omega
  have hlt : ((i : Int) - 1) * n + ((j : Int) - 1) < (i : Int) * n + j := by
    have : (0 : Int) < n := by omega
    linarith
  rw [e, e2] at hlt ⊢
  exact fillMem_S_cell CSM n debug m0 _ (i - 1) (j - 1) (by omega) hlt

theorem c_dtw_cell_S (CSM : FBuf) (N debug i j : Int) (m : Mem) :
    (c_dtw_cell CSM N debug i j m).S = wr m.S (i * N + j)
      ((if i = 0 ∧ j = 0 then 0
        else selScore (cands m.S N i j).1 (cands m.S N i j).2.1 (cands m.S N i j).2.2)
        + CSM (i * N + j)) := by
  unfold c_dtw_cell
  by_cases h : i = 0 ∧ j = 0
  · simp only [h, and_self, if_true]
    split_ifs <;> rfl
  · simp only [h, if_false, c_dtw_select_fst, cands]
    split_ifs <;> rfl

theorem c_dtw_cell_P (CSM : FBuf) (N debug i j : Int) (m : Mem) :
    (c_dtw_cell CSM N debug i j m).P = if i = 0 ∧ j = 0 then m.P
      else (match selTag (cands m.S N i j).1 (cands m.S N i j).2.1 (cands m.S N i j).2.2 with
        | some t => wr m.P (i * N + j) t
        | none => m.P) := by
  unfold c_dtw_cell
  by_cases h : i = 0 ∧ j = 0
  · simp only [h, and_self, if_true]
    split_ifs <;> rfl
  · simp only [h, if_false, c_dtw_select_snd, cands]
    split_ifs <;> rfl

theorem c_dtw_cell_U (CSM : FBuf) (N debug i j : Int) (m : Mem) :
    (c_dtw_cell CSM N debug i j m).U = if debug = 1 then
        wr m.U (i * N + j) (if i = 0 ∧ j = 0 then 0 else (cands m.S N i j).2.1)
      else m.U := by
  unfold c_dtw_cell
  by_cases h : i = 0 ∧ j = 0
  · obtain ⟨rfl, rfl⟩ := h
    simp only [and_self, if_true]
    split_ifs <;> simp
  · simp only [h, if_false, cands]
    split_ifs <;> rfl

theorem c_dtw_cell_L (CSM : FBuf) (N debug i j : Int) (m : Mem) :
    (c_dtw_cell CSM N debug i j m).L = if debug = 1 then
        wr m.L (i * N + j) (if i = 0 ∧ j = 0 then 0 else (cands m.S N i j).1)
      else m.L := by
  unfold c_dtw_cell
  by_cases h : i = 0 ∧ j = 0
  · obtain ⟨rfl, rfl⟩ := h
    simp only [and_self, if_true]
    split_ifs <;> simp
  · simp only [h, if_false, cands]
    split_ifs <;> rfl

theorem c_dtw_cell_UL (CSM : FBuf) (N debug i j : Int) (m : Mem) :
    (c_dtw_cell CSM N debug i j m).UL = if debug = 1 then
        wr m.UL (i * N + j) (if i = 0 ∧ j = 0 then 0 else (cands m.S N i j).2.2)
      else m.UL := by
  unfold c_dtw_cell
  by_cases h : i = 0 ∧ j = 0
  · obtain ⟨rfl, rfl⟩ := h
    simp only [and_self, if_true]
    split_ifs <;> simp
  · simp only [h, if_false, cands]
    split_ifs <;> rfl

theorem Mem_ext (a b : Mem) (hP : a.P = b.P) (hU : a.U = b.U) (hL : a.L = b.L)
    (hUL : a.UL = b.UL) (hS : a.S = b.S) : a = b := by
  cases a; cases b; simp_all

theorem cands_fillMem (CSM : FBuf) (n : Nat) (debug : Int) (m0 : Mem)
    (i j : Nat) (hj : j < n) :
    cands (fillMem CSM n debug m0 ((i : Int) * n + j)).S n i j
      = (candL CSM n i j, candU CSM n i j, candD CSM n i j) := by
  simp only [cands, candL, candU, candD, Prod.mk.injEq]
  refine ⟨?_, ?_, ?_⟩
  · by_cases h : 0 < j
    · rw [if_pos (by exact_mod_cast h), if_pos h, fillMem_read_left CSM n debug m0 i j hj h]
    · rw [if_neg (by omega), if_neg h]
  · by_cases h : 0 < i
    · rw [if_pos (by exact_mod_cast h), if_pos h, fillMem_read_up CSM n debug m0 i j hj h]
    · rw [if_neg (by omega), if_neg h]
  · by_cases h : 0 < i ∧ 0 < j
    · rw [if_pos (by exact_mod_cast h), if_pos h,
        fillMem_read_diag CSM n debug m0 i j hj h.1 h.2]
    · rw [if_neg (by omega), if_neg h]

theorem c_dtw_cell_fillMem (CSM : FBuf) (n : Nat) (debug : Int) (m0 : Mem)
    (i j : Nat) (hj : j < n) :
    c_dtw_cell CSM n debug i j (fillMem CSM n debug m0 ((i : Int) * n + j))
      = fillMem CSM n debug m0 ((i : Int) * n + j + 1) := by
  have ht0 : (0 : Int) ≤ (i : Int) * n + j := by positivity
  have hc := cands_fillMem CSM n debug m0 i j hj
  have hdiv := cell_div n i j hj
  have hmod := cell_mod n i j hj
  have h00 : ((i : Int) = 0 ∧ (j : Int) = 0) ↔ (i = 0 ∧ j = 0) := by omega
  have hz : ((i : Int) * n + j = 0) ↔ (i = 0 ∧ j = 0) := by
    constructor
    · intro h
      have h1 : (0 : Int) ≤ (i : Int) * n := by positivity
      have h2 : (j : Int) = 0 := by omega
      have h3 : (i : Int) * n = 0 := by omega
      have h4 : (n : Int) ≠ 0 := by omega
      rcases mul_eq_zero.mp h3 with h5 | h5
      · omega
      · exact absurd h5 h4
    · rintro ⟨rfl, rfl⟩; simp
  have hlt : ∀ x : Int, x ≠ (i : Int) * n + j →
      ((0 ≤ x ∧ x < (i : Int) * n + j + 1) ↔ (0 ≤ x ∧ x < (i : Int) * n + j)) := by
    intro x hx; constructor <;> rintro ⟨h1, h2⟩ <;> exact ⟨h1, by omega⟩
  apply Mem_ext
  · rw [c_dtw_cell_P, hc]
    funext x
    by_cases hx : x = (i : Int) * n + j
    · subst hx
      by_cases hij : i = 0 ∧ j = 0
      · obtain ⟨rfl, rfl⟩ := hij
        simp [fillMem, Tref]
      · rw [if_neg (by rwa [h00])]
        simp only [fillMem, ht0, true_and, lt_add_one, if_true, hdiv, hmod, Tref, if_neg hij]
        cases selTag (candL CSM n i j) (candU CSM n i j) (candD CSM n i j) with
        | none => simp only [lt_self_iff_false, and_false, if_false]
        | some t => simp only [wr_same]
    · have e : (fillMem CSM n debug m0 ((i : Int) * n + j + 1)).P x
          = (fillMem CSM n debug m0 ((i : Int) * n + j)).P x := by
        simp only [fillMem, hlt x hx]
      rw [e]
      by_cases hij : i = 0 ∧ j = 0
      · rw [if_pos (by rwa [h00])]
      · rw [if_neg (by rwa [h00])]
        cases selTag (candL CSM n i j) (candU CSM n i j) (candD CSM n i j) with
        | none => rfl
        | some t => simp only [wr_other _ _ _ _ hx]
  · rw [c_dtw_cell_U, hc]
    funext x
    by_cases hd : debug = 1
    · rw [if_pos hd]
      by_cases hx : x = (i : Int) * n + j
      · subst hx
        simp only [wr_same, fillMem, hd, ht0, true_and, lt_add_one, if_true, hdiv, hmod, h00, hz]
      · rw [wr_other _ _ _ _ hx]
        simp only [fillMem, hlt x hx]
    · rw [if_neg hd]; simp only [fillMem, hd, false_and, if_false]
  · rw [c_dtw_cell_L, hc]
    funext x
    by_cases hd : debug = 1
    · rw [if_pos hd]
      by_cases hx : x = (i : Int) * n + j
      · subst hx
        simp only [wr_same, fillMem, hd, ht0, true_and, lt_add_one, if_true, hdiv, hmod, h00, hz]
      · rw [wr_other _ _ _ _ hx]
        simp only [fillMem, hlt x hx]
    · rw [if_neg hd]; simp only [fillMem, hd, false_and, if_false]
  · rw [c_dtw_cell_UL, hc]
    funext x
    by_cases hd : debug = 1
    · rw [if_pos hd]
      by_cases hx : x = (i : Int) * n + j
      · subst hx
        simp only [wr_same, fillMem, hd, ht0, true_and, lt_add_one, if_true, hdiv, hmod, h00, hz]
      · rw [wr_other _ _ _ _ hx]
        simp only [fillMem, hlt x hx]
    · rw [if_neg hd]; simp only [fillMem, hd, false_and, if_false]
  · rw [c_dtw_cell_S, hc]
    funext x
    by_cases hx : x = (i : Int) * n + j
    · subst hx
      simp only [wr_same, fillMem, ht0, true_and, lt_add_one, if_true, hdiv, hmod, h00]
      rw [Sref_eq CSM n i j]
      split_ifs <;> simp
    · rw [wr_other _ _ _ _ hx]
      simp only [fillMem, hlt x hx]

theorem loopN_row {σ : Type} (body : Int → σ → σ) (E : Int → σ) (base : Int) (c : Nat)
    (hstep : ∀ j : Nat, j < c → body j (E (base + j)) = E (base + j + 1)) :
    loopN body c (E base) = E (base + c) := by
  induction c with
  | zero => simp [loopN]
  | succ c ih =>
    rw [loopN, ih (fun j hj => hstep j (by omega)), hstep c (by omega)]
    congr 1
    push_cast; ring

theorem loopN_rows {σ : Type} (body : Int → Int → σ → σ) (E : Int → σ) (n : Nat)
    (hstep : ∀ i j : Nat, j < n → body i j (E ((i : Int) * n + j)) = E ((i : Int) * n + j + 1))
    (m : Nat) :
    loopN (fun i s => forLoop n (fun j s => body i j s) s) m (E 0) = E ((m : Int) * n) := by
  induction m with
  | zero => simp [loopN]
  | succ m ih =>
    rw [loopN, ih]
    simp only [forLoop, Int.toNat_ofNat]
    rw [loopN_row (body m) E ((m : Int) * n) n (fun j hj => hstep m j hj)]
    congr 1
    push_cast; ring

theorem c_dtw_fill_eq (CSM : FBuf) (m n : Nat) (debug : Int) (m0 : Mem) :
    c_dtw_fill CSM m n debug m0 = fillMem CSM n debug m0 ((m : Int) * n) := by
  unfold c_dtw_fill
  simp only [forLoop, Int.toNat_ofNat]
  have h := loopN_rows (c_dtw_cell CSM n debug) (fillMem CSM n debug m0) n
    (fun i j hj => c_dtw_cell_fillMem CSM n debug m0 i j hj) m
  rw [fillMem_zero] at h
  simpa only [forLoop, Int.toNat_ofNat] using h

theorem initMem_zero (m0 : Mem) : initMem m0 0 = m0 := by
  have h : ∀ x : Int, ¬ (0 ≤ x ∧ x < 0) := fun x hx => by omega
  cases m0
  simp [initMem, h]

theorem c_dtw_init_eq (m n : Nat) (debug : Int) (m0 : Mem) :
    c_dtw_init m n debug m0 = if debug = 1 then initMem m0 ((m : Int) * n) else m0 := by
  unfold c_dtw_init
  by_cases hd : debug = 1
  · simp only [hd, if_true, forLoop, Int.toNat_ofNat]
    have h := loopN_rows (fun (i j : Int) (m : Mem) =>
        ({ m with U := wr m.U (i * n + j) (-1),
                  L := wr m.L (i * n + j) (-1),
                  UL := wr m.UL (i * n + j) (-1) } : Mem)) (initMem m0) n
      (fun i j _ => by
        have ht0 : (0 : Int) ≤ (i : Int) * n + j := by positivity
        have hlt : ∀ x : Int, x ≠ (i : Int) * n + j →
            ((0 ≤ x ∧ x < (i : Int) * n + j + 1) ↔ (0 ≤ x ∧ x < (i : Int) * n + j)) := by
          intro x hx; constructor <;> rintro ⟨h1, h2⟩ <;> exact ⟨h1, by omega⟩
        apply Mem_ext
        · rfl
        · funext x
          by_cases hx : x = (i : Int) * n + j
          · subst hx; simp [initMem, wr, ht0]
          · simp only [initMem, wr, if_neg hx, hlt x hx]
        · funext x
          by_cases hx : x = (i : Int) * n + j
          · subst hx; simp [initMem, wr, ht0]
          · simp only [initMem, wr, if_neg hx, hlt x hx]
        · funext x
          by_cases hx : x = (i : Int) * n + j
          · subst hx; simp [initMem, wr, ht0]
          · simp only [initMem, wr, if_neg hx, hlt x hx]
        · rfl) m
    rw [initMem_zero] at h
    simpa only [forLoop, Int.toNat_ofNat] using h
  · simp only [hd, if_false]

/-! ## Properties of the recurrence -/

theorem cell_lt (m n i j : Nat) (hi : i < m) (hj : j < n) :
    (i : Int) * n + j < (m : Int) * n := by
  have h : (i + 1) * n ≤ m * n := Nat.mul_le_mul_right n hi
  have h' : ((i : Int) + 1) * n ≤ (m : Int) * n := by exact_mod_cast h
  have : ((i : Int) + 1) * n = (i : Int) * n + n := by ring
  omega

theorem c_dtw_snd (CSM : FBuf) (P : IBuf) (m n : Nat) (debug : Int) (U L UL S : FBuf) :
    (c_dtw CSM P m n debug U L UL S).2
      = fillMem CSM n debug (if debug = 1 then initMem ⟨P, U, L, UL, S⟩ ((m : Int) * n)
          else ⟨P, U, L, UL, S⟩) ((m : Int) * n) := by
  simp only [c_dtw, c_dtw_fill_eq, c_dtw_init_eq]

theorem c_dtw_fst (CSM : FBuf) (P : IBuf) (M N debug : Int) (U L UL S : FBuf) :
    (c_dtw CSM P M N debug U L UL S).1 = (c_dtw CSM P M N debug U L UL S).2.S (M * N - 1) := by
  rfl

theorem c_dtw_S_at (CSM : FBuf) (P : IBuf) (m n : Nat) (debug : Int) (U L UL S : FBuf)
    (i j : Nat) (hi : i < m) (hj : j < n) :
    (c_dtw CSM P m n debug U L UL S).2.S ((i : Int) * n + j) = Sref CSM n i j := by
  rw [c_dtw_snd]
  exact fillMem_S_cell CSM n debug _ _ i j hj (cell_lt m n i j hi hj)

theorem c_dtw_P_at (CSM : FBuf) (P : IBuf) (m n : Nat) (debug : Int) (U L UL S : FBuf)
    (i j : Nat) (hi : i < m) (hj : j < n) :
    (c_dtw CSM P m n debug U L UL S).2.P ((i : Int) * n + j)
      = (match Tref CSM n i j with
          | some t => t
          | none => P ((i : Int) * n + j)) := by
  rw [c_dtw_snd]
  have h0 : (0 : Int) ≤ (i : Int) * n + j := by positivity
  simp only [fillMem, h0, cell_lt m n i j hi hj, and_self, if_true, cell_div n i j hj,
    cell_mod n i j hj]
  cases Tref CSM n i j with
  | none => by_cases hd : debug = 1 <;> simp [hd, initMem]
  | some t => rfl

theorem cell_zero_iff (n i j : Nat) (hj : j < n) :
    ((i : Int) * n + j = 0) ↔ (i = 0 ∧ j = 0) := by
  constructor
  · intro h
    have h1 : (0 : Int) ≤ (i : Int) * n := by positivity
    have h2 : (j : Int) = 0 := by omega
    have h3 : (i : Int) * n = 0 := by omega
    have h4 : (n : Int) ≠ 0 := by omega
    rcases mul_eq_zero.mp h3 with h5 | h5
    · omega
    · exact absurd h5 h4
  · rintro ⟨rfl, rfl⟩; simp

theorem c_dtw_U_at (CSM : FBuf) (P : IBuf) (m n : Nat) (U L UL S : FBuf)
    (i j : Nat) (hi : i < m) (hj : j < n) :
    (c_dtw CSM P m n 1 U L UL S).2.U ((i : Int) * n + j)
      = if i = 0 ∧ j = 0 then 0 else candU CSM n i j := by
  rw [c_dtw_snd]
  have h0 : (0 : Int) ≤ (i : Int) * n + j := by positivity
  simp only [fillMem, h0, cell_lt m n i j hi hj, and_self, if_true, cell_div n i j hj,
    cell_mod n i j hj, cell_zero_iff n i j hj]

theorem c_dtw_L_at (CSM : FBuf) (P : IBuf) (m n : Nat) (U L UL S : FBuf)
    (i j : Nat) (hi : i < m) (hj : j < n) :
    (c_dtw CSM P m n 1 U L UL S).2.L ((i : Int) * n + j)
      = if i = 0 ∧ j = 0 then 0 else candL CSM n i j := by
  rw [c_dtw_snd]
  have h0 : (0 : Int) ≤ (i : Int) * n + j := by positivity
  simp only [fillMem, h0, cell_lt m n i j hi hj, and_self, if_true, cell_div n i j hj,
    cell_mod n i j hj, cell_zero_iff n i j hj]

theorem c_dtw_UL_at (CSM : FBuf) (P : IBuf) (m n : Nat) (U L UL S : FBuf)
    (i j : Nat) (hi : i < m) (hj : j < n) :
    (c_dtw CSM P m n 1 U L UL S).2.UL ((i : Int) * n + j)
      = if i = 0 ∧ j = 0 then 0 else candD CSM n i j := by
  rw [c_dtw_snd]
  have h0 : (0 : Int) ≤ (i : Int) * n + j := by positivity
  simp only [fillMem, h0, cell_lt m n i j hi hj, and_self, if_true, cell_div n i j hj,
    cell_mod n i j hj, cell_zero_iff n i j hj]

/-! ## The selection chain on feasible candidates -/

theorem selScore_left (l : ℚ) (hl : 0 ≤ l) : selScore l (-1) (-1) = l := by
  have : l > -1 := by linarith
  simp [selScore, this]

theorem selScore_up (u : ℚ) (hu : 0 ≤ u) : selScore (-1) u (-1) = u := by
  have : u > -1 := by linarith
  simp [selScore, this]

theorem selScore_all (l u d : ℚ) (hl : 0 ≤ l) (hu : 0 ≤ u) (hd : 0 ≤ d) :
    selScore l u d = min l (min u d) := by
  have h1 : l > -1 := by linarith
  have h2 : u > -1 := by linarith
  have h3 : d > -1 := by linarith
  have h4 : l ≠ -1 := by linarith
  have h5 : u ≠ -1 := by linarith
  simp only [selScore, h1, h2, h3, h4, h5, if_true, true_and, or_false]
  by_cases a : u < l
  · simp only [a, if_true, h5, or_false]
    by_cases b : d ≤ u
    · rw [if_pos b, min_eq_right b, min_eq_right (le_trans b (le_of_lt a))]
    · rw [if_neg b, min_eq_left (le_of_lt (not_le.mp b)), min_eq_right (le_of_lt a)]
  · simp only [a, if_false, h4, or_false]
    by_cases b : d ≤ l
    · rw [if_pos b]
      rw [min_comm u d, ← min_assoc, min_eq_right b, min_eq_left (le_trans b (not_lt.mp a))]
    · rw [if_neg b]
      have : l ≤ min u d := le_min (not_lt.mp a) (le_of_lt (not_le.mp b))
      rw [min_eq_left this]

theorem selTag_left (l : ℚ) (hl : 0 ≤ l) : selTag l (-1) (-1) = some LEFT := by
  have : l > -1 := by linarith
  simp [selTag, this]

theorem selTag_up (u : ℚ) (hu : 0 ≤ u) : selTag (-1) u (-1) = some UP := by
  have : u > -1 := by linarith
  simp [selTag, this]

theorem selTag_all (l u d : ℚ) (hl : 0 ≤ l) (hu : 0 ≤ u) (hd : 0 ≤ d) :
    selTag l u d = if d ≤ min l u then some DIAG else if u < l then some UP else some LEFT := by
  have h1 : l > -1 := by linarith
  have h2 : u > -1 := by linarith
  have h3 : d > -1 := by linarith
  have h4 : l ≠ -1 := by linarith
  have h5 : u ≠ -1 := by linarith
  simp only [selTag, h1, h2, h3, h4, h5, if_true, true_and, or_false]
  by_cases a : u < l
  · simp only [a, if_true, h5, or_false, min_eq_right (le_of_lt a)]
  · simp only [a, if_false, h4, or_false, min_eq_left (not_lt.mp a)]

/-! ## The recurrence on a non-negative cost matrix -/

theorem Sref_cases (CSM : FBuf) (m n : Nat) (h : NonNegN CSM m n) :
    ∀ s i j : Nat, i + j = s → i < m → j < n →
      0 ≤ Sref CSM n i j ∧
      Sref CSM n i j = CSM ((i : Int) * n + j) +
        (if i = 0 then (if j = 0 then 0 else Sref CSM n 0 (j - 1))
         else if j = 0 then Sref CSM n (i - 1) 0
         else min (Sref CSM n i (j - 1))
           (min (Sref CSM n (i - 1) j) (Sref CSM n (i - 1) (j - 1)))) := by
  intro s
  induction s using Nat.strong_induction_on with
  | _ s ih =>
    intro i j hs hi hj
    have hc := h i j hi hj
    have key : Sref CSM n i j = CSM ((i : Int) * n + j) +
        (if i = 0 then (if j = 0 then 0 else Sref CSM n 0 (j - 1))
         else if j = 0 then Sref CSM n (i - 1) 0
         else min (Sref CSM n i (j - 1))
           (min (Sref CSM n (i - 1) j) (Sref CSM n (i - 1) (j - 1)))) ∧
        0 ≤ (if i = 0 then (if j = 0 then 0 else Sref CSM n 0 (j - 1))
         else if j = 0 then Sref CSM n (i - 1) 0
         else min (Sref CSM n i (j - 1))
           (min (Sref CSM n (i - 1) j) (Sref CSM n (i - 1) (j - 1)))) := by
      rw [Sref_eq]
      by_cases hi0 : i = 0
      · by_cases hj0 : j = 0
        · subst hi0; subst hj0
          simp
        · subst hi0
          have hl := (ih (0 + (j - 1)) (by omega) 0 (j - 1) rfl hi (by omega)).1
          have e1 : candL CSM n 0 j = Sref CSM n 0 (j - 1) := by
            simp [candL, Nat.pos_of_ne_zero hj0]
          have e2 : candU CSM n 0 j = -1 := by simp [candU]
          have e3 : candD CSM n 0 j = -1 := by simp [candD]
          rw [e1, e2, e3, selScore_left _ hl]
          simp only [hj0, false_and, and_false, if_false, if_true]
          exact ⟨by ring, hl⟩
      · by_cases hj0 : j = 0
        · subst hj0
          have hu := (ih ((i - 1) + 0) (by omega) (i - 1) 0 rfl (by omega) hj).1
          have e1 : candL CSM n i 0 = -1 := by simp [candL]
          have e2 : candU CSM n i 0 = Sref CSM n (i - 1) 0 := by
            simp [candU, Nat.pos_of_ne_zero hi0]
          have e3 : candD CSM n i 0 = -1 := by simp [candD]
          rw [e1, e2, e3, selScore_up _ hu]
          simp only [hi0, false_and, if_false, if_true]
          exact ⟨by ring, hu⟩
        · have hl := (ih (i + (j - 1)) (by omega) i (j - 1) rfl hi (by omega)).1
          have hu := (ih ((i - 1) + j) (by omega) (i - 1) j rfl (by omega) hj).1
          have hd := (ih ((i - 1) + (j - 1)) (by omega) (i - 1) (j - 1) rfl (by omega)
            (by omega)).1
          have e1 : candL CSM n i j = Sref CSM n i (j - 1) := by
            simp [candL, Nat.pos_of_ne_zero hj0]
          have e2 : candU CSM n i j = Sref CSM n (i - 1) j := by
            simp [candU, Nat.pos_of_ne_zero hi0]
          have e3 : candD CSM n i j = Sref CSM n (i - 1) (j - 1) := by
            simp [candD, Nat.pos_of_ne_zero hi0, Nat.pos_of_ne_zero hj0]
          rw [e1, e2, e3, selScore_all _ _ _ hl hu hd]
          simp only [hi0, hj0, false_and, and_false, if_false]
          exact ⟨by ring, le_min hl (le_min hu hd)⟩
    refine ⟨?_, key.1⟩
    rw [key.1]
    linarith [key.2]

theorem Sref_nonneg (CSM : FBuf) (m n : Nat) (h : NonNegN CSM m n) (i j : Nat)
    (hi : i < m) (hj : j < n) : 0 ≤ Sref CSM n i j :=
  (Sref_cases CSM m n h (i + j) i j rfl hi hj).1

theorem Sref_rec (CSM : FBuf) (m n : Nat) (h : NonNegN CSM m n) (i j : Nat)
    (hi : i < m) (hj : j < n) :
    Sref CSM n i j = CSM ((i : Int) * n + j) +
        (if i = 0 then (if j = 0 then 0 else Sref CSM n 0 (j - 1))
         else if j = 0 then Sref CSM n (i - 1) 0
         else min (Sref CSM n i (j - 1))
           (min (Sref CSM n (i - 1) j) (Sref CSM n (i - 1) (j - 1)))) :=
  (Sref_cases CSM m n h (i + j) i j rfl hi hj).2

theorem NonNeg.toN {CSM : FBuf} {m n : Nat} (h : NonNeg CSM m n) : NonNegN CSM m n :=
  fun i j hi hj => h i j (by omega) (by omega) (by omega) (by omega)

theorem c_dtw_S_int (CSM : FBuf) (P : IBuf) (m n : Nat) (debug : Int) (U L UL S : FBuf)
    (i j : Int) (hi0 : 0 ≤ i) (hi : i < m) (hj0 : 0 ≤ j) (hj : j < n) :
    (c_dtw CSM P m n debug U L UL S).2.S (i * n + j) = Sref CSM n i.toNat j.toNat := by
  have h := c_dtw_S_at CSM P m n debug U L UL S i.toNat j.toNat (by omega) (by omega)
  rwa [Int.toNat_of_nonneg hi0, Int.toNat_of_nonneg hj0] at h

theorem Sref_int (CSM : FBuf) (m n : Nat) (h : NonNeg CSM m n)
    (i j : Int) (hi0 : 0 ≤ i) (hi : i < m) (hj0 : 0 ≤ j) (hj : j < n) :
    Sref CSM n i.toNat j.toNat = CSM (i * n + j) +
      (if i > 0 ∧ j > 0 then min (Sref CSM n i.toNat (j - 1).toNat)
          (min (Sref CSM n (i - 1).toNat j.toNat) (Sref CSM n (i - 1).toNat (j - 1).toNat))
       else if j > 0 then Sref CSM n i.toNat (j - 1).toNat
       else if i > 0 then Sref CSM n (i - 1).toNat j.toNat
       else 0) := by
  have e := Sref_rec CSM m n h.toN i.toNat j.toNat (by omega) (by omega)
  rw [Int.toNat_of_nonneg hi0, Int.toNat_of_nonneg hj0] at e
  rw [e]
  have e1 : (i - 1).toNat = i.toNat - 1 := by omega
  have e2 : (j - 1).toNat = j.toNat - 1 := by omega
  rw [e1, e2]
  by_cases a : i > 0
  · have a' : i.toNat ≠ 0 := by omega
    by_cases b : j > 0
    · have b' : j.toNat ≠ 0 := by omega
      simp only [a, b, a', b', and_self, if_true, if_false]
    · have b' : j.toNat = 0 := by omega
      simp only [a, b, a', b', and_false, if_true, if_false]
  · have a' : i.toNat = 0 := by omega
    by_cases b : j > 0
    · have b' : j.toNat ≠ 0 := by omega
      simp only [a, b, a', b', false_and, if_true, if_false]
    · have b' : j.toNat = 0 := by omega
      simp only [a, b, a', b', false_and, if_true, if_false]

theorem pos_cast (M : Int) (hM : 0 < M) : ∃ m : Nat, M = (m : Int) ∧ 0 < m :=
  ⟨M.toNat, by omega, by omega⟩

/-! ## Monotone paths -/

theorem Sref_le_pred (CSM : FBuf) (m n : Nat) (h : NonNeg CSM m n) (c p : Cell)
    (hc1 : c.1 < m) (hc2 : c.2 < n) (hp1 : 0 ≤ p.1) (hp2 : 0 ≤ p.2) (hs : isStep p c) :
    SrefC CSM n c ≤ CSM (c.1 * n + c.2) + SrefC CSM n p := by
  obtain ⟨i, j⟩ := c
  obtain ⟨a, b⟩ := p
  simp only [isStep, Prod.mk.injEq] at hs
  simp only at hc1 hc2 hp1 hp2
  simp only [SrefC]
  rw [Sref_int CSM m n h i j (by omega) hc1 (by omega) hc2]
  rcases hs with ⟨h1, h2⟩ | ⟨h1, h2⟩ | ⟨h1, h2⟩
  · subst h1; subst h2
    have e : b + 1 - 1 = b := by ring
    by_cases hi : i > 0
    · simp only [hi, show b + 1 > 0 by omega, and_self, if_true, e]
      linarith [min_le_left (Sref CSM n i.toNat b.toNat)
        (min (Sref CSM n (i - 1).toNat (b + 1).toNat) (Sref CSM n (i - 1).toNat b.toNat))]
    · simp only [hi, show b + 1 > 0 by omega, false_and, if_true, if_false, e, le_refl]
  · subst h1; subst h2
    have e : a + 1 - 1 = a := by ring
    by_cases hj : j > 0
    · simp only [hj, show a + 1 > 0 by omega, and_self, if_true, e]
      have := min_le_right (Sref CSM n (a + 1).toNat (j - 1).toNat)
        (min (Sref CSM n a.toNat j.toNat) (Sref CSM n a.toNat (j - 1).toNat))
      have := min_le_left (Sref CSM n a.toNat j.toNat) (Sref CSM n a.toNat (j - 1).toNat)
      linarith
    · simp only [hj, show a + 1 > 0 by omega, and_false, if_true, if_false, e, le_refl]
  · subst h1; subst h2
    have e : a + 1 - 1 = a := by ring
    have e2 : b + 1 - 1 = b := by ring
    simp only [show a + 1 > 0 by omega, show b + 1 > 0 by omega, and_self, if_true, e, e2]
    have := min_le_right (Sref CSM n (a + 1).toNat b.toNat)
      (min (Sref CSM n a.toNat (b + 1).toNat) (Sref CSM n a.toNat b.toNat))
    have := min_le_right (Sref CSM n a.toNat (b + 1).toNat) (Sref CSM n a.toNat b.toNat)
    linarith

theorem back_path_lower (CSM : FBuf) (m n : Nat) (hm : 0 < m) (hn : 0 < n)
    (h : NonNeg CSM m n) :
    ∀ (l : List Cell) (c : Cell), l.head? = some c → l.getLast? = some (0, 0) →
      l.Chain' (flip isStep) →
      0 ≤ c.1 ∧ 0 ≤ c.2 ∧ (c.1 < m → c.2 < n → SrefC CSM n c ≤ pathCost CSM n l) := by
  intro l
  induction l with
  | nil => intro c hh; simp at hh
  | cons x l ih =>
    intro c hh hl hch
    simp only [List.head?_cons, Option.some.injEq] at hh
    subst hh
    cases l with
    | nil =>
      simp only [List.getLast?_singleton, Option.some.injEq] at hl
      subst hl
      refine ⟨le_rfl, le_rfl, fun _ _ => ?_⟩
      have e := Sref_int CSM m n h 0 0 le_rfl (by omega) le_rfl (by omega)
      simp only [SrefC, pathCost, List.map_cons, List.map_nil, List.sum_cons, List.sum_nil]
      rw [e]; simp
    | cons y l =>
      rw [List.getLast?_cons_cons] at hl
      rw [List.chain'_cons] at hch
      obtain ⟨hy1, hy2, hy3⟩ := ih y rfl hl hch.2
      have hs : isStep y x := hch.1
      have hx : y.1 ≤ x.1 ∧ y.2 ≤ x.2 := by
        obtain ⟨a, b⟩ := y
        obtain ⟨i, j⟩ := x
        simp only [isStep, Prod.mk.injEq] at hs
        simp only
        omega
      refine ⟨by omega, by omega, fun h1 h2 => ?_⟩
      have hb := Sref_le_pred CSM m n h x y h1 h2 hy1 hy2 hs
      have hy := hy3 (by omega) (by omega)
      have e : pathCost CSM n (x :: y :: l) = CSM (x.1 * n + x.2) + pathCost CSM n (y :: l) := by
        simp [pathCost]
      rw [e]
      linarith

/-! ## The tags -/

theorem Tref_cases (CSM : FBuf) (m n : Nat) (h : NonNegN CSM m n) (i j : Nat)
    (hi : i < m) (hj : j < n) (hne : ¬ (i = 0 ∧ j = 0)) :
    Tref CSM n i j = some
      (if 0 < i ∧ 0 < j ∧
          Sref CSM n (i - 1) (j - 1) ≤ min (Sref CSM n i (j - 1)) (Sref CSM n (i - 1) j)
        then DIAG
        else if 0 < i ∧ (j = 0 ∨ Sref CSM n (i - 1) j < Sref CSM n i (j - 1)) then UP
        else LEFT) := by
  simp only [Tref, if_neg hne]
  by_cases hi0 : i = 0
  · have hj0 : 0 < j := by omega
    subst hi0
    have hl := Sref_nonneg CSM m n h 0 (j - 1) hi (by omega)
    have e1 : candL CSM n 0 j = Sref CSM n 0 (j - 1) := by simp [candL, hj0]
    have e2 : candU CSM n 0 j = -1 := by simp [candU]
    have e3 : candD CSM n 0 j = -1 := by simp [candD]
    rw [e1, e2, e3, selTag_left _ hl]
    simp
  · by_cases hj0 : j = 0
    · subst hj0
      have hu := Sref_nonneg CSM m n h (i - 1) 0 (by omega) hj
      have e1 : candL CSM n i 0 = -1 := by simp [candL]
      have e2 : candU CSM n i 0 = Sref CSM n (i - 1) 0 := by
        simp [candU, Nat.pos_of_ne_zero hi0]
      have e3 : candD CSM n i 0 = -1 := by simp [candD]
      rw [e1, e2, e3, selTag_up _ hu]
      simp [Nat.pos_of_ne_zero hi0]
    · have hl := Sref_nonneg CSM m n h i (j - 1) hi (by omega)
      have hu := Sref_nonneg CSM m n h (i - 1) j (by omega) hj
      have hd := Sref_nonneg CSM m n h (i - 1) (j - 1) (by omega) (by omega)
      have e1 : candL CSM n i j = Sref CSM n i (j - 1) := by
        simp [candL, Nat.pos_of_ne_zero hj0]
      have e2 : candU CSM n i j = Sref CSM n (i - 1) j := by
        simp [candU, Nat.pos_of_ne_zero hi0]
      have e3 : candD CSM n i j = Sref CSM n (i - 1) (j - 1) := by
        simp [candD, Nat.pos_of_ne_zero hi0, Nat.pos_of_ne_zero hj0]
      rw [e1, e2, e3, selTag_all _ _ _ hl hu hd]
      simp only [Nat.pos_of_ne_zero hi0, Nat.pos_of_ne_zero hj0, true_and, hj0, false_or]
      split_ifs <;> rfl

theorem c_dtw_P_int (CSM : FBuf) (P : IBuf) (m n : Nat) (debug : Int) (U L UL S : FBuf)
    (h : NonNeg CSM m n)
    (i j : Int) (hi0 : 0 ≤ i) (hi : i < m) (hj0 : 0 ≤ j) (hj : j < n)
    (hne : ¬ (i = 0 ∧ j = 0)) :
    (c_dtw CSM P m n debug U L UL S).2.P (i * n + j) =
      (if 0 < i ∧ 0 < j ∧
          SrefC CSM n (i - 1, j - 1) ≤ min (SrefC CSM n (i, j - 1)) (SrefC CSM n (i - 1, j))
        then DIAG
        else if 0 < i ∧ (j = 0 ∨ SrefC CSM n (i - 1, j) < SrefC CSM n (i, j - 1)) then UP
        else LEFT) := by
  have e := c_dtw_P_at CSM P m n debug U L UL S i.toNat j.toNat (by omega) (by omega)
  rw [Int.toNat_of_nonneg hi0, Int.toNat_of_nonneg hj0] at e
  rw [e, Tref_cases CSM m n h.toN i.toNat j.toNat (by omega) (by omega) (by omega)]
  have e1 : (i - 1).toNat = i.toNat - 1 := by omega
  have e2 : (j - 1).toNat = j.toNat - 1 := by omega
  have a : (0 < i.toNat) ↔ (0 < i) := by omega
  have b : (0 < j.toNat) ↔ (0 < j) := by omega
  have c : (j.toNat = 0) ↔ (j = 0) := by omega
  simp only [SrefC, e1, e2, a, b, c]

theorem tags_ne : LEFT ≠ UP ∧ LEFT ≠ DIAG ∧ UP ≠ DIAG := by
  simp [LEFT, UP, DIAG]

theorem backStep_spec (CSM : FBuf) (P : IBuf) (m n : Nat) (debug : Int) (U L UL S : FBuf)
    (h : NonNeg CSM m n) (c : Cell)
    (hi0 : 0 ≤ c.1) (hi : c.1 < m) (hj0 : 0 ≤ c.2) (hj : c.2 < n) (hne : c ≠ (0, 0)) :
    0 ≤ (backStep (c_dtw CSM P m n debug U L UL S).2.P n c).1 ∧
    0 ≤ (backStep (c_dtw CSM P m n debug U L UL S).2.P n c).2 ∧
    isStep (backStep (c_dtw CSM P m n debug U L UL S).2.P n c) c ∧
    SrefC CSM n c = CSM (c.1 * n + c.2)
      + SrefC CSM n (backStep (c_dtw CSM P m n debug U L UL S).2.P n c) := by
  obtain ⟨i, j⟩ := c
  simp only at hi0 hi hj0 hj
  have hne' : ¬ (i = 0 ∧ j = 0) := by
    rintro ⟨rfl, rfl⟩; exact hne rfl
  have hP := c_dtw_P_int CSM P m n debug U L UL S h i j hi0 hi hj0 hj hne'
  have hS := Sref_int CSM m n h i j hi0 hi hj0 hj
  obtain ⟨t1, t2, t3⟩ := tags_ne
  simp only [backStep, hP, SrefC, isStep] at hS ⊢
  by_cases hD : 0 < i ∧ 0 < j ∧
      Sref CSM n (i - 1).toNat (j - 1).toNat
        ≤ min (Sref CSM n i.toNat (j - 1).toNat) (Sref CSM n (i - 1).toNat j.toNat)
  · rw [if_pos hD]
    simp only [t2.symm, t3.symm, if_false, if_true]
    refine ⟨by omega, by omega, Or.inr (Or.inr (by simp)), ?_⟩
    rw [hS, if_pos ⟨hD.1, hD.2.1⟩]
    have h3 := hD.2.2
    rw [le_min_iff] at h3
    rw [min_eq_right (le_trans (min_le_right _ _) h3.1), min_eq_right h3.2]
  · rw [if_neg hD]
    by_cases hU : 0 < i ∧ (j = 0 ∨ Sref CSM n (i - 1).toNat j.toNat
        < Sref CSM n i.toNat (j - 1).toNat)
    · rw [if_pos hU]
      simp only [t1.symm, if_false, if_true]
      refine ⟨by omega, by omega, Or.inr (Or.inl (by simp)), ?_⟩
      rw [hS]
      by_cases hj1 : 0 < j
      · have hlt : Sref CSM n (i - 1).toNat j.toNat < Sref CSM n i.toNat (j - 1).toNat := by
          rcases hU.2 with h0 | h0
          · omega
          · exact h0
        rw [if_pos ⟨hU.1, hj1⟩]
        have hd : ¬ Sref CSM n (i - 1).toNat (j - 1).toNat
            ≤ min (Sref CSM n i.toNat (j - 1).toNat) (Sref CSM n (i - 1).toNat j.toNat) :=
          fun hd => hD ⟨hU.1, hj1, hd⟩
        rw [min_eq_right (le_of_lt hlt)] at hd
        rw [min_eq_left (le_of_lt (not_le.mp hd)), min_eq_right (le_of_lt hlt)]
      · rw [if_neg (by omega), if_neg hj1, if_pos hU.1]
    · rw [if_neg hU]
      simp only [if_true]
      have hj1 : 0 < j := by
        by_contra hj1
        exact hU ⟨by omega, Or.inl (by omega)⟩
      refine ⟨by omega, by omega, Or.inl (by simp), ?_⟩
      rw [hS]
      by_cases hi1 : 0 < i
      · have hge : Sref CSM n i.toNat (j - 1).toNat ≤ Sref CSM n (i - 1).toNat j.toNat := by
          by_contra hlt
          exact hU ⟨hi1, Or.inr (not_le.mp hlt)⟩
        have hd : ¬ Sref CSM n (i - 1).toNat (j - 1).toNat
            ≤ min (Sref CSM n i.toNat (j - 1).toNat) (Sref CSM n (i - 1).toNat j.toNat) :=
          fun hd => hD ⟨hi1, hj1, hd⟩
        rw [min_eq_left hge] at hd
        rw [if_pos ⟨hi1, hj1⟩]
        have : Sref CSM n i.toNat (j - 1).toNat
            ≤ min (Sref CSM n (i - 1).toNat j.toNat) (Sref CSM n (i - 1).toNat (j - 1).toNat) :=
          le_min hge (le_of_lt (not_le.mp hd))
        rw [min_eq_left this]
      · rw [if_neg (by omega), if_pos hj1]

theorem SrefC_zero (CSM : FBuf) (m n : Nat) (hm : 0 < m) (hn : 0 < n) (h : NonNeg CSM m n) :
    SrefC CSM n (0, 0) = CSM 0 := by
  have e := Sref_int CSM m n h 0 0 le_rfl (by omega) le_rfl (by omega)
  simp only [SrefC]
  rw [e]; simp

theorem backtrace_spec (CSM : FBuf) (P : IBuf) (m n : Nat) (debug : Int) (U L UL S : FBuf)
    (hm : 0 < m) (hn : 0 < n) (h : NonNeg CSM m n) :
    ∀ (f : Nat) (c : Cell), 0 ≤ c.1 → c.1 < m → 0 ≤ c.2 → c.2 < n → c.1 + c.2 ≤ f →
      (backtrace (c_dtw CSM P m n debug U L UL S).2.P n f c).head? = some c ∧
      (backtrace (c_dtw CSM P m n debug U L UL S).2.P n f c).getLast? = some (0, 0) ∧
      (backtrace (c_dtw CSM P m n debug U L UL S).2.P n f c).Chain'
        (fun a b => b = backStep (c_dtw CSM P m n debug U L UL S).2.P n a ∧ isStep b a) ∧
      pathCost CSM n (backtrace (c_dtw CSM P m n debug U L UL S).2.P n f c)
        = SrefC CSM n c ∧
      ((backtrace (c_dtw CSM P m n debug U L UL S).2.P n f c).length : Int)
        ≤ c.1 + c.2 + 1 ∧
      ∀ x ∈ backtrace (c_dtw CSM P m n debug U L UL S).2.P n f c,
        0 ≤ x.1 ∧ x.1 < m ∧ 0 ≤ x.2 ∧ x.2 < n := by
  have hzero : ∀ (f : Nat),
      (backtrace (c_dtw CSM P m n debug U L UL S).2.P n f (0, 0)) = [(0, 0)] := by
    intro f; cases f <;> simp [backtrace]
  have hbase : ∀ (l : List Cell), l = [(0, 0)] →
      l.head? = some (0, 0) ∧ l.getLast? = some (0, 0) ∧
      l.Chain' (fun a b => b = backStep (c_dtw CSM P m n debug U L UL S).2.P n a ∧ isStep b a) ∧
      pathCost CSM n l = SrefC CSM n (0, 0) ∧ (l.length : Int) ≤ (0 : Int) + 0 + 1 ∧
      ∀ x ∈ l, 0 ≤ x.1 ∧ x.1 < m ∧ 0 ≤ x.2 ∧ x.2 < n := by
    intro l hl
    subst hl
    refine ⟨rfl, rfl, List.chain'_singleton _, ?_, by simp, ?_⟩
    · rw [SrefC_zero CSM m n hm hn h]; simp [pathCost]
    · intro x hx
      simp only [List.mem_singleton] at hx
      subst hx
      simp only
      omega
  intro f
  induction f with
  | zero =>
    intro c h1 h2 h3 h4 h5
    have hc : c = (0, 0) := by
      obtain ⟨i, j⟩ := c
      simp only at h1 h3 h5
      simp only [Prod.mk.injEq]
      omega
    subst hc
    exact hbase _ (hzero 0)
  | succ f ih =>
    intro c h1 h2 h3 h4 h5
    by_cases hc : c = (0, 0)
    · subst hc
      exact hbase _ (hzero (f + 1))
    · obtain ⟨p1, p2, p3, p4⟩ := backStep_spec CSM P m n debug U L UL S h c h1 h2 h3 h4 hc
      have hle : (backStep (c_dtw CSM P m n debug U L UL S).2.P n c).1 ≤ c.1 ∧
          (backStep (c_dtw CSM P m n debug U L UL S).2.P n c).2 ≤ c.2 ∧
          (backStep (c_dtw CSM P m n debug U L UL S).2.P n c).1
            + (backStep (c_dtw CSM P m n debug U L UL S).2.P n c).2 + 1 ≤ c.1 + c.2 := by
        generalize backStep (c_dtw CSM P m n debug U L UL S).2.P n c = p at p3
        obtain ⟨a, b⟩ := p
        obtain ⟨i, j⟩ := c
        simp only [isStep, Prod.mk.injEq] at p3
        simp only
        omega
      obtain ⟨q1, q2, q3, q4, q5, q6⟩ := ih _ p1 (by omega) p2 (by omega) (by omega)
      have e : backtrace (c_dtw CSM P m n debug U L UL S).2.P n (f + 1) c
          = c :: backtrace (c_dtw CSM P m n debug U L UL S).2.P n f
              (backStep (c_dtw CSM P m n debug U L UL S).2.P n c) := by
        simp only [backtrace, if_neg hc]
      rw [e]
      generalize backtrace (c_dtw CSM P m n debug U L UL S).2.P n f
        (backStep (c_dtw CSM P m n debug U L UL S).2.P n c) = l at q1 q2 q3 q4 q5 q6
      refine ⟨rfl, ?_, ?_, ?_, ?_, ?_⟩
      · cases l with
        | nil => simp at q1
        | cons y l => rw [List.getLast?_cons_cons]; exact q2
      · rw [List.chain'_cons']
        refine ⟨?_, q3⟩
        intro y hy
        rw [q1] at hy
        simp only [Option.mem_def, Option.some.injEq] at hy
        subst hy
        exact ⟨rfl, p3⟩
      · have : pathCost CSM n (c :: l) = CSM (c.1 * n + c.2) + pathCost CSM n l := by
          simp [pathCost]
        rw [this, q4, p4]
      · simp only [List.length_cons]
        push_cast
        omega
      · intro x hx
        simp only [List.mem_cons] at hx
        rcases hx with rfl | hx
        · exact ⟨h1, h2, h3, h4⟩
        · exact q6 x hx

theorem pathCost_reverse (CSM : FBuf) (N : Int) (l : List Cell) :
    pathCost CSM N l.reverse = pathCost CSM N l := by
  simp [pathCost, List.sum_reverse]

theorem path_lower (CSM : FBuf) (m n : Nat) (hm : 0 < m) (hn : 0 < n) (h : NonNeg CSM m n)
    (c : Cell) (h2 : c.1 < m) (h4 : c.2 < n) (l : List Cell) (hl : IsPath l (0, 0) c) :
    SrefC CSM n c ≤ pathCost CSM n l := by
  obtain ⟨a, b, d⟩ := hl
  have hch : l.reverse.Chain' (flip isStep) := by
    rw [List.chain'_reverse]; exact d
  have := (back_path_lower CSM m n hm hn h l.reverse c (by rw [List.head?_reverse]; exact b)
    (by rw [List.getLast?_reverse]; exact a) hch).2.2 h2 h4
  rwa [pathCost_reverse] at this

theorem backtrace_isPath (CSM : FBuf) (P : IBuf) (m n : Nat) (debug : Int) (U L UL S : FBuf)
    (hm : 0 < m) (hn : 0 < n) (h : NonNeg CSM m n) (f : Nat) (c : Cell)
    (h1 : 0 ≤ c.1) (h2 : c.1 < m) (h3 : 0 ≤ c.2) (h4 : c.2 < n) (h5 : c.1 + c.2 ≤ f) :
    IsPath (backtrace (c_dtw CSM P m n debug U L UL S).2.P n f c).reverse (0, 0) c := by
  obtain ⟨q1, q2, q3, -, -, -⟩ :=
    backtrace_spec CSM P m n debug U L UL S hm hn h f c h1 h2 h3 h4 h5
  refine ⟨by rw [List.head?_reverse]; exact q2, by rw [List.getLast?_reverse]; exact q1, ?_⟩
  rw [List.chain'_reverse]
  exact q3.imp (fun _ _ hab => hab.2)

theorem c_dtw_P_zero (CSM : FBuf) (P : IBuf) (m n : Nat) (debug : Int) (U L UL S : FBuf)
    (hm : 0 < m) (hn : 0 < n) :
    (c_dtw CSM P m n debug U L UL S).2.P 0 = P 0 := by
  have e := c_dtw_P_at CSM P m n debug U L UL S 0 0 hm hn
  simp only [Nat.cast_zero, zero_mul, add_zero] at e
  rw [e]
  simp [Tref]

theorem loopN_rel {σ τ : Type} (R : σ → τ → Prop) (b1 : Int → σ → σ) (b2 : Int → τ → τ)
    (hstep : ∀ i s t, R s t → R (b1 i s) (b2 i t)) :
    ∀ (k : Nat) (s : σ) (t : τ), R s t → R (loopN b1 k s) (loopN b2 k t) := by
  intro k
  induction k with
  | zero => intro s t h; exact h
  | succ k ih => intro s t h; exact hstep _ _ _ (ih s t h)

theorem loopN_inv {σ : Type} (I : σ → Prop) (b : Int → σ → σ)
    (hstep : ∀ i s, I s → I (b i s)) :
    ∀ (k : Nat) (s : σ), I s → I (loopN b k s) := by
  intro k
  induction k with
  | zero => intro s h; exact h
  | succ k ih => intro s h; exact hstep _ _ (ih s h)

theorem c_dtw_init_SP (M N debug : Int) (m : Mem) :
    (c_dtw_init M N debug m).S = m.S ∧ (c_dtw_init M N debug m).P = m.P := by
  unfold c_dtw_init
  by_cases hd : debug = 1
  · rw [if_pos hd]
    unfold forLoop
    refine loopN_inv (fun x : Mem => x.S = m.S ∧ x.P = m.P) _ ?_ _ m ⟨rfl, rfl⟩
    intro i s hs
    refine loopN_inv (fun x : Mem => x.S = m.S ∧ x.P = m.P) _ ?_ _ s hs
    intro j s hs
    exact hs
  · rw [if_neg hd]; exact ⟨rfl, rfl⟩

theorem c_dtw_fill_SP (CSM : FBuf) (M N d1 d2 : Int) (m1 m2 : Mem)
    (hS : m1.S = m2.S) (hP : m1.P = m2.P) :
    (c_dtw_fill CSM M N d1 m1).S = (c_dtw_fill CSM M N d2 m2).S ∧
    (c_dtw_fill CSM M N d1 m1).P = (c_dtw_fill CSM M N d2 m2).P := by
  unfold c_dtw_fill forLoop
  refine loopN_rel (fun x y : Mem => x.S = y.S ∧ x.P = y.P) _ _ ?_ _ m1 m2 ⟨hS, hP⟩
  intro i s t hst
  refine loopN_rel (fun x y : Mem => x.S = y.S ∧ x.P = y.P) _ _ ?_ _ s t hst
  intro j s t hst
  rw [c_dtw_cell_S, c_dtw_cell_P, c_dtw_cell_S, c_dtw_cell_P, hst.1, hst.2]
  exact ⟨rfl, rfl⟩

theorem c_dtw_fill_frame (CSM : FBuf) (M N d : Int) (hd : d ≠ 1) (m : Mem) :
    (c_dtw_fill CSM M N d m).U = m.U ∧ (c_dtw_fill CSM M N d m).L = m.L ∧
    (c_dtw_fill CSM M N d m).UL = m.UL := by
  unfold c_dtw_fill forLoop
  refine loopN_inv (fun x : Mem => x.U = m.U ∧ x.L = m.L ∧ x.UL = m.UL) _ ?_ _ m
    ⟨rfl, rfl, rfl⟩
  intro i s hs
  refine loopN_inv (fun x : Mem => x.U = m.U ∧ x.L = m.L ∧ x.UL = m.UL) _ ?_ _ s hs
  intro j s hs
  rw [c_dtw_cell_U, c_dtw_cell_L, c_dtw_cell_UL, if_neg hd, if_neg hd, if_neg hd]
  exact hs

/-! ## The diagonal sweep computes the recurrence -/

theorem inDiag_cell (M N k idx : Int) (hidx : 0 ≤ idx)
    (h : inDiag M N k idx) :
    0 ≤ dI1 M k - idx ∧ dI1 M k - idx < M ∧ 0 ≤ dJ1 M k + idx ∧ dJ1 M k + idx < N ∧
    (dI1 M k - idx) + (dJ1 M k + idx) = k := by
  simp only [inDiag, dI1, dJ1, dI2, dJ2] at *
  split_ifs at * <;> omega

theorem nb_left (M N k idx : Int) (hidx : 0 ≤ idx)
    (h : inDiag M N k idx) (hj : dJ1 M k + idx > 0) :
    0 ≤ (if dJ1 M k = 0 then idx - 1 else idx) ∧
    inDiag M N (k - 1) (if dJ1 M k = 0 then idx - 1 else idx) ∧
    dI1 M (k - 1) - (if dJ1 M k = 0 then idx - 1 else idx) = dI1 M k - idx ∧
    dJ1 M (k - 1) + (if dJ1 M k = 0 then idx - 1 else idx) = dJ1 M k + idx - 1 := by
  simp only [inDiag, dI1, dJ1, dI2, dJ2] at *
  split_ifs at * <;> omega

theorem nb_up (M N k idx : Int) (hidx : 0 ≤ idx)
    (h : inDiag M N k idx) (hi : dI1 M k - idx > 0) :
    0 ≤ (if dJ1 M k = 0 then idx else idx + 1) ∧
    inDiag M N (k - 1) (if dJ1 M k = 0 then idx else idx + 1) ∧
    dI1 M (k - 1) - (if dJ1 M k = 0 then idx else idx + 1) = dI1 M k - idx - 1 ∧
    dJ1 M (k - 1) + (if dJ1 M k = 0 then idx else idx + 1) = dJ1 M k + idx := by
  simp only [inDiag, dI1, dJ1, dI2, dJ2] at *
  split_ifs at * <;> omega

theorem nb_diag (M N k idx : Int) (hidx : 0 ≤ idx)
    (h : inDiag M N k idx) (hi : dI1 M k - idx > 0) (hj : dJ1 M k + idx > 0) :
    0 ≤ (if dJ1 M k = 0 then idx - 1 else if dJ1 M k = 1 then idx else idx + 1) ∧
    inDiag M N (k - 2)
      (if dJ1 M k = 0 then idx - 1 else if dJ1 M k = 1 then idx else idx + 1) ∧
    dI1 M (k - 2) - (if dJ1 M k = 0 then idx - 1 else if dJ1 M k = 1 then idx else idx + 1)
      = dI1 M k - idx - 1 ∧
    dJ1 M (k - 2) + (if dJ1 M k = 0 then idx - 1 else if dJ1 M k = 1 then idx else idx + 1)
      = dJ1 M k + idx - 1 := by
  simp only [inDiag, dI1, dJ1, dI2, dJ2] at *
  split_ifs at * <;> omega

theorem c_diag_cands_eq (CSM : FBuf) (M N : Int) (n : Nat) (k idx : Int)
    (d0 d1 csm0 csm1 : FBuf) (hidx : 0 ≤ idx) (h : inDiag M N k idx)
    (H1 : HoldsDiag CSM M N n (k - 1) d1 csm1) (H0 : HoldsDiag CSM M N n (k - 2) d0 csm0) :
    c_diag_cands d0 d1 csm0 csm1 M (dI1 M k) (dJ1 M k) (dI1 M k - idx) idx
      = (cL CSM n (dI1 M k - idx) (dJ1 M k + idx), cU CSM n (dI1 M k - idx) (dJ1 M k + idx),
         cD CSM n (dI1 M k - idx) (dJ1 M k + idx)) := by
  have HL : dJ1 M k + idx > 0 →
      d1 (if dJ1 M k = 0 then idx - 1 else idx) + csm1 (if dJ1 M k = 0 then idx - 1 else idx)
        = SrefC CSM n (dI1 M k - idx, dJ1 M k + idx - 1) := by
    intro hj
    obtain ⟨a, b, c, d⟩ := nb_left M N k idx hidx h hj
    rw [H1 _ a b, c, d]
  have HU : dI1 M k - idx > 0 →
      d1 (if dJ1 M k = 0 then idx else idx + 1) + csm1 (if dJ1 M k = 0 then idx else idx + 1)
        = SrefC CSM n (dI1 M k - idx - 1, dJ1 M k + idx) := by
    intro hi
    obtain ⟨a, b, c, d⟩ := nb_up M N k idx hidx h hi
    rw [H1 _ a b, c, d]
  have HD : dI1 M k - idx > 0 → dJ1 M k + idx > 0 →
      d0 (if dJ1 M k = 0 then idx - 1 else if dJ1 M k = 1 then idx else idx + 1)
        + csm0 (if dJ1 M k = 0 then idx - 1 else if dJ1 M k = 1 then idx else idx + 1)
        = SrefC CSM n (dI1 M k - idx - 1, dJ1 M k + idx - 1) := by
    intro hi hj
    obtain ⟨a, b, c, d⟩ := nb_diag M N k idx hidx h hi hj
    rw [H0 _ a b, c, d]
  have g1 : dJ1 M k ≠ 0 → dI1 M k = M - 1 ∧ dJ1 M k ≥ 1 := by
    simp only [dI1, dJ1]
    split_ifs <;> omega
  unfold c_diag_cands cL cU cD
  generalize dI1 M k = I at HL HU HD g1 ⊢
  generalize dJ1 M k = J at HL HU HD g1 ⊢
  by_cases hj0 : J = 0
  · subst hj0
    simp only [if_true, zero_add] at HL HU HD ⊢
    by_cases a : idx > 0
    · by_cases b : I - idx > 0
      · simp only [a, b, and_self, if_true, HL a, HU b, HD b a]
      · simp only [a, b, and_false, false_and, if_true, if_false, HL a]
    · by_cases b : I - idx > 0
      · simp only [a, b, and_false, false_and, if_true, if_false, HU b]
      · simp only [a, b, and_false, false_and, if_false]
  · obtain ⟨e1, e2⟩ := g1 hj0
    subst e1
    have hj : J + idx > 0 := by omega
    simp only [hj0, if_false] at HL HU HD ⊢
    by_cases hj1 : J = 1
    · subst hj1
      simp only [if_true] at HD
      simp only [and_self, if_true]
      by_cases b : M - 1 - idx > 0
      · simp only [b, if_true, hj, and_self, HL hj, HU b, HD b hj]
      · simp only [b, if_false, hj, false_and, if_true, HL hj]
    · have hj2 : J > 1 := by omega
      simp only [hj1, if_false] at HD
      simp only [hj1, and_false, if_false, hj2, and_self, if_true]
      by_cases b : M - 1 - idx > 0
      · simp only [b, if_true, hj, and_self, HL hj, HU b, HD b hj]
      · simp only [b, if_false, hj, false_and, if_true, HL hj]

theorem diag_tie (d s : ℚ) :
    (if d > -1 ∧ (d < s ∨ s = -1) then d else s)
      = (if d > -1 ∧ (d ≤ s ∨ s = -1) then d else s) := by
  by_cases h : d = s
  · subst h; simp
  · have : d < s ↔ d ≤ s := ⟨le_of_lt, fun h' => lt_of_le_of_ne h' h⟩
    simp only [this]

theorem c_diag_select_eq (l u d s : ℚ) (h : l > -1 ∨ s = -1) :
    c_diag_select l u d s = selScore l u d := by
  have e : (if l > -1 then l else s) = (if l > -1 then l else -1) := by
    rcases h with h | h
    · rw [if_pos h, if_pos h]
    · rw [h]
  simp only [c_diag_select, selScore, e]
  exact diag_tie _ _

theorem c_diag_iter_eq (d0 d1 csm0 csm1 : FBuf) (M N k debug idx : Int) (st : DiagSt) :
    c_diag_iter d0 d1 csm0 csm1 M N k debug idx st =
      (let st1 : DiagSt :=
        if inDiag M N k idx then
          if dI1 M k - idx = 0 ∧ dJ1 M k + idx = 0 then
            if debug = -1 then
              { st with score := 0, S := wr st.S 0 0, U := wr st.U 0 (-1),
                        L := wr st.L 0 (-1), UL := wr st.UL 0 (-1) }
            else { st with score := 0 }
          else
            let c := c_diag_cands d0 d1 csm0 csm1 M (dI1 M k) (dJ1 M k) (dI1 M k - idx) idx
            let score := c_diag_select c.1 c.2.1 c.2.2 st.score
            if debug = 1 then
              { st with score := score,
                        U := wr st.U ((dI1 M k - idx) * N + (dJ1 M k + idx)) c.2.1,
                        L := wr st.L ((dI1 M k - idx) * N + (dJ1 M k + idx)) c.1,
                        UL := wr st.UL ((dI1 M k - idx) * N + (dJ1 M k + idx)) c.2.2,
                        S := wr st.S ((dI1 M k - idx) * N + (dJ1 M k + idx)) score }
            else { st with score := score }
        else st
      { st1 with d2 := wr st1.d2 idx st1.score }) := rfl

theorem SrefC_eq (CSM : FBuf) (n : Nat) (i j : Int) (hi : 0 ≤ i) (hj : 0 ≤ j) :
    SrefC CSM n (i, j) = (if i = 0 ∧ j = 0 then 0
      else selScore (cL CSM n i j) (cU CSM n i j) (cD CSM n i j)) + CSM (i * n + j) := by
  have e := Sref_eq CSM n i.toNat j.toNat
  rw [Int.toNat_of_nonneg hi, Int.toNat_of_nonneg hj] at e
  have hz : (i.toNat = 0 ∧ j.toNat = 0) ↔ (i = 0 ∧ j = 0) := by omega
  have e1 : i.toNat - 1 = (i - 1).toNat := by omega
  have e2 : j.toNat - 1 = (j - 1).toNat := by omega
  have a : (i.toNat > 0) ↔ (i > 0) := by omega
  have b : (j.toNat > 0) ↔ (j > 0) := by omega
  simp only [SrefC, cL, cU, cD]
  rw [e]
  simp only [hz, candL, candU, candD, a, b, e1, e2]
  split_ifs <;> rfl

theorem SrefC_nonneg (CSM : FBuf) (m n : Nat) (h : NonNeg CSM m n) (i j : Int)
    (hi0 : 0 ≤ i) (hi : i < m) (hj0 : 0 ≤ j) (hj : j < n) : 0 ≤ SrefC CSM n (i, j) :=
  Sref_nonneg CSM m n h.toN i.toNat j.toNat (by omega) (by omega)

theorem c_diag_iter_score (d0 d1 csm0 csm1 : FBuf) (M N k debug idx : Int) (st : DiagSt) :
    (c_diag_iter d0 d1 csm0 csm1 M N k debug idx st).score
      = iterScore d0 d1 csm0 csm1 M N k idx st.score := by
  rw [c_diag_iter_eq]
  simp only [iterScore]
  split_ifs <;> rfl

theorem c_diag_iter_d2 (d0 d1 csm0 csm1 : FBuf) (M N k debug idx : Int) (st : DiagSt) :
    (c_diag_iter d0 d1 csm0 csm1 M N k debug idx st).d2
      = wr st.d2 idx (iterScore d0 d1 csm0 csm1 M N k idx st.score) := by
  rw [c_diag_iter_eq]
  simp only [iterScore]
  split_ifs <;> rfl

theorem c_diag_iter_U (d0 d1 csm0 csm1 : FBuf) (M N k idx : Int) (st : DiagSt) :
    (c_diag_iter d0 d1 csm0 csm1 M N k 1 idx st).U
      = if inDiag M N k idx ∧ ¬ (dI1 M k - idx = 0 ∧ dJ1 M k + idx = 0) then
          wr st.U ((dI1 M k - idx) * N + (dJ1 M k + idx))
            (c_diag_cands d0 d1 csm0 csm1 M (dI1 M k) (dJ1 M k) (dI1 M k - idx) idx).2.1
        else st.U := by
  rw [c_diag_iter_eq]
  have h1 : ¬ ((1 : Int) = -1) := by decide
  simp only [h1, if_false, if_true]
  by_cases a : inDiag M N k idx
  · by_cases b : dI1 M k - idx = 0 ∧ dJ1 M k + idx = 0
    · rw [if_pos a, if_pos b, if_neg (fun h => h.2 b)]
    · rw [if_pos a, if_neg b, if_pos ⟨a, b⟩]
  · rw [if_neg a, if_neg (fun h => a h.1)]

theorem c_diag_iter_L (d0 d1 csm0 csm1 : FBuf) (M N k idx : Int) (st : DiagSt) :
    (c_diag_iter d0 d1 csm0 csm1 M N k 1 idx st).L
      = if inDiag M N k idx ∧ ¬ (dI1 M k - idx = 0 ∧ dJ1 M k + idx = 0) then
          wr st.L ((dI1 M k - idx) * N + (dJ1 M k + idx))
            (c_diag_cands d0 d1 csm0 csm1 M (dI1 M k) (dJ1 M k) (dI1 M k - idx) idx).1
        else st.L := by
  rw [c_diag_iter_eq]
  have h1 : ¬ ((1 : Int) = -1) := by decide
  simp only [h1, if_false, if_true]
  by_cases a : inDiag M N k idx
  · by_cases b : dI1 M k - idx = 0 ∧ dJ1 M k + idx = 0
    · rw [if_pos a, if_pos b, if_neg (fun h => h.2 b)]
    · rw [if_pos a, if_neg b, if_pos ⟨a, b⟩]
  · rw [if_neg a, if_neg (fun h => a h.1)]

theorem c_diag_iter_UL (d0 d1 csm0 csm1 : FBuf) (M N k idx : Int) (st : DiagSt) :
    (c_diag_iter d0 d1 csm0 csm1 M N k 1 idx st).UL
      = if inDiag M N k idx ∧ ¬ (dI1 M k - idx = 0 ∧ dJ1 M k + idx = 0) then
          wr st.UL ((dI1 M k - idx) * N + (dJ1 M k + idx))
            (c_diag_cands d0 d1 csm0 csm1 M (dI1 M k) (dJ1 M k) (dI1 M k - idx) idx).2.2
        else st.UL := by
  rw [c_diag_iter_eq]
  have h1 : ¬ ((1 : Int) = -1) := by decide
  simp only [h1, if_false, if_true]
  by_cases a : inDiag M N k idx
  · by_cases b : dI1 M k - idx = 0 ∧ dJ1 M k + idx = 0
    · rw [if_pos a, if_pos b, if_neg (fun h => h.2 b)]
    · rw [if_pos a, if_neg b, if_pos ⟨a, b⟩]
  · rw [if_neg a, if_neg (fun h => a h.1)]

theorem iterScore_cell (CSM : FBuf) (m n : Nat) (hn : NonNeg CSM m n) (k idx : Int)
    (d0 d1 csm0 csm1 : FBuf) (s : ℚ) (hidx : 0 ≤ idx) (h : inDiag m n k idx)
    (H1 : HoldsDiag CSM m n n (k - 1) d1 csm1) (H0 : HoldsDiag CSM m n n (k - 2) d0 csm0)
    (hs : idx = 0 → s = -1) :
    iterScore d0 d1 csm0 csm1 m n k idx s + CSM ((dI1 m k - idx) * n + (dJ1 m k + idx))
      = SrefC CSM n (dI1 m k - idx, dJ1 m k + idx) := by
  obtain ⟨c1, c2, c3, c4, -⟩ := inDiag_cell m n k idx hidx h
  rw [SrefC_eq CSM n _ _ c1 c3]
  simp only [iterScore, if_pos h]
  by_cases hz : dI1 (m : Int) k - idx = 0 ∧ dJ1 (m : Int) k + idx = 0
  · rw [if_pos hz, if_pos hz]
  · rw [if_neg hz, if_neg hz, c_diag_cands_eq CSM m n n k idx d0 d1 csm0 csm1 hidx h H1 H0]
    simp only
    rw [c_diag_select_eq]
    by_cases hj : dJ1 (m : Int) k + idx > 0
    · left
      have := SrefC_nonneg CSM m n hn (dI1 m k - idx) (dJ1 m k + idx - 1) c1 c2 (by omega)
        (by omega)
      simp only [cL, if_pos hj]
      linarith
    · right
      apply hs
      have : 0 ≤ dJ1 (m : Int) k := by
        simp only [dJ1]; split_ifs <;> omega
      omega

theorem loopN_ind {σ : Type} (I : Nat → σ → Prop) (b : Int → σ → σ)
    (hstep : ∀ (c : Nat) (s : σ), I c s → I (c + 1) (b c s)) :
    ∀ (k : Nat) (s : σ), I 0 s → I k (loopN b k s) := by
  intro k
  induction k with
  | zero => intro s h; exact h
  | succ k ih => intro s h; exact hstep _ _ (ih s h)

theorem index_inj (n : Nat) (i j i' j' : Int) (hj0 : 0 ≤ j) (hj : j < n) (hj0' : 0 ≤ j')
    (hj' : j' < n) (h : i * n + j = i' * n + j') : i = i' ∧ j = j' := by
  have e1 : (i * n + j) % (n : Int) = j := by
    rw [add_comm, Int.add_mul_emod_self, Int.emod_eq_of_lt hj0 hj]
  have e2 : (i' * n + j') % (n : Int) = j' := by
    rw [add_comm, Int.add_mul_emod_self, Int.emod_eq_of_lt hj0' hj']
  have ej : j = j' := by rw [← e1, ← e2, h]
  subst ej
  have hn : (n : Int) ≠ 0 := by omega
  have : i * n = i' * n := by omega
  exact ⟨mul_right_cancel₀ hn this, rfl⟩

theorem c_diag_step_d2 (CSM : FBuf) (m n : Nat) (hn : NonNeg CSM m n) (k diagLen debug : Int)
    (d0 d1 d2 csm0 csm1 U L UL S : FBuf)
    (H1 : HoldsDiag CSM m n n (k - 1) d1 csm1) (H0 : HoldsDiag CSM m n n (k - 2) d0 csm0) :
    ∀ idx : Int, 0 ≤ idx → idx < diagLen → inDiag m n k idx →
      (c_diag_step d0 d1 d2 csm0 csm1 m n diagLen k debug U L UL S).d2 idx
        + CSM ((dI1 m k - idx) * n + (dJ1 m k + idx))
        = SrefC CSM n (dI1 m k - idx, dJ1 m k + idx) := by
  have key := loopN_ind
    (fun (c : Nat) (st : DiagSt) => (c = 0 → st.score = -1) ∧
      ∀ idx : Int, 0 ≤ idx → idx < c → inDiag m n k idx →
        st.d2 idx + CSM ((dI1 m k - idx) * n + (dJ1 m k + idx))
          = SrefC CSM n (dI1 m k - idx, dJ1 m k + idx))
    (c_diag_iter d0 d1 csm0 csm1 m n k debug)
    (by
      intro c st ⟨hA, hB⟩
      refine ⟨fun h => absurd h (Nat.succ_ne_zero c), ?_⟩
      intro idx h0 hlt hin
      rw [c_diag_iter_d2]
      by_cases e : idx = (c : Int)
      · subst e
        rw [wr_same]
        exact iterScore_cell CSM m n hn k _ d0 d1 csm0 csm1 st.score h0 hin H1 H0
          (fun hz => hA (by omega))
      · rw [wr_other _ _ _ _ e]
        exact hB idx h0 (by push_cast at hlt; omega) hin)
    diagLen.toNat ⟨-1, d2, U, L, UL, S⟩ ⟨fun _ => rfl, fun idx h0 hlt => by omega⟩
  intro idx h0 hlt hin
  exact key.2 idx h0 (by omega) hin

theorem inDiag_neg (M N k t : Int) (hM : 0 ≤ M) (hk : k < 0) (ht : 0 ≤ t) :
    ¬ inDiag M N k t := by
  simp only [inDiag, dI1, dJ1, dI2, dJ2]
  split_ifs <;> omega

theorem inDiag_lt (M N k t : Int) (h : inDiag M N k t) : t < M ∧ t < N := by
  simp only [inDiag, dI1, dJ1, dI2, dJ2] at h
  split_ifs at h <;> omega

theorem HoldsDiag_neg (CSM : FBuf) (M N : Int) (n : Nat) (k : Int) (d csm : FBuf)
    (hM : 0 ≤ M) (hk : k < 0) : HoldsDiag CSM M N n k d csm :=
  fun t ht h => absurd h (inDiag_neg M N k t hM hk ht)

theorem inDiag_lt_length (M N k t : Int) (h : inDiag M N k t) : t < diagLength M N k := by
  simp only [inDiag, diagLength, dI1, dJ1, dI2, dJ2] at *
  split_ifs at * <;> omega

theorem sweep_holds (CSM : FBuf) (m n : Nat) (hn : NonNeg CSM m n) (debug : Int)
    (s0 : SweepSt) :
    ∀ K : Nat,
      HoldsDiag CSM m n n ((K : Int) - 1)
        (loopN (sweepRound CSM m n debug) K s0).d1
        (loopN (sweepRound CSM m n debug) K s0).csm1 ∧
      HoldsDiag CSM m n n ((K : Int) - 2)
        (loopN (sweepRound CSM m n debug) K s0).d0
        (loopN (sweepRound CSM m n debug) K s0).csm0 := by
  intro K
  induction K with
  | zero =>
    exact ⟨HoldsDiag_neg CSM m n n _ _ _ (by omega) (by simp),
      HoldsDiag_neg CSM m n n _ _ _ (by omega) (by simp)⟩
  | succ K ih =>
    obtain ⟨h1, h0⟩ := ih
    have e1 : ((K + 1 : Nat) : Int) - 1 = K := by push_cast; ring
    have e2 : ((K + 1 : Nat) : Int) - 2 = (K : Int) - 1 := by push_cast; ring
    rw [e1, e2]
    simp only [loopN, sweepRound]
    refine ⟨?_, h1⟩
    intro t ht hin
    have := c_diag_step_d2 CSM m n hn K (diagLength m n K) debug _ _
      (loopN (sweepRound CSM m n debug) K s0).d2 _ _
      (loopN (sweepRound CSM m n debug) K s0).U
      (loopN (sweepRound CSM m n debug) K s0).L
      (loopN (sweepRound CSM m n debug) K s0).UL
      (loopN (sweepRound CSM m n debug) K s0).S h1 h0 t ht
      (inDiag_lt_length m n K t hin) hin
    simpa only [diagCSM] using this

theorem wr_if {α : Type} (c : Prop) [Decidable c] (b : Int → α) (k x : Int) (v : α) :
    (if c then wr b k v else b) x = if c ∧ x = k then v else b x := by
  by_cases h : c
  · by_cases e : x = k
    · subst e; simp [h, wr]
    · simp [h, wr, e]
  · simp [h]

theorem c_diag_step_debug (CSM : FBuf) (m n : Nat) (k diagLen : Int)
    (d0 d1 d2 csm0 csm1 U L UL S : FBuf)
    (H1 : HoldsDiag CSM m n n (k - 1) d1 csm1) (H0 : HoldsDiag CSM m n n (k - 2) d0 csm0) :
    (∀ idx : Int, 0 ≤ idx → idx < diagLen → inDiag m n k idx →
      ¬ (dI1 m k - idx = 0 ∧ dJ1 m k + idx = 0) →
      (c_diag_step d0 d1 d2 csm0 csm1 m n diagLen k 1 U L UL S).U
          ((dI1 m k - idx) * n + (dJ1 m k + idx))
        = cU CSM n (dI1 m k - idx) (dJ1 m k + idx) ∧
      (c_diag_step d0 d1 d2 csm0 csm1 m n diagLen k 1 U L UL S).L
          ((dI1 m k - idx) * n + (dJ1 m k + idx))
        = cL CSM n (dI1 m k - idx) (dJ1 m k + idx) ∧
      (c_diag_step d0 d1 d2 csm0 csm1 m n diagLen k 1 U L UL S).UL
          ((dI1 m k - idx) * n + (dJ1 m k + idx))
        = cD CSM n (dI1 m k - idx) (dJ1 m k + idx)) ∧
    (∀ x : Int, (∀ idx : Int, 0 ≤ idx → inDiag m n k idx →
        ¬ (dI1 m k - idx = 0 ∧ dJ1 m k + idx = 0) →
        x ≠ (dI1 m k - idx) * n + (dJ1 m k + idx)) →
      (c_diag_step d0 d1 d2 csm0 csm1 m n diagLen k 1 U L UL S).U x = U x ∧
      (c_diag_step d0 d1 d2 csm0 csm1 m n diagLen k 1 U L UL S).L x = L x ∧
      (c_diag_step d0 d1 d2 csm0 csm1 m n diagLen k 1 U L UL S).UL x = UL x) := by
  have key := loopN_ind
    (fun (c : Nat) (st : DiagSt) =>
      (∀ idx : Int, 0 ≤ idx → idx < c → inDiag m n k idx →
        ¬ (dI1 m k - idx = 0 ∧ dJ1 m k + idx = 0) →
        st.U ((dI1 m k - idx) * n + (dJ1 m k + idx))
          = cU CSM n (dI1 m k - idx) (dJ1 m k + idx) ∧
        st.L ((dI1 m k - idx) * n + (dJ1 m k + idx))
          = cL CSM n (dI1 m k - idx) (dJ1 m k + idx) ∧
        st.UL ((dI1 m k - idx) * n + (dJ1 m k + idx))
          = cD CSM n (dI1 m k - idx) (dJ1 m k + idx)) ∧
      (∀ x : Int, (∀ idx : Int, 0 ≤ idx → inDiag m n k idx →
          ¬ (dI1 m k - idx = 0 ∧ dJ1 m k + idx = 0) →
          x ≠ (dI1 m k - idx) * n + (dJ1 m k + idx)) →
        st.U x = U x ∧ st.L x = L x ∧ st.UL x = UL x))
    (c_diag_iter d0 d1 csm0 csm1 m n k 1)
    (by
      intro c st ⟨hA, hB⟩
      rw [c_diag_iter_U, c_diag_iter_L, c_diag_iter_UL]
      simp only [wr_if]
      constructor
      · intro idx h0 hlt hin hnz
        by_cases e : idx = (c : Int)
        · subst e
          have hc : (inDiag (m : Int) n k c ∧
              ¬ (dI1 (m : Int) k - c = 0 ∧ dJ1 (m : Int) k + c = 0)) ∧
              (dI1 (m : Int) k - c) * n + (dJ1 (m : Int) k + c)
                = (dI1 (m : Int) k - c) * n + (dJ1 (m : Int) k + c) := ⟨⟨hin, hnz⟩, rfl⟩
          rw [if_pos hc, if_pos hc, if_pos hc,
            c_diag_cands_eq CSM m n n k c d0 d1 csm0 csm1 h0 hin H1 H0]
          exact ⟨rfl, rfl, rfl⟩
        · have hne : ¬ ((inDiag (m : Int) n k c ∧
              ¬ (dI1 (m : Int) k - c = 0 ∧ dJ1 (m : Int) k + c = 0)) ∧
              (dI1 (m : Int) k - idx) * n + (dJ1 (m : Int) k + idx)
                = (dI1 (m : Int) k - c) * n + (dJ1 (m : Int) k + c)) := by
            rintro ⟨⟨hin', -⟩, heq⟩
            obtain ⟨-, -, a3, a4, -⟩ := inDiag_cell m n k idx h0 hin
            obtain ⟨-, -, b3, b4, -⟩ := inDiag_cell m n k c (by omega) hin'
            have := (index_inj n _ _ _ _ a3 a4 b3 b4 heq).2
            omega
          rw [if_neg hne, if_neg hne, if_neg hne]
          exact hA idx h0 (by push_cast at hlt; omega) hin hnz
      · intro x hx
        have hne : ¬ ((inDiag (m : Int) n k c ∧
            ¬ (dI1 (m : Int) k - c = 0 ∧ dJ1 (m : Int) k + c = 0)) ∧
            x = (dI1 (m : Int) k - c) * n + (dJ1 (m : Int) k + c)) := by
          rintro ⟨⟨hin', hnz'⟩, heq⟩
          exact hx c (by omega) hin' hnz' heq
        rw [if_neg hne, if_neg hne, if_neg hne]
        exact hB x hx)
    diagLen.toNat ⟨-1, d2, U, L, UL, S⟩
    ⟨fun idx h0 hlt => by omega, fun x _ => ⟨rfl, rfl, rfl⟩⟩
  refine ⟨fun idx h0 hlt hin hnz => key.1 idx h0 (by omega) hin hnz, key.2⟩

theorem cell_on_diag (M N i j : Int) (hi0 : 0 ≤ i) (hi : i < M) (hj0 : 0 ≤ j) (hj : j < N) :
    0 ≤ dI1 M (i + j) - i ∧ inDiag M N (i + j) (dI1 M (i + j) - i) ∧
    dI1 M (i + j) - (dI1 M (i + j) - i) = i ∧ dJ1 M (i + j) + (dI1 M (i + j) - i) = j := by
  simp only [inDiag, dI1, dJ1, dI2, dJ2]
  split_ifs <;> omega

theorem sweep_debug (CSM : FBuf) (m n : Nat) (hn : NonNeg CSM m n) (s0 : SweepSt) :
    ∀ K : Nat,
      (∀ i j : Int, 0 ≤ i → i < m → 0 ≤ j → j < n → ¬ (i = 0 ∧ j = 0) → i + j < K →
        (loopN (sweepRound CSM m n 1) K s0).U (i * n + j) = cU CSM n i j ∧
        (loopN (sweepRound CSM m n 1) K s0).L (i * n + j) = cL CSM n i j ∧
        (loopN (sweepRound CSM m n 1) K s0).UL (i * n + j) = cD CSM n i j) ∧
      (∀ x : Int, (∀ i j : Int, 0 ≤ i → i < m → 0 ≤ j → j < n → ¬ (i = 0 ∧ j = 0) →
          i + j < K → x ≠ i * n + j) →
        (loopN (sweepRound CSM m n 1) K s0).U x = s0.U x ∧
        (loopN (sweepRound CSM m n 1) K s0).L x = s0.L x ∧
        (loopN (sweepRound CSM m n 1) K s0).UL x = s0.UL x) := by
  intro K
  induction K with
  | zero =>
    refine ⟨fun i j hi0 _ hj0 _ _ hlt => ?_, fun x _ => ⟨rfl, rfl, rfl⟩⟩
    simp only [Nat.cast_zero] at hlt
    omega
  | succ K ih =>
    obtain ⟨ih1, ih2⟩ := ih
    obtain ⟨h1, h0⟩ := sweep_holds CSM m n hn 1 s0 K
    obtain ⟨g1, g2⟩ := c_diag_step_debug CSM m n K (diagLength m n K) _ _
      (loopN (sweepRound CSM m n 1) K s0).d2 _ _
      (loopN (sweepRound CSM m n 1) K s0).U
      (loopN (sweepRound CSM m n 1) K s0).L
      (loopN (sweepRound CSM m n 1) K s0).UL
      (loopN (sweepRound CSM m n 1) K s0).S h1 h0
    simp only [loopN, sweepRound]
    constructor
    · intro i j hi0 hi hj0 hj hnz hlt
      by_cases hK : i + j = (K : Int)
      · obtain ⟨c1, c2, c3, c4⟩ := cell_on_diag m n i j hi0 hi hj0 hj
        rw [hK] at c1 c2 c3 c4
        have := g1 _ c1 (inDiag_lt_length m n K _ c2) c2
          (by rw [c3, c4]; exact hnz)
        rw [c3, c4] at this
        exact this
      · have hx : ∀ idx : Int, 0 ≤ idx → inDiag (m : Int) n K idx →
            ¬ (dI1 (m : Int) K - idx = 0 ∧ dJ1 (m : Int) K + idx = 0) →
            i * n + j ≠ (dI1 (m : Int) K - idx) * n + (dJ1 (m : Int) K + idx) := by
          intro idx h0' hin _ heq
          obtain ⟨-, -, b3, b4, b5⟩ := inDiag_cell m n K idx h0' hin
          have := index_inj n _ _ _ _ hj0 hj b3 b4 heq
          omega
        obtain ⟨u1, u2, u3⟩ := g2 _ hx
        rw [u1, u2, u3]
        exact ih1 i j hi0 hi hj0 hj hnz (by push_cast at hlt; omega)
    · intro x hx
      have hx' : ∀ idx : Int, 0 ≤ idx → inDiag (m : Int) n K idx →
          ¬ (dI1 (m : Int) K - idx = 0 ∧ dJ1 (m : Int) K + idx = 0) →
          x ≠ (dI1 (m : Int) K - idx) * n + (dJ1 (m : Int) K + idx) := by
        intro idx h0' hin hnz
        obtain ⟨b1, b2, b3, b4, b5⟩ := inDiag_cell m n K idx h0' hin
        exact hx _ _ b1 b2 b3 b4 hnz (by push_cast; omega)
      obtain ⟨u1, u2, u3⟩ := g2 _ hx'
      rw [u1, u2, u3]
      exact ih2 x (fun i j hi0 hi hj0 hj hnz hlt =>
        hx i j hi0 hi hj0 hj hnz (by push_cast; omega))

theorem cand_int (CSM : FBuf) (n : Nat) (i j : Int) (hi : 0 ≤ i) (hj : 0 ≤ j) :
    candU CSM n i.toNat j.toNat = cU CSM n i j ∧
    candL CSM n i.toNat j.toNat = cL CSM n i j ∧
    candD CSM n i.toNat j.toNat = cD CSM n i j := by
  have e1 : i.toNat - 1 = (i - 1).toNat := by omega
  have e2 : j.toNat - 1 = (j - 1).toNat := by omega
  have a : (i.toNat > 0) ↔ (i > 0) := by omega
  have b : (j.toNat > 0) ↔ (j > 0) := by omega
  simp only [candU, candL, candD, cU, cL, cD, SrefC, a, b, e1, e2]
  exact ⟨trivial, trivial, trivial⟩

theorem c_dtw_debug_int (CSM : FBuf) (P : IBuf) (m n : Nat) (U L UL S : FBuf)
    (i j : Int) (hi0 : 0 ≤ i) (hi : i < m) (hj0 : 0 ≤ j) (hj : j < n)
    (hnz : ¬ (i = 0 ∧ j = 0)) :
    (c_dtw CSM P m n 1 U L UL S).2.U (i * n + j) = cU CSM n i j ∧
    (c_dtw CSM P m n 1 U L UL S).2.L (i * n + j) = cL CSM n i j ∧
    (c_dtw CSM P m n 1 U L UL S).2.UL (i * n + j) = cD CSM n i j := by
  have eU := c_dtw_U_at CSM P m n U L UL S i.toNat j.toNat (by omega) (by omega)
  have eL := c_dtw_L_at CSM P m n U L UL S i.toNat j.toNat (by omega) (by omega)
  have eD := c_dtw_UL_at CSM P m n U L UL S i.toNat j.toNat (by omega) (by omega)
  rw [Int.toNat_of_nonneg hi0, Int.toNat_of_nonneg hj0] at eU eL eD
  have hz : ¬ (i.toNat = 0 ∧ j.toNat = 0) := by omega
  rw [if_neg hz] at eU eL eD
  obtain ⟨c1, c2, c3⟩ := cand_int CSM n i j hi0 hj0
  rw [eU, eL, eD, c1, c2, c3]
  exact ⟨rfl, rfl, rfl⟩

theorem sweepDebug_eq (CSM : FBuf) (m n : Nat) (s : SweepSt) :
    sweepDebug CSM m n s
      = loopN (sweepRound CSM m n 1) (m + n - 1)
          { s with U := (initMem ⟨fun _ => 0, s.U, s.L, s.UL, s.S⟩ ((m : Int) * n)).U,
                   L := (initMem ⟨fun _ => 0, s.U, s.L, s.UL, s.S⟩ ((m : Int) * n)).L,
                   UL := (initMem ⟨fun _ => 0, s.U, s.L, s.UL, s.S⟩ ((m : Int) * n)).UL } := by
  have e : ((m : Int) + n - 1).toNat = m + n - 1 := by omega
  simp only [sweepDebug, sweep, forLoop, c_dtw_init_eq, if_true, e]

/-! ## Reruns, invalid dimensions, the sentinel, bounds and the transpose -/

theorem c_dtw_SP_indep (CSM : FBuf) (P : IBuf) (M N d1 d2 : Int) (U L UL U2 L2 UL2 S : FBuf) :
    (c_dtw CSM P M N d1 U L UL S).2.S = (c_dtw CSM P M N d2 U2 L2 UL2 S).2.S ∧
    (c_dtw CSM P M N d1 U L UL S).2.P = (c_dtw CSM P M N d2 U2 L2 UL2 S).2.P ∧
    (c_dtw CSM P M N d1 U L UL S).1 = (c_dtw CSM P M N d2 U2 L2 UL2 S).1 := by
  have h1 := c_dtw_init_SP M N d1 ⟨P, U, L, UL, S⟩
  have h2 := c_dtw_init_SP M N d2 ⟨P, U2, L2, UL2, S⟩
  have h := c_dtw_fill_SP CSM M N d1 d2 _ _ (h1.1.trans h2.1.symm) (h1.2.trans h2.2.symm)
  refine ⟨h.1, h.2, ?_⟩
  rw [c_dtw_fst, c_dtw_fst]
  exact congrFun h.1 _

theorem c_dtw_rerun (CSM : FBuf) (P : IBuf) (m n : Nat) (debug : Int) (U L UL S : FBuf) :
    (c_dtw CSM (c_dtw CSM P m n debug U L UL S).2.P m n debug
        (c_dtw CSM P m n debug U L UL S).2.U (c_dtw CSM P m n debug U L UL S).2.L
        (c_dtw CSM P m n debug U L UL S).2.UL (c_dtw CSM P m n debug U L UL S).2.S).2.S
      = (c_dtw CSM P m n debug U L UL S).2.S ∧
    (c_dtw CSM (c_dtw CSM P m n debug U L UL S).2.P m n debug
        (c_dtw CSM P m n debug U L UL S).2.U (c_dtw CSM P m n debug U L UL S).2.L
        (c_dtw CSM P m n debug U L UL S).2.UL (c_dtw CSM P m n debug U L UL S).2.S).2.P
      = (c_dtw CSM P m n debug U L UL S).2.P := by
  generalize hr : (c_dtw CSM P m n debug U L UL S).2 = r
  have e1 := c_dtw_snd CSM P m n debug U L UL S
  rw [hr] at e1
  rw [c_dtw_snd]
  constructor
  · funext x
    by_cases hx : 0 ≤ x ∧ x < (m : Int) * n
    · rw [e1]
      simp only [fillMem, if_pos hx]
    · have : r.S x = (fillMem CSM n debug (if debug = 1 then initMem r ((m : Int) * n) else r)
          ((m : Int) * n)).S x := by
        simp only [fillMem, if_neg hx]
        by_cases hd : debug = 1 <;> simp [hd, initMem]
      exact this.symm
  · funext x
    by_cases hx : 0 ≤ x ∧ x < (m : Int) * n
    · have a : (fillMem CSM n debug (if debug = 1 then initMem r ((m : Int) * n) else r)
          ((m : Int) * n)).P x
          = (match Tref CSM n (x.toNat / n) (x.toNat % n) with
              | some tg => tg
              | none => r.P x) := by
        simp only [fillMem, if_pos hx]
        cases Tref CSM n (x.toNat / n) (x.toNat % n) with
        | none => by_cases hd : debug = 1 <;> simp [hd, initMem]
        | some t => rfl
      rw [a]
      have b : r.P x = (match Tref CSM n (x.toNat / n) (x.toNat % n) with
              | some tg => tg
              | none => P x) := by
        rw [e1]
        simp only [fillMem, if_pos hx]
        cases Tref CSM n (x.toNat / n) (x.toNat % n) with
        | none => by_cases hd : debug = 1 <;> simp [hd, initMem]
        | some t => rfl
      cases hT : Tref CSM n (x.toNat / n) (x.toNat % n) with
      | none => rfl
      | some t => rw [hT] at b; simp only [b]
    · simp only [fillMem, if_neg hx]
      by_cases hd : debug = 1 <;> simp [hd, initMem]

theorem loopN_id {σ : Type} (body : Int → σ → σ) (h : ∀ i s, body i s = s) :
    ∀ (k : Nat) (s : σ), loopN body k s = s := by
  intro k
  induction k with
  | zero => intro s; rfl
  | succ k ih => intro s; rw [loopN, h, ih]

theorem forLoop_nonpos {σ : Type} (n : Int) (hn : n ≤ 0) (body : Int → σ → σ) (s : σ) :
    forLoop n body s = s := by
  have : n.toNat = 0 := by omega
  simp [forLoop, this, loopN]

theorem nested_nonpos {σ : Type} (M N : Int) (h : M ≤ 0 ∨ N ≤ 0) (body : Int → Int → σ → σ)
    (s : σ) : forLoop M (fun i s => forLoop N (fun j s => body i j s) s) s = s := by
  rcases h with h | h
  · exact forLoop_nonpos M h _ s
  · exact loopN_id _ (fun i s => forLoop_nonpos N h _ s) _ s

theorem Sref_ge (CSM : FBuf) (m n : Nat) (h : NonNegN CSM m n) (i j : Nat)
    (hi : i < m) (hj : j < n) : CSM ((i : Int) * n + j) ≤ Sref CSM n i j := by
  rw [Sref_rec CSM m n h i j hi hj]
  by_cases hi0 : i = 0
  · by_cases hj0 : j = 0
    · simp [hi0, hj0]
    · have := Sref_nonneg CSM m n h 0 (j - 1) (by omega) (by omega)
      simp only [hi0, hj0, if_true, if_false]
      linarith
  · by_cases hj0 : j = 0
    · have := Sref_nonneg CSM m n h (i - 1) 0 (by omega) (by omega)
      simp only [hi0, hj0, if_true, if_false]
      linarith
    · have hl := Sref_nonneg CSM m n h i (j - 1) hi (by omega)
      have hu := Sref_nonneg CSM m n h (i - 1) j (by omega) hj
      have hd := Sref_nonneg CSM m n h (i - 1) (j - 1) (by omega) (by omega)
      simp only [hi0, hj0, if_false]
      have := le_min hl (le_min hu hd)
      linarith

theorem cands_final (CSM : FBuf) (P : IBuf) (m n : Nat) (debug : Int) (U L UL S : FBuf)
    (i j : Int) (hi0 : 0 ≤ i) (hi : i < m) (hj0 : 0 ≤ j) (hj : j < n) :
    cands (c_dtw CSM P m n debug U L UL S).2.S n i j
      = (cL CSM n i j, cU CSM n i j, cD CSM n i j) := by
  simp only [cands, cL, cU, cD, Prod.mk.injEq]
  refine ⟨?_, ?_, ?_⟩
  · by_cases a : j > 0
    · rw [if_pos a, if_pos a,
        c_dtw_S_int CSM P m n debug U L UL S i (j - 1) hi0 hi (by omega) (by omega)]
      rfl
    · rw [if_neg a, if_neg a]
  · by_cases a : i > 0
    · rw [if_pos a, if_pos a,
        c_dtw_S_int CSM P m n debug U L UL S (i - 1) j (by omega) (by omega) hj0 hj]
      rfl
    · rw [if_neg a, if_neg a]
  · by_cases a : i > 0 ∧ j > 0
    · rw [if_pos a, if_pos a,
        c_dtw_S_int CSM P m n debug U L UL S (i - 1) (j - 1) (by omega) (by omega)
          (by omega) (by omega)]
      rfl
    · rw [if_neg a, if_neg a]

theorem cand_feasible (CSM : FBuf) (m n : Nat) (h : NonNeg CSM m n)
    (i j : Int) (hi0 : 0 ≤ i) (hi : i < m) (hj0 : 0 ≤ j) (hj : j < n) :
    (cL CSM n i j > -1 ↔ 0 < j) ∧ (cU CSM n i j > -1 ↔ 0 < i) ∧
    (cD CSM n i j > -1 ↔ (0 < i ∧ 0 < j)) := by
  simp only [cL, cU, cD]
  refine ⟨?_, ?_, ?_⟩
  · by_cases a : j > 0
    · have := SrefC_nonneg CSM m n h i (j - 1) hi0 hi (by omega) (by omega)
      rw [if_pos a]
      exact ⟨fun _ => a, fun _ => by linarith⟩
    · rw [if_neg a]
      exact ⟨fun hlt => absurd hlt (lt_irrefl _), fun hp => absurd hp a⟩
  · by_cases a : i > 0
    · have := SrefC_nonneg CSM m n h (i - 1) j (by omega) (by omega) hj0 hj
      rw [if_pos a]
      exact ⟨fun _ => a, fun _ => by linarith⟩
    · rw [if_neg a]
      exact ⟨fun hlt => absurd hlt (lt_irrefl _), fun hp => absurd hp a⟩
  · by_cases a : i > 0 ∧ j > 0
    · have := SrefC_nonneg CSM m n h (i - 1) (j - 1) (by omega) (by omega) (by omega)
        (by omega)
      rw [if_pos a]
      exact ⟨fun _ => a, fun _ => by linarith⟩
    · rw [if_neg a]
      exact ⟨fun hlt => absurd hlt (lt_irrefl _), fun hp => absurd hp a⟩

theorem Sref_transpose (CSM CSMt : FBuf) (m n : Nat) (h : NonNegN CSM m n)
    (ht : ∀ i j : Nat, i < m → j < n → CSMt ((j : Int) * m + i) = CSM ((i : Int) * n + j)) :
    ∀ s i j : Nat, i + j = s → i < m → j < n → Sref CSMt m j i = Sref CSM n i j := by
  have h2 : NonNegN CSMt n m := fun j i hj hi => by rw [ht i j hi hj]; exact h i j hi hj
  intro s
  induction s using Nat.strong_induction_on with
  | _ s ih =>
    intro i j hs hi hj
    rw [Sref_rec CSM m n h i j hi hj, Sref_rec CSMt n m h2 j i hj hi, ht i j hi hj]
    congr 1
    by_cases hi0 : i = 0
    · by_cases hj0 : j = 0
      · simp only [hi0, hj0, if_true]
      · subst hi0
        simp only [hj0, if_true, if_false]
        exact ih (0 + (j - 1)) (by omega) 0 (j - 1) rfl hi (by omega)
    · by_cases hj0 : j = 0
      · subst hj0
        simp only [hi0, if_true, if_false]
        exact ih ((i - 1) + 0) (by omega) (i - 1) 0 rfl (by omega) hj
      · simp only [hi0, hj0, if_false]
        rw [ih (i + (j - 1)) (by omega) i (j - 1) rfl hi (by omega),
          ih ((i - 1) + j) (by omega) (i - 1) j rfl (by omega) hj,
          ih ((i - 1) + (j - 1)) (by omega) (i - 1) (j - 1) rfl (by omega) (by omega)]
        rw [← min_assoc, ← min_assoc, min_comm (Sref CSM n (i - 1) j)]

theorem c_diag_cands_congr (d0 d1 csm0 csm1 e0 e1 csn0 csn1 : FBuf) (M i1 j1 thisi idx : Int)
    (h1 : ∀ x ∈ c_diag_reads1 M i1 j1 thisi idx, d1 x = e1 x ∧ csm1 x = csn1 x)
    (h0 : ∀ x ∈ c_diag_reads0 M i1 j1 thisi idx, d0 x = e0 x ∧ csm0 x = csn0 x) :
    c_diag_cands d0 d1 csm0 csm1 M i1 j1 thisi idx
      = c_diag_cands e0 e1 csn0 csn1 M i1 j1 thisi idx := by
  unfold c_diag_cands
  unfold c_diag_reads1 at h1
  unfold c_diag_reads0 at h0
  by_cases a : j1 = 0
  · simp only [a, if_true] at h1 h0 ⊢
    by_cases b : idx > 0
    · by_cases c : thisi > 0
      · simp only [b, c, and_self, if_true, List.mem_append, List.mem_singleton] at h1 h0 ⊢
        rw [(h1 (idx - 1) (Or.inl rfl)).1, (h1 (idx - 1) (Or.inl rfl)).2,
          (h1 idx (Or.inr rfl)).1, (h1 idx (Or.inr rfl)).2,
          (h0 (idx - 1) rfl).1, (h0 (idx - 1) rfl).2]
      · simp only [b, c, and_false, if_true, if_false, List.append_nil,
          List.mem_singleton] at h1 ⊢
        rw [(h1 (idx - 1) rfl).1, (h1 (idx - 1) rfl).2]
    · by_cases c : thisi > 0
      · simp only [b, c, false_and, if_true, if_false, List.nil_append,
          List.mem_singleton] at h1 ⊢
        rw [(h1 idx rfl).1, (h1 idx rfl).2]
      · simp only [b, c, false_and, if_false]
  · simp only [a, if_false] at h1 h0 ⊢
    by_cases b : i1 = M - 1 ∧ j1 = 1
    · simp only [b, and_self, if_true] at h1 h0 ⊢
      by_cases c' : thisi > 0
      · simp only [c', if_true, List.mem_cons, List.mem_singleton, List.not_mem_nil,
          or_false] at h1 h0 ⊢
        rw [(h1 idx (Or.inl rfl)).1, (h1 idx (Or.inl rfl)).2,
          (h1 (idx + 1) (Or.inr rfl)).1, (h1 (idx + 1) (Or.inr rfl)).2,
          (h0 idx rfl).1, (h0 idx rfl).2]
      · simp only [c', if_false, List.mem_singleton] at h1 ⊢
        rw [(h1 idx rfl).1, (h1 idx rfl).2]
    · simp only [b, if_false] at h1 h0 ⊢
      by_cases c : i1 = M - 1 ∧ j1 > 1
      · simp only [c, and_self, if_true] at h1 h0 ⊢
        by_cases d : thisi > 0
        · simp only [d, if_true, List.mem_cons, List.mem_singleton, List.not_mem_nil,
            or_false] at h1 h0 ⊢
          rw [(h1 idx (Or.inl rfl)).1, (h1 idx (Or.inl rfl)).2,
            (h1 (idx + 1) (Or.inr rfl)).1, (h1 (idx + 1) (Or.inr rfl)).2,
            (h0 (idx + 1) rfl).1, (h0 (idx + 1) rfl).2]
        · simp only [d, if_false, List.mem_singleton] at h1 ⊢
          rw [(h1 idx rfl).1, (h1 idx rfl).2]
      · simp only [c, if_false]

theorem c_diag_iter_access_eq (M N k debug idx : Int) :
    c_diag_iter_access M N k debug idx =
      (if inDiag M N k idx then
        if dI1 M k - idx = 0 ∧ dJ1 M k + idx = 0 then
          ([], [], idx, if debug = -1 then [0] else [])
        else
          (c_diag_reads1 M (dI1 M k) (dJ1 M k) (dI1 M k - idx) idx,
            c_diag_reads0 M (dI1 M k) (dJ1 M k) (dI1 M k - idx) idx, idx,
            if debug = 1 then [(dI1 M k - idx) * N + (dJ1 M k + idx)] else [])
      else ([], [], idx, [])) := rfl

theorem c_diag_iter_congr (d0 d1 csm0 csm1 e0 e1 csn0 csn1 : FBuf) (M N k debug idx : Int)
    (st : DiagSt)
    (h1 : ∀ x ∈ (c_diag_iter_access M N k debug idx).1, d1 x = e1 x ∧ csm1 x = csn1 x)
    (h0 : ∀ x ∈ (c_diag_iter_access M N k debug idx).2.1, d0 x = e0 x ∧ csm0 x = csn0 x) :
    c_diag_iter d0 d1 csm0 csm1 M N k debug idx st
      = c_diag_iter e0 e1 csn0 csn1 M N k debug idx st := by
  rw [c_diag_iter_eq, c_diag_iter_eq]
  rw [c_diag_iter_access_eq] at h1 h0
  by_cases a : inDiag M N k idx
  · by_cases b : dI1 M k - idx = 0 ∧ dJ1 M k + idx = 0
    · simp only [if_pos a, if_pos b]
    · rw [if_pos a, if_neg b] at h1 h0
      simp only [if_pos a, if_neg b]
      rw [c_diag_cands_congr d0 d1 csm0 csm1 e0 e1 csn0 csn1 _ _ _ _ _ h1 h0]
  · simp only [if_neg a]

theorem c_diag_iter_S (d0 d1 csm0 csm1 : FBuf) (M N k idx : Int) (st : DiagSt) :
    (c_diag_iter d0 d1 csm0 csm1 M N k 1 idx st).S
      = if inDiag M N k idx ∧ ¬ (dI1 M k - idx = 0 ∧ dJ1 M k + idx = 0) then
          wr st.S ((dI1 M k - idx) * N + (dJ1 M k + idx))
            (iterScore d0 d1 csm0 csm1 M N k idx st.score)
        else st.S := by
  rw [c_diag_iter_eq]
  have h1 : ¬ ((1 : Int) = -1) := by decide
  simp only [h1, if_false, if_true, iterScore]
  by_cases a : inDiag M N k idx
  · by_cases b : dI1 M k - idx = 0 ∧ dJ1 M k + idx = 0
    · rw [if_pos a, if_pos b, if_neg (fun h => h.2 b)]
    · rw [if_pos a, if_neg b, if_pos ⟨a, b⟩, if_pos a, if_neg b]
  · rw [if_neg a, if_neg (fun h => a h.1)]

theorem c_diag_step_cells (M : Int) (n : Nat) (k diagLen : Int)
    (d0 d1 d2 csm0 csm1 U L UL S : FBuf) :
    (∀ idx : Int, 0 ≤ idx → idx < diagLen → inDiag M n k idx →
      ¬ (dI1 M k - idx = 0 ∧ dJ1 M k + idx = 0) →
      (c_diag_step d0 d1 d2 csm0 csm1 M n diagLen k 1 U L UL S).S
          ((dI1 M k - idx) * n + (dJ1 M k + idx))
        = (c_diag_step d0 d1 d2 csm0 csm1 M n diagLen k 1 U L UL S).d2 idx) ∧
    (∀ x : Int, (∀ idx : Int, 0 ≤ idx → inDiag M n k idx →
        ¬ (dI1 M k - idx = 0 ∧ dJ1 M k + idx = 0) →
        x ≠ (dI1 M k - idx) * n + (dJ1 M k + idx)) →
      (c_diag_step d0 d1 d2 csm0 csm1 M n diagLen k 1 U L UL S).S x = S x) := by
  have key := loopN_ind
    (fun (c : Nat) (st : DiagSt) =>
      (∀ idx : Int, 0 ≤ idx → idx < c → inDiag M n k idx →
        ¬ (dI1 M k - idx = 0 ∧ dJ1 M k + idx = 0) →
        st.S ((dI1 M k - idx) * n + (dJ1 M k + idx)) = st.d2 idx) ∧
      (∀ x : Int, (∀ idx : Int, 0 ≤ idx → inDiag M n k idx →
          ¬ (dI1 M k - idx = 0 ∧ dJ1 M k + idx = 0) →
          x ≠ (dI1 M k - idx) * n + (dJ1 M k + idx)) →
        st.S x = S x))
    (c_diag_iter d0 d1 csm0 csm1 M n k 1)
    (by
      intro c st ⟨hA, hB⟩
      rw [c_diag_iter_S, c_diag_iter_d2]
      simp only [wr_if]
      constructor
      · intro idx h0 hlt hin hnz
        by_cases e : idx = (c : Int)
        · subst e
          have hc : (inDiag M n k c ∧
              ¬ (dI1 M k - c = 0 ∧ dJ1 M k + c = 0)) ∧
              (dI1 M k - c) * n + (dJ1 M k + c)
                = (dI1 M k - c) * n + (dJ1 M k + c) := ⟨⟨hin, hnz⟩, rfl⟩
          rw [if_pos hc]
          simp only [wr, if_true]
        · have hne : ¬ ((inDiag M n k c ∧
              ¬ (dI1 M k - c = 0 ∧ dJ1 M k + c = 0)) ∧
              (dI1 M k - idx) * n + (dJ1 M k + idx)
                = (dI1 M k - c) * n + (dJ1 M k + c)) := by
            rintro ⟨⟨hin', -⟩, heq⟩
            obtain ⟨-, -, a3, a4, -⟩ := inDiag_cell M n k idx h0 hin
            obtain ⟨-, -, b3, b4, -⟩ := inDiag_cell M n k c (by omega) hin'
            have := (index_inj n _ _ _ _ a3 a4 b3 b4 heq).2
            omega
          rw [if_neg hne]
          simp only [wr, if_neg e]
          exact hA idx h0 (by push_cast at hlt; omega) hin hnz
      · intro x hx
        have hne : ¬ ((inDiag M n k c ∧
            ¬ (dI1 M k - c = 0 ∧ dJ1 M k + c = 0)) ∧
            x = (dI1 M k - c) * n + (dJ1 M k + c)) := by
          rintro ⟨⟨hin', hnz'⟩, heq⟩
          exact hx c (by omega) hin' hnz' heq
        rw [if_neg hne]
        exact hB x hx)
    diagLen.toNat ⟨-1, d2, U, L, UL, S⟩
    ⟨fun idx h0 hlt => by omega, fun x _ => rfl⟩
  refine ⟨fun idx h0 hlt hin hnz => key.1 idx h0 (by omega) hin hnz, key.2⟩

/-- Away from the origin the sweep with `debug = 1` and `c_dtw` with `debug = 1` leave the
same `U`, `L`, `UL`; at `(0,0)` the sweep leaves the initial `-1`. -/
theorem sweepDebug_cells (CSM : FBuf) (P : IBuf) (M N : Int) (U L UL S : FBuf)
    (s : SweepSt) (hM : 0 < M) (hN : 0 < N) (h : NonNeg CSM M N) :
    (∀ i j : Int, 0 ≤ i → i < M → 0 ≤ j → j < N → ¬ (i = 0 ∧ j = 0) →
      (sweepDebug CSM M N s).U (i * N + j)
        = (c_dtw CSM P M N 1 U L UL S).2.U (i * N + j) ∧
      (sweepDebug CSM M N s).L (i * N + j)
        = (c_dtw CSM P M N 1 U L UL S).2.L (i * N + j) ∧
      (sweepDebug CSM M N s).UL (i * N + j)
        = (c_dtw CSM P M N 1 U L UL S).2.UL (i * N + j)) ∧
    ((sweepDebug CSM M N s).U 0 = -1 ∧
     (sweepDebug CSM M N s).L 0 = -1 ∧
     (sweepDebug CSM M N s).UL 0 = -1) := by
  obtain ⟨m, rfl, hm⟩ := pos_cast M hM
  obtain ⟨n, rfl, hn⟩ := pos_cast N hN
  rw [sweepDebug_eq]
  obtain ⟨g1, g2⟩ := sweep_debug CSM m n h
    { s with U := (initMem ⟨fun _ => 0, s.U, s.L, s.UL, s.S⟩ ((m : Int) * n)).U,
             L := (initMem ⟨fun _ => 0, s.U, s.L, s.UL, s.S⟩ ((m : Int) * n)).L,
             UL := (initMem ⟨fun _ => 0, s.U, s.L, s.UL, s.S⟩ ((m : Int) * n)).UL }
    (m + n - 1)
  constructor
  · intro i j hi0 hi hj0 hj hnz
    obtain ⟨a1, a2, a3⟩ := g1 i j hi0 hi hj0 hj hnz (by omega)
    obtain ⟨b1, b2, b3⟩ := c_dtw_debug_int CSM P m n U L UL S i j hi0 hi hj0 hj hnz
    rw [a1, a2, a3, b1, b2, b3]
    exact ⟨rfl, rfl, rfl⟩
  · have hx : ∀ i j : Int, 0 ≤ i → i < m → 0 ≤ j → j < n → ¬ (i = 0 ∧ j = 0) →
        i + j < ((m + n - 1 : Nat) : Int) → (0 : Int) ≠ i * n + j := by
      intro i j _ _ hj0 hj hnz _ heq
      have e : (0 : Int) * n + 0 = i * n + j := by rw [← heq]; ring
      have := index_inj n 0 0 i j le_rfl (by omega) hj0 hj e
      exact hnz ⟨this.1.symm, this.2.symm⟩
    obtain ⟨a1, a2, a3⟩ := g2 0 hx
    rw [a1, a2, a3]
    have hpos : (0 : Int) ≤ 0 ∧ (0 : Int) < (m : Int) * n := ⟨le_rfl, by positivity⟩
    simp only [initMem, hpos, and_self, if_true]

/-! ## The rounded model at concrete inputs -/

theorem c_dtw_rnd_id (CSM : FBuf) (P : IBuf) (M N debug : Int) (U L UL S : FBuf) :
    c_dtw_rnd id CSM P M N debug U L UL S = c_dtw CSM P M N debug U L UL S := rfl

theorem c_diag_step_rnd_id (d0 d1 d2 csm0 csm1 : FBuf) (M N diagLen i debug : Int)
    (U L UL S : FBuf) :
    c_diag_step_rnd id d0 d1 d2 csm0 csm1 M N diagLen i debug U L UL S
      = c_diag_step d0 d1 d2 csm0 csm1 M N diagLen i debug U L UL S := rfl

theorem sweepLast_rnd_id (CSM : FBuf) (M N debug : Int) (s : SweepSt) :
    sweepLast_rnd id CSM M N debug s = sweepLast CSM M N debug s := rfl

/-- C1: on a non-negative `M × N` cost matrix (`M, N > 0`), every `S(i,j)` that `c_dtw`
writes is the minimum of the path cost over the monotone paths from `(0,0)` to `(i,j)`:
some path has this cost and no path has a smaller one; and the value `c_dtw` returns is
`S(M-1,N-1)`. -/
theorem c_dtw_min_path (CSM : FBuf) (P : IBuf) (M N debug : Int) (U L UL S : FBuf)
    (hM : 0 < M) (hN : 0 < N) (h : NonNeg CSM M N) :
    (∀ i j : Int, 0 ≤ i → i < M → 0 ≤ j → j < N →
      (∃ l : List Cell, IsPath l (0, 0) (i, j) ∧
        pathCost CSM N l = (c_dtw CSM P M N debug U L UL S).2.S (i * N + j)) ∧
      (∀ l : List Cell, IsPath l (0, 0) (i, j) →
        (c_dtw CSM P M N debug U L UL S).2.S (i * N + j) ≤ pathCost CSM N l)) ∧
    (c_dtw CSM P M N debug U L UL S).1
      = (c_dtw CSM P M N debug U L UL S).2.S ((M - 1) * N + (N - 1)) := by
  obtain ⟨m, rfl, hm⟩ := pos_cast M hM
  obtain ⟨n, rfl, hn⟩ := pos_cast N hN
  refine ⟨fun i j hi0 hi hj0 hj => ?_, ?_⟩
  · rw [c_dtw_S_int CSM P m n debug U L UL S i j hi0 hi hj0 hj]
    constructor
    · refine ⟨(backtrace (c_dtw CSM P m n debug U L UL S).2.P n (i + j).toNat (i, j)).reverse,
        backtrace_isPath CSM P m n debug U L UL S hm hn h _ (i, j) hi0 hi hj0 hj ?_, ?_⟩
      · simp only; omega
      · rw [pathCost_reverse]
        exact (backtrace_spec CSM P m n debug U L UL S hm hn h (i + j).toNat (i, j)
          hi0 hi hj0 hj (by simp only; omega)).2.2.2.1
    · intro l hl
      exact path_lower CSM m n hm hn h (i, j) hi hj l hl
  · rw [c_dtw_fst]
    congr 1
    ring

/-- Witness of `c_dtw_min_path`: the all-ones `2 × 2` cost matrix. -/
theorem c_dtw_min_path_witness :
    NonNeg (fun _ => 1) 2 2 ∧
    (c_dtw (fun _ => 1) (fun _ => 0) 2 2 0 (fun _ => 0) (fun _ => 0) (fun _ => 0)
        (fun _ => 0)).1
      = (c_dtw (fun _ => 1) (fun _ => 0) 2 2 0 (fun _ => 0) (fun _ => 0) (fun _ => 0)
        (fun _ => 0)).2.S ((2 - 1) * 2 + (2 - 1)) :=
  ⟨fun _ _ _ _ _ _ => zero_le_one,
   (c_dtw_min_path (fun _ => 1) (fun _ => 0) 2 2 0 (fun _ => 0) (fun _ => 0) (fun _ => 0)
      (fun _ => 0) (by decide) (by decide) (fun _ _ _ _ _ _ => zero_le_one)).2⟩

/-- C4: on a non-negative `M × N` cost matrix (`M, N > 0`), at every cell other than
`(0,0)` the tag `c_dtw` leaves in `P(i,j)` is `DIAG` when `i > 0`, `j > 0` and
`S(i-1,j-1) ≤ min(S(i,j-1), S(i-1,j))`; otherwise `UP` when `i > 0` and either `j = 0` or
`S(i-1,j) < S(i,j-1)`; otherwise `LEFT`. `P(0,0)` keeps the content it had before the
call. -/
theorem c_dtw_tags (CSM : FBuf) (P : IBuf) (M N debug : Int) (U L UL S : FBuf)
    (hM : 0 < M) (hN : 0 < N) (h : NonNeg CSM M N) :
    (∀ i j : Int, 0 ≤ i → i < M → 0 ≤ j → j < N → ¬ (i = 0 ∧ j = 0) →
      (c_dtw CSM P M N debug U L UL S).2.P (i * N + j) =
        (if 0 < i ∧ 0 < j ∧
            (c_dtw CSM P M N debug U L UL S).2.S ((i - 1) * N + (j - 1))
              ≤ min ((c_dtw CSM P M N debug U L UL S).2.S (i * N + (j - 1)))
                  ((c_dtw CSM P M N debug U L UL S).2.S ((i - 1) * N + j))
          then DIAG
          else if 0 < i ∧ (j = 0 ∨
            (c_dtw CSM P M N debug U L UL S).2.S ((i - 1) * N + j)
              < (c_dtw CSM P M N debug U L UL S).2.S (i * N + (j - 1))) then UP
          else LEFT)) ∧
    (c_dtw CSM P M N debug U L UL S).2.P 0 = P 0 := by
  obtain ⟨m, rfl, hm⟩ := pos_cast M hM
  obtain ⟨n, rfl, hn⟩ := pos_cast N hN
  refine ⟨fun i j hi0 hi hj0 hj hne => ?_, c_dtw_P_zero CSM P m n debug U L UL S hm hn⟩
  rw [c_dtw_P_int CSM P m n debug U L UL S h i j hi0 hi hj0 hj hne]
  simp only [SrefC]
  by_cases a : 0 < i
  · by_cases b : 0 < j
    · rw [c_dtw_S_int CSM P m n debug U L UL S i (j - 1) hi0 hi (by omega) (by omega),
        c_dtw_S_int CSM P m n debug U L UL S (i - 1) j (by omega) (by omega) hj0 hj,
        c_dtw_S_int CSM P m n debug U L UL S (i - 1) (j - 1) (by omega) (by omega)
          (by omega) (by omega)]
    · have b' : j = 0 := by omega
      simp only [a, b, b', lt_self_iff_false, false_and, and_false, if_false, true_or,
        and_self, if_true]
  · simp only [a, false_and, if_false]

/-- Witness of `c_dtw_tags`: the all-ones `2 × 2` cost matrix. -/
theorem c_dtw_tags_witness :
    NonNeg (fun _ => 1) 2 2 ∧
    (c_dtw (fun _ => 1) (fun _ => 7) 2 2 0 (fun _ => 0) (fun _ => 0) (fun _ => 0)
        (fun _ => 0)).2.P 0 = 7 :=
  ⟨fun _ _ _ _ _ _ => zero_le_one,
   (c_dtw_tags (fun _ => 1) (fun _ => 7) 2 2 0 (fun _ => 0) (fun _ => 0) (fun _ => 0)
      (fun _ => 0) (by decide) (by decide) (fun _ _ _ _ _ _ => zero_le_one)).2⟩

/-- C5: on a non-negative `M × N` cost matrix (`M, N > 0`), the backtrace that follows the
`P` written by `c_dtw` from `(M-1,N-1)` starts there, ends at `(0,0)`, visits cells of the
matrix only, goes at every step to `backStep` of the current cell, which is one row up,
one column left or both, and visits at most `(M-1)+(N-1)+1` cells, so makes at most
`(M-1)+(N-1)` steps. -/
theorem c_dtw_backtrace_terminates (CSM : FBuf) (P : IBuf) (M N debug : Int)
    (U L UL S : FBuf) (hM : 0 < M) (hN : 0 < N) (h : NonNeg CSM M N) :
    (backtrace (c_dtw CSM P M N debug U L UL S).2.P N ((M - 1) + (N - 1)).toNat
        (M - 1, N - 1)).head? = some (M - 1, N - 1) ∧
    (backtrace (c_dtw CSM P M N debug U L UL S).2.P N ((M - 1) + (N - 1)).toNat
        (M - 1, N - 1)).getLast? = some (0, 0) ∧
    (backtrace (c_dtw CSM P M N debug U L UL S).2.P N ((M - 1) + (N - 1)).toNat
        (M - 1, N - 1)).Chain'
      (fun a b => b = backStep (c_dtw CSM P M N debug U L UL S).2.P N a ∧ isStep b a) ∧
    (∀ c ∈ backtrace (c_dtw CSM P M N debug U L UL S).2.P N ((M - 1) + (N - 1)).toNat
        (M - 1, N - 1), 0 ≤ c.1 ∧ c.1 < M ∧ 0 ≤ c.2 ∧ c.2 < N) ∧
    ((backtrace (c_dtw CSM P M N debug U L UL S).2.P N ((M - 1) + (N - 1)).toNat
        (M - 1, N - 1)).length : Int) ≤ (M - 1) + (N - 1) + 1 := by
  obtain ⟨m, rfl, hm⟩ := pos_cast M hM
  obtain ⟨n, rfl, hn⟩ := pos_cast N hN
  obtain ⟨q1, q2, q3, -, q5, q6⟩ :=
    backtrace_spec CSM P m n debug U L UL S hm hn h (((m : Int) - 1) + ((n : Int) - 1)).toNat
      ((m : Int) - 1, (n : Int) - 1) (by simp only; omega) (by simp only; omega)
      (by simp only; omega) (by simp only; omega) (by simp only; omega)
  exact ⟨q1, q2, q3, q6, q5⟩

/-- Witness of `c_dtw_backtrace_terminates`: the all-ones `2 × 2` cost matrix. -/
theorem c_dtw_backtrace_terminates_witness :
    NonNeg (fun _ => 1) 2 2 ∧
    (backtrace (c_dtw (fun _ => 1) (fun _ => 0) 2 2 0 (fun _ => 0) (fun _ => 0)
        (fun _ => 0) (fun _ => 0)).2.P 2 ((2 - 1) + (2 - 1) : Int).toNat
        (2 - 1, 2 - 1)).getLast? = some (0, 0) :=
  ⟨fun _ _ _ _ _ _ => zero_le_one,
   (c_dtw_backtrace_terminates (fun _ => 1) (fun _ => 0) 2 2 0 (fun _ => 0) (fun _ => 0)
      (fun _ => 0) (fun _ => 0) (by decide) (by decide)
      (fun _ _ _ _ _ _ => zero_le_one)).2.1⟩

/-- C8, as the code has it: with `debug = 1`, at every cell `(i,j)` other than `(0,0)`,
`c_dtw` leaves `U(i,j) = S(i-1,j)` if `i > 0` and `-1` otherwise, `L(i,j) = S(i,j-1)` if
`j > 0` and `-1` otherwise, `UL(i,j) = S(i-1,j-1)` if `i > 0` and `j > 0` and `-1`
otherwise; at `(0,0)` it leaves `U = L = UL = 0`. -/
theorem c_dtw_debug_candidates (CSM : FBuf) (P : IBuf) (M N : Int) (U L UL S : FBuf)
    (i j : Int) (hi0 : 0 ≤ i) (hi : i < M) (hj0 : 0 ≤ j) (hj : j < N) :
    (c_dtw CSM P M N 1 U L UL S).2.U (i * N + j)
      = (if i = 0 ∧ j = 0 then 0
         else if i > 0 then (c_dtw CSM P M N 1 U L UL S).2.S ((i - 1) * N + j) else -1) ∧
    (c_dtw CSM P M N 1 U L UL S).2.L (i * N + j)
      = (if i = 0 ∧ j = 0 then 0
         else if j > 0 then (c_dtw CSM P M N 1 U L UL S).2.S (i * N + (j - 1)) else -1) ∧
    (c_dtw CSM P M N 1 U L UL S).2.UL (i * N + j)
      = (if i = 0 ∧ j = 0 then 0
         else if i > 0 ∧ j > 0 then
           (c_dtw CSM P M N 1 U L UL S).2.S ((i - 1) * N + (j - 1)) else -1) := by
  obtain ⟨m, rfl, hm⟩ := pos_cast M (by omega)
  obtain ⟨n, rfl, hn⟩ := pos_cast N (by omega)
  have eU := c_dtw_U_at CSM P m n U L UL S i.toNat j.toNat (by omega) (by omega)
  have eL := c_dtw_L_at CSM P m n U L UL S i.toNat j.toNat (by omega) (by omega)
  have eD := c_dtw_UL_at CSM P m n U L UL S i.toNat j.toNat (by omega) (by omega)
  rw [Int.toNat_of_nonneg hi0, Int.toNat_of_nonneg hj0] at eU eL eD
  have hz : (i.toNat = 0 ∧ j.toNat = 0) ↔ (i = 0 ∧ j = 0) := by omega
  have e1 : i.toNat - 1 = (i - 1).toNat := by omega
  have e2 : j.toNat - 1 = (j - 1).toNat := by omega
  have a : (0 < i.toNat) ↔ (0 < i) := by omega
  have b : (0 < j.toNat) ↔ (0 < j) := by omega
  rw [eU, eL, eD]
  simp only [hz, candU, candL, candD, gt_iff_lt, a, b, e1, e2]
  refine ⟨?_, ?_, ?_⟩
  · by_cases h0 : i = 0 ∧ j = 0
    · rw [if_pos h0, if_pos h0]
    · rw [if_neg h0, if_neg h0]
      by_cases hp : 0 < i
      · rw [if_pos hp, if_pos hp,
          c_dtw_S_int CSM P m n 1 U L UL S (i - 1) j (by omega) (by omega) hj0 hj]
      · rw [if_neg hp, if_neg hp]
  · by_cases h0 : i = 0 ∧ j = 0
    · rw [if_pos h0, if_pos h0]
    · rw [if_neg h0, if_neg h0]
      by_cases hp : 0 < j
      · rw [if_pos hp, if_pos hp,
          c_dtw_S_int CSM P m n 1 U L UL S i (j - 1) hi0 hi (by omega) (by omega)]
      · rw [if_neg hp, if_neg hp]
  · by_cases h0 : i = 0 ∧ j = 0
    · rw [if_pos h0, if_pos h0]
    · rw [if_neg h0, if_neg h0]
      by_cases hp : 0 < i ∧ 0 < j
      · rw [if_pos hp, if_pos hp,
          c_dtw_S_int CSM P m n 1 U L UL S (i - 1) (j - 1) (by omega) (by omega)
            (by omega) (by omega)]
      · rw [if_neg hp, if_neg hp]

/-- Witness of `c_dtw_debug_candidates`: the cell `(1,1)` of the all-ones `2 × 2` cost
matrix. -/
theorem c_dtw_debug_candidates_witness :
    ((0 : Int) ≤ 1 ∧ (1 : Int) < 2) ∧
    (c_dtw (fun _ => 1) (fun _ => 0) 2 2 1 (fun _ => 0) (fun _ => 0) (fun _ => 0)
        (fun _ => 0)).2.U (1 * 2 + 1)
      = (if (1 : Int) = 0 ∧ (1 : Int) = 0 then 0
         else if (1 : Int) > 0 then
          (c_dtw (fun _ => 1) (fun _ => 0) 2 2 1 (fun _ => 0) (fun _ => 0) (fun _ => 0)
            (fun _ => 0)).2.S ((1 - 1) * 2 + 1) else -1) :=
  ⟨by decide,
   (c_dtw_debug_candidates (fun _ => 1) (fun _ => 0) 2 2 (fun _ => 0) (fun _ => 0)
      (fun _ => 0) (fun _ => 0) 1 1 (by decide) (by decide) (by decide) (by decide)).1⟩

/-- Counterexample to C8 as stated: on the all-ones `2 × 2` cost matrix with `debug = 1`,
`c_dtw` leaves `0`, not the marker `-1`, in `U`, `L` and `UL` at the cell `(0,0)`. -/
theorem c_dtw_debug_origin_counterexample :
    (c_dtw (fun _ => 1) (fun _ => 0) 2 2 1 (fun _ => 0) (fun _ => 0) (fun _ => 0)
        (fun _ => 0)).2.U (0 * 2 + 0) ≠ -1 ∧
    (c_dtw (fun _ => 1) (fun _ => 0) 2 2 1 (fun _ => 0) (fun _ => 0) (fun _ => 0)
        (fun _ => 0)).2.L (0 * 2 + 0) ≠ -1 ∧
    (c_dtw (fun _ => 1) (fun _ => 0) 2 2 1 (fun _ => 0) (fun _ => 0) (fun _ => 0)
        (fun _ => 0)).2.UL (0 * 2 + 0) ≠ -1 := by
  have eU := c_dtw_U_at (fun _ => 1) (fun _ => 0) 2 2 (fun _ => 0) (fun _ => 0)
    (fun _ => 0) (fun _ => 0) 0 0 (by decide) (by decide)
  have eL := c_dtw_L_at (fun _ => 1) (fun _ => 0) 2 2 (fun _ => 0) (fun _ => 0)
    (fun _ => 0) (fun _ => 0) 0 0 (by decide) (by decide)
  have eD := c_dtw_UL_at (fun _ => 1) (fun _ => 0) 2 2 (fun _ => 0) (fun _ => 0)
    (fun _ => 0) (fun _ => 0) 0 0 (by decide) (by decide)
  simp only [Nat.cast_ofNat, Nat.cast_zero, and_self, if_true] at eU eL eD
  rw [eU, eL, eD]
  norm_num

/-- C9: the failing input. On the all-ones `2 × 2` cost matrix, the sweep with `debug = 1`,
`U`, `L`, `UL` initialised to `-1`, leaves `U(0,0) = L(0,0) = UL(0,0) = -1`, while `c_dtw`
with `debug = 1` leaves `U(0,0) = L(0,0) = UL(0,0) = 0`. -/
theorem diag_sweep_debug_origin :
    ((sweepDebug (fun _ => 1) 2 2
      ⟨fun _ => 0, fun _ => 0, fun _ => 0, fun _ => 0, fun _ => 0, fun _ => 0, fun _ => 0,
        fun _ => 0, fun _ => 0⟩).U (0 * 2 + 0) = -1 ∧
     (sweepDebug (fun _ => 1) 2 2
      ⟨fun _ => 0, fun _ => 0, fun _ => 0, fun _ => 0, fun _ => 0, fun _ => 0, fun _ => 0,
        fun _ => 0, fun _ => 0⟩).L (0 * 2 + 0) = -1 ∧
     (sweepDebug (fun _ => 1) 2 2
      ⟨fun _ => 0, fun _ => 0, fun _ => 0, fun _ => 0, fun _ => 0, fun _ => 0, fun _ => 0,
        fun _ => 0, fun _ => 0⟩).UL (0 * 2 + 0) = -1) ∧
    ((c_dtw (fun _ => 1) (fun _ => 0) 2 2 1 (fun _ => 0) (fun _ => 0) (fun _ => 0)
      (fun _ => 0)).2.U (0 * 2 + 0) = 0 ∧
     (c_dtw (fun _ => 1) (fun _ => 0) 2 2 1 (fun _ => 0) (fun _ => 0) (fun _ => 0)
      (fun _ => 0)).2.L (0 * 2 + 0) = 0 ∧
     (c_dtw (fun _ => 1) (fun _ => 0) 2 2 1 (fun _ => 0) (fun _ => 0) (fun _ => 0)
      (fun _ => 0)).2.UL (0 * 2 + 0) = 0) := by
  refine ⟨⟨?_, ?_, ?_⟩, ?_, ?_, ?_⟩
  · simp [sweepDebug, sweep, sweepRound, c_diag_step, c_diag_iter, c_dtw_init,
      forLoop, loopN, wr, diagLength, dI1, dI2]
  · simp [sweepDebug, sweep, sweepRound, c_diag_step, c_diag_iter, c_dtw_init,
      forLoop, loopN, wr, diagLength, dI1, dI2]
  · simp [sweepDebug, sweep, sweepRound, c_diag_step, c_diag_iter, c_dtw_init,
      forLoop, loopN, wr, diagLength, dI1, dI2]
  · simp [c_dtw, c_dtw_fill, c_dtw_init, forLoop, loopN, c_dtw_cell, c_dtw_select, wr]
  · simp [c_dtw, c_dtw_fill, c_dtw_init, forLoop, loopN, c_dtw_cell, c_dtw_select, wr]
  · simp [c_dtw, c_dtw_fill, c_dtw_init, forLoop, loopN, c_dtw_cell, c_dtw_select, wr]

/-- C10: for every input, the `S`, the `P` and the value `c_dtw` returns are the same
whatever the value of `debug` and whatever the prior contents of `U`, `L`, `UL`; and when
`debug` is not 1, `c_dtw` leaves `U`, `L` and `UL` as they were. -/
theorem c_dtw_debug_frame (CSM : FBuf) (P : IBuf) (M N : Int) (U L UL S : FBuf) :
    (∀ (d1 d2 : Int) (U2 L2 UL2 : FBuf),
      (c_dtw CSM P M N d1 U L UL S).2.S = (c_dtw CSM P M N d2 U2 L2 UL2 S).2.S ∧
      (c_dtw CSM P M N d1 U L UL S).2.P = (c_dtw CSM P M N d2 U2 L2 UL2 S).2.P ∧
      (c_dtw CSM P M N d1 U L UL S).1 = (c_dtw CSM P M N d2 U2 L2 UL2 S).1) ∧
    (∀ d : Int, d ≠ 1 →
      (c_dtw CSM P M N d U L UL S).2.U = U ∧
      (c_dtw CSM P M N d U L UL S).2.L = L ∧
      (c_dtw CSM P M N d U L UL S).2.UL = UL) := by
  constructor
  · intro d1 d2 U2 L2 UL2
    have h1 := c_dtw_init_SP M N d1 ⟨P, U, L, UL, S⟩
    have h2 := c_dtw_init_SP M N d2 ⟨P, U2, L2, UL2, S⟩
    have h := c_dtw_fill_SP CSM M N d1 d2 _ _ (h1.1.trans h2.1.symm) (h1.2.trans h2.2.symm)
    refine ⟨h.1, h.2, ?_⟩
    rw [c_dtw_fst, c_dtw_fst]
    exact congrFun h.1 _
  · intro d hd
    have h := c_dtw_fill_frame CSM M N d hd (c_dtw_init M N d ⟨P, U, L, UL, S⟩)
    have e : c_dtw_init M N d ⟨P, U, L, UL, S⟩ = ⟨P, U, L, UL, S⟩ := by
      simp [c_dtw_init, hd]
    rw [e] at h
    simp only [c_dtw, e]
    exact h

/-- Witness of `c_dtw_debug_frame`: `debug = 0` on the all-ones `2 × 2` cost matrix. -/
theorem c_dtw_debug_frame_witness :
    (0 : Int) ≠ 1 ∧
    (c_dtw (fun _ => 1) (fun _ => 0) 2 2 0 (fun _ => 3) (fun _ => 4) (fun _ => 5)
      (fun _ => 0)).2.U = (fun _ => 3) :=
  ⟨by decide,
   ((c_dtw_debug_frame (fun _ => 1) (fun _ => 0) 2 2 (fun _ => 3) (fun _ => 4) (fun _ => 5)
      (fun _ => 0)).2 0 (by decide)).1⟩

/-- C11: for `M, N > 0`, a second run of `c_dtw` on the same `CSM`, started from the buffers
the first run left, ends with the same `S`, the same `P` and the same returned value; from
any prior buffer contents, every `S(i,j)` is a function of `CSM`, `M`, `N` alone, and every
`P(i,j)` is either a tag that is a function of `CSM`, `M`, `N` alone or, where `c_dtw` writes
no tag, the prior content; on a non-negative cost matrix two runs from any two prior
contents agree on every `S(i,j)` and on every `P(i,j)` other than `P(0,0)`, which is never
written. -/
theorem c_dtw_deterministic (CSM : FBuf) (M N : Int) (hM : 0 < M) (hN : 0 < N) :
    (∀ (P : IBuf) (debug : Int) (U L UL S : FBuf),
      (c_dtw CSM (c_dtw CSM P M N debug U L UL S).2.P M N debug
          (c_dtw CSM P M N debug U L UL S).2.U (c_dtw CSM P M N debug U L UL S).2.L
          (c_dtw CSM P M N debug U L UL S).2.UL (c_dtw CSM P M N debug U L UL S).2.S).2.S
        = (c_dtw CSM P M N debug U L UL S).2.S ∧
      (c_dtw CSM (c_dtw CSM P M N debug U L UL S).2.P M N debug
          (c_dtw CSM P M N debug U L UL S).2.U (c_dtw CSM P M N debug U L UL S).2.L
          (c_dtw CSM P M N debug U L UL S).2.UL (c_dtw CSM P M N debug U L UL S).2.S).2.P
        = (c_dtw CSM P M N debug U L UL S).2.P ∧
      (c_dtw CSM (c_dtw CSM P M N debug U L UL S).2.P M N debug
          (c_dtw CSM P M N debug U L UL S).2.U (c_dtw CSM P M N debug U L UL S).2.L
          (c_dtw CSM P M N debug U L UL S).2.UL (c_dtw CSM P M N debug U L UL S).2.S).1
        = (c_dtw CSM P M N debug U L UL S).1) ∧
    (∃ (g : Int → ℚ) (f : Int → Option Int),
      ∀ (P : IBuf) (debug : Int) (U L UL S : FBuf) (i j : Int),
        0 ≤ i → i < M → 0 ≤ j → j < N →
        (c_dtw CSM P M N debug U L UL S).2.S (i * N + j) = g (i * N + j) ∧
        (c_dtw CSM P M N debug U L UL S).2.P (i * N + j)
          = (f (i * N + j)).getD (P (i * N + j))) ∧
    (NonNeg CSM M N →
      ∀ (P P2 : IBuf) (debug debug2 : Int) (U L UL S U2 L2 UL2 S2 : FBuf) (i j : Int),
        0 ≤ i → i < M → 0 ≤ j → j < N →
        (c_dtw CSM P M N debug U L UL S).2.S (i * N + j)
          = (c_dtw CSM P2 M N debug2 U2 L2 UL2 S2).2.S (i * N + j) ∧
        (¬ (i = 0 ∧ j = 0) →
          (c_dtw CSM P M N debug U L UL S).2.P (i * N + j)
            = (c_dtw CSM P2 M N debug2 U2 L2 UL2 S2).2.P (i * N + j))) := by
  obtain ⟨m, rfl, hm⟩ := pos_cast M hM
  obtain ⟨n, rfl, hn⟩ := pos_cast N hN
  refine ⟨fun P debug U L UL S => ?_, ?_, ?_⟩
  · obtain ⟨a, b⟩ := c_dtw_rerun CSM P m n debug U L UL S
    refine ⟨a, b, ?_⟩
    rw [c_dtw_fst, c_dtw_fst, a]
  · refine ⟨fun x => Sref CSM n (x.toNat / n) (x.toNat % n),
      fun x => Tref CSM n (x.toNat / n) (x.toNat % n), ?_⟩
    intro P debug U L UL S i j hi0 hi hj0 hj
    have eS := c_dtw_S_at CSM P m n debug U L UL S i.toNat j.toNat (by omega) (by omega)
    have eP := c_dtw_P_at CSM P m n debug U L UL S i.toNat j.toNat (by omega) (by omega)
    have d1 := cell_div n i.toNat j.toNat (by omega)
    have d2 := cell_mod n i.toNat j.toNat (by omega)
    rw [Int.toNat_of_nonneg hi0, Int.toNat_of_nonneg hj0] at eS eP d1 d2
    simp only [d1, d2]
    refine ⟨eS, ?_⟩
    rw [eP]
    cases Tref CSM n i.toNat j.toNat <;> rfl
  · intro h P P2 debug debug2 U L UL S U2 L2 UL2 S2 i j hi0 hi hj0 hj
    constructor
    · rw [c_dtw_S_int CSM P m n debug U L UL S i j hi0 hi hj0 hj,
        c_dtw_S_int CSM P2 m n debug2 U2 L2 UL2 S2 i j hi0 hi hj0 hj]
    · intro hne
      rw [c_dtw_P_int CSM P m n debug U L UL S h i j hi0 hi hj0 hj hne,
        c_dtw_P_int CSM P2 m n debug2 U2 L2 UL2 S2 h i j hi0 hi hj0 hj hne]

/-- Witness of `c_dtw_deterministic`: a second run on the all-ones `2 × 2` cost matrix. -/
theorem c_dtw_deterministic_witness :
    ((0 : Int) < 2) ∧
    (c_dtw (fun _ => 1)
        (c_dtw (fun _ => 1) (fun _ => 0) 2 2 0 (fun _ => 0) (fun _ => 0) (fun _ => 0)
          (fun _ => 0)).2.P 2 2 0
        (c_dtw (fun _ => 1) (fun _ => 0) 2 2 0 (fun _ => 0) (fun _ => 0) (fun _ => 0)
          (fun _ => 0)).2.U
        (c_dtw (fun _ => 1) (fun _ => 0) 2 2 0 (fun _ => 0) (fun _ => 0) (fun _ => 0)
          (fun _ => 0)).2.L
        (c_dtw (fun _ => 1) (fun _ => 0) 2 2 0 (fun _ => 0) (fun _ => 0) (fun _ => 0)
          (fun _ => 0)).2.UL
        (c_dtw (fun _ => 1) (fun _ => 0) 2 2 0 (fun _ => 0) (fun _ => 0) (fun _ => 0)
          (fun _ => 0)).2.S).2.S
      = (c_dtw (fun _ => 1) (fun _ => 0) 2 2 0 (fun _ => 0) (fun _ => 0) (fun _ => 0)
          (fun _ => 0)).2.S :=
  ⟨by decide,
   ((c_dtw_deterministic (fun _ => 1) 2 2 (by decide) (by decide)).1 (fun _ => 0) 0
      (fun _ => 0) (fun _ => 0) (fun _ => 0) (fun _ => 0)).1⟩

/-- C12: on the `2 × 2` cost matrix `[[1,1],[1,1]]`, whatever the prior contents of the
buffers and the value of `debug`, `c_dtw` produces `S(0,0) = 1`, `S(0,1) = 2` with
`P(0,1) = LEFT`, `S(1,0) = 2` with `P(1,0) = UP`, `S(1,1) = 2` with `P(1,1) = DIAG`, and
returns the total cost 2. -/
theorem c_dtw_ones_2x2 (P : IBuf) (debug : Int) (U L UL S : FBuf) :
    (c_dtw (fun _ => 1) P 2 2 debug U L UL S).2.S (0 * 2 + 0) = 1 ∧
    (c_dtw (fun _ => 1) P 2 2 debug U L UL S).2.S (0 * 2 + 1) = 2 ∧
    (c_dtw (fun _ => 1) P 2 2 debug U L UL S).2.P (0 * 2 + 1) = LEFT ∧
    (c_dtw (fun _ => 1) P 2 2 debug U L UL S).2.S (1 * 2 + 0) = 2 ∧
    (c_dtw (fun _ => 1) P 2 2 debug U L UL S).2.P (1 * 2 + 0) = UP ∧
    (c_dtw (fun _ => 1) P 2 2 debug U L UL S).2.S (1 * 2 + 1) = 2 ∧
    (c_dtw (fun _ => 1) P 2 2 debug U L UL S).2.P (1 * 2 + 1) = DIAG ∧
    (c_dtw (fun _ => 1) P 2 2 debug U L UL S).1 = 2 := by
  have hS := c_dtw_SP_indep (fun _ => 1) P 2 2 debug 0 U L UL U L UL S
  rw [hS.1, hS.2.1, hS.2.2]
  refine ⟨?_, ?_, ?_, ?_, ?_, ?_, ?_, ?_⟩ <;>
  · simp [c_dtw, c_dtw_fill, c_dtw_init, forLoop, loopN, c_dtw_cell, c_dtw_select,
      LEFT, UP, DIAG, wr]
    try norm_num [wr]

/-- C13: on the `3 × 3` cost matrix `[[0,2,5],[1,0,2],[4,1,0]]`, whatever the prior
contents of the buffers and the value of `debug`, `c_dtw` returns the total cost 0, leaves
`P(2,2) = DIAG` and `P(1,1) = DIAG`, and the backtrace from `(2,2)` visits `(2,2)`,
`(1,1)`, `(0,0)`: the path `(0,0) -> (1,1) -> (2,2)`. -/
theorem c_dtw_near_identity_3x3 (P : IBuf) (debug : Int) (U L UL S : FBuf) :
    (c_dtw csm33 P 3 3 debug U L UL S).1 = 0 ∧
    (c_dtw csm33 P 3 3 debug U L UL S).2.P (2 * 3 + 2) = DIAG ∧
    (c_dtw csm33 P 3 3 debug U L UL S).2.P (1 * 3 + 1) = DIAG ∧
    backtrace (c_dtw csm33 P 3 3 debug U L UL S).2.P 3 4 (2, 2) = [(2, 2), (1, 1), (0, 0)] := by
  have hS := c_dtw_SP_indep csm33 P 3 3 debug 0 U L UL U L UL S
  rw [hS.2.1, hS.2.2]
  have h22 : (c_dtw csm33 P 3 3 0 U L UL S).2.P 8 = 2 := by
    simp [c_dtw, c_dtw_fill, c_dtw_init, forLoop, loopN, c_dtw_cell, c_dtw_select,
      LEFT, UP, DIAG, csm33, wr]
    try norm_num [wr]
  have h11 : (c_dtw csm33 P 3 3 0 U L UL S).2.P 4 = 2 := by
    simp [c_dtw, c_dtw_fill, c_dtw_init, forLoop, loopN, c_dtw_cell, c_dtw_select,
      LEFT, UP, DIAG, csm33, wr]
    try norm_num [wr]
  refine ⟨?_, ?_, ?_, ?_⟩
  · simp [c_dtw, c_dtw_fill, c_dtw_init, forLoop, loopN, c_dtw_cell, c_dtw_select,
      LEFT, UP, DIAG, csm33, wr]
    try norm_num [wr]
  · simpa [DIAG] using h22
  · simpa [DIAG] using h11
  · simp [backtrace, backStep, h22, h11, LEFT, UP, DIAG]

/-- C14, as amended: for every call of `c_dtw` with `M ≤ 0` or `N ≤ 0`, no loop iteration
runs and the call writes no element of `S`, `P`, `U`, `L` or `UL`. -/
theorem c_dtw_invalid_dims (CSM : FBuf) (P : IBuf) (M N debug : Int) (U L UL S : FBuf)
    (h : M ≤ 0 ∨ N ≤ 0) :
    (c_dtw CSM P M N debug U L UL S).2 = ⟨P, U, L, UL, S⟩ := by
  have e1 : c_dtw_init M N debug ⟨P, U, L, UL, S⟩ = ⟨P, U, L, UL, S⟩ := by
    unfold c_dtw_init
    split_ifs
    · exact nested_nonpos M N h _ _
    · rfl
  have e2 : c_dtw_fill CSM M N debug ⟨P, U, L, UL, S⟩ = ⟨P, U, L, UL, S⟩ :=
    nested_nonpos M N h _ _
  simp only [c_dtw, e1, e2]

/-- Witness of `c_dtw_invalid_dims`: `M = 0`, `N = 3`, with `debug = 1`. -/
theorem c_dtw_invalid_dims_witness :
    ((0 : Int) ≤ 0 ∨ (3 : Int) ≤ 0) ∧
    (c_dtw (fun _ => 1) (fun _ => 0) 0 3 1 (fun _ => 0) (fun _ => 0) (fun _ => 0)
      (fun _ => 7)).2 = ⟨fun _ => 0, fun _ => 0, fun _ => 0, fun _ => 0, fun _ => 7⟩ :=
  ⟨Or.inl le_rfl,
   c_dtw_invalid_dims (fun _ => 1) (fun _ => 0) 0 3 1 (fun _ => 0) (fun _ => 0) (fun _ => 0)
      (fun _ => 7) (Or.inl le_rfl)⟩

/-- Counterexample to C14 as stated: called with `M = -1`, `N = -1` on a buffer `S` that
holds 42 everywhere, `c_dtw` returns the cost 42, the content of `S[M*N-1] = S[0]`, where the
claim has it yield an error. -/
theorem c_dtw_invalid_dims_counterexample :
    (c_dtw (fun _ => 1) (fun _ => 0) (-1) (-1) 0 (fun _ => 0) (fun _ => 0) (fun _ => 0)
      (fun _ => 42)).1 = 42 := by
  simp [c_dtw, c_dtw_fill, c_dtw_init, forLoop, loopN]

/-- C16: for `M, N > 0` and `0 ≤ k ≤ M + N - 2`, the start of the diagonal `k` that
`c_diag_step` computes is `(k, 0)` if `k < M` and `(M-1, k-(M-1))` otherwise, its end is
`(0, k)` if `k < N` and `(k-(N-1), N-1)` otherwise; the offsets `idx ≥ 0` that pass the
range test are exactly `0, ..., i1 - i2`; `idx ↦ (i1 - idx, j1 + idx)` maps them one-to-one
onto the cells of the matrix with `i + j = k`; there are at most `min(M, N)` of them. These
are the start, the end and the range test of the code: an iteration of the loop of
`c_diag_step` processes the cell `(i1 - idx, j1 + idx)` when `idx` passes the test and no
cell otherwise, and a whole step with `debug = 1` and `diagLen` above `i1 - i2` writes
`S(i,j) = d2[i1 - i]` at every cell with `i + j = k` other than `(0,0)` and no other element
of `S`. -/
theorem diag_geometry (M N k : Int) (hM : 0 < M) (hN : 0 < N) (hk0 : 0 ≤ k)
    (hk : k ≤ M + N - 2) :
    (dI1 M k, dJ1 M k) = (if k < M then (k, 0) else (M - 1, k - (M - 1))) ∧
    (dI2 N k, dJ2 N k) = (if k < N then (0, k) else (k - (N - 1), N - 1)) ∧
    (∀ idx : Int, 0 ≤ idx → (inDiag M N k idx ↔ idx ≤ dI1 M k - dI2 N k)) ∧
    (∀ idx : Int, 0 ≤ idx → inDiag M N k idx →
      0 ≤ dI1 M k - idx ∧ dI1 M k - idx < M ∧ 0 ≤ dJ1 M k + idx ∧ dJ1 M k + idx < N ∧
      (dI1 M k - idx) + (dJ1 M k + idx) = k) ∧
    (∀ idx idx2 : Int,
      (dI1 M k - idx, dJ1 M k + idx) = (dI1 M k - idx2, dJ1 M k + idx2) → idx = idx2) ∧
    (∀ i j : Int, 0 ≤ i → i < M → 0 ≤ j → j < N → i + j = k →
      ∃ idx : Int, 0 ≤ idx ∧ inDiag M N k idx ∧ (dI1 M k - idx, dJ1 M k + idx) = (i, j)) ∧
    (0 ≤ dI1 M k - dI2 N k ∧ dI1 M k - dI2 N k + 1 ≤ min M N) ∧
    (∀ (d0 d1 csm0 csm1 : FBuf) (debug idx : Int) (st : DiagSt),
      c_diag_iter d0 d1 csm0 csm1 M N k debug idx st
        = (let st1 : DiagSt :=
            if inDiag M N k idx then
              if dI1 M k - idx = 0 ∧ dJ1 M k + idx = 0 then
                if debug = -1 then
                  { st with score := 0, S := wr st.S 0 0, U := wr st.U 0 (-1),
                            L := wr st.L 0 (-1), UL := wr st.UL 0 (-1) }
                else { st with score := 0 }
              else
                let c := c_diag_cands d0 d1 csm0 csm1 M (dI1 M k) (dJ1 M k) (dI1 M k - idx) idx
                let score := c_diag_select c.1 c.2.1 c.2.2 st.score
                if debug = 1 then
                  { st with score := score,
                            U := wr st.U ((dI1 M k - idx) * N + (dJ1 M k + idx)) c.2.1,
                            L := wr st.L ((dI1 M k - idx) * N + (dJ1 M k + idx)) c.1,
                            UL := wr st.UL ((dI1 M k - idx) * N + (dJ1 M k + idx)) c.2.2,
                            S := wr st.S ((dI1 M k - idx) * N + (dJ1 M k + idx)) score }
                else { st with score := score }
            else st
          { st1 with d2 := wr st1.d2 idx st1.score })) ∧
    (∀ (d0 d1 d2 csm0 csm1 U L UL S : FBuf) (diagLen : Int), dI1 M k - dI2 N k < diagLen →
      (∀ i j : Int, 0 ≤ i → i < M → 0 ≤ j → j < N → i + j = k → ¬ (i = 0 ∧ j = 0) →
        (c_diag_step d0 d1 d2 csm0 csm1 M N diagLen k 1 U L UL S).S (i * N + j)
          = (c_diag_step d0 d1 d2 csm0 csm1 M N diagLen k 1 U L UL S).d2 (dI1 M k - i)) ∧
      (∀ x : Int, (∀ i j : Int, 0 ≤ i → i < M → 0 ≤ j → j < N → i + j = k → x ≠ i * N + j) →
        (c_diag_step d0 d1 d2 csm0 csm1 M N diagLen k 1 U L UL S).S x = S x)) := by
  have hrange : ∀ idx : Int, 0 ≤ idx → (inDiag M N k idx ↔ idx ≤ dI1 M k - dI2 N k) := by
    intro idx hidx
    simp only [inDiag, dI1, dJ1, dI2, dJ2]
    split_ifs <;> constructor <;> intro h <;> omega
  refine ⟨?_, ?_, hrange, ?_, ?_, ?_, ?_, ?_, ?_⟩
  · simp only [dI1, dJ1]
    split_ifs <;> first | rfl | (exfalso; omega)
  · simp only [dI2, dJ2]
    split_ifs <;> first | rfl | (exfalso; omega)
  · intro idx hidx h
    exact inDiag_cell M N k idx hidx h
  · intro idx idx2 h
    simp only [Prod.mk.injEq] at h
    omega
  · intro i j hi0 hi hj0 hj hs
    obtain ⟨c1, c2, c3, c4⟩ := cell_on_diag M N i j hi0 hi hj0 hj
    rw [hs] at c1 c2 c3 c4
    exact ⟨_, c1, c2, by rw [c3, c4]⟩
  · have hmin : ∀ x : Int, x ≤ M → x ≤ N → x ≤ min M N := fun x a b => le_min a b
    constructor
    · simp only [dI1, dI2]
      split_ifs <;> omega
    · apply hmin
      · simp only [dI1, dI2]
        split_ifs <;> omega
      · simp only [dI1, dI2]
        split_ifs <;> omega
  · intro d0 d1 csm0 csm1 debug idx st
    exact c_diag_iter_eq d0 d1 csm0 csm1 M N k debug idx st
  · intro d0 d1 d2 csm0 csm1 U L UL S diagLen hlen
    obtain ⟨n, rfl, hn⟩ := pos_cast N hN
    obtain ⟨g1, g2⟩ := c_diag_step_cells M n k diagLen d0 d1 d2 csm0 csm1 U L UL S
    constructor
    · intro i j hi0 hi hj0 hj hs hnz
      obtain ⟨c1, c2, c3, c4⟩ := cell_on_diag M n i j hi0 hi hj0 hj
      rw [hs] at c1 c2 c3 c4
      have hl := (hrange _ c1).1 c2
      have e := g1 (dI1 M k - i) c1 (by omega) c2 (by rw [c3, c4]; exact hnz)
      rw [c3, c4] at e
      exact e
    · intro x hx
      apply g2 x
      intro idx hidx hin _
      obtain ⟨a1, a2, a3, a4, a5⟩ := inDiag_cell M n k idx hidx hin
      exact hx _ _ a1 a2 a3 a4 a5

/-- Witness of `diag_geometry`: the diagonal `k = 2` of a `2 × 3` matrix. -/
theorem diag_geometry_witness :
    ((0 : Int) < 2 ∧ (0 : Int) < 3 ∧ (0 : Int) ≤ 2 ∧ (2 : Int) ≤ 2 + 3 - 2) ∧
    (dI1 2 2, dJ1 2 2) = (if (2 : Int) < 2 then ((2 : Int), (0 : Int)) else (2 - 1, 2 - (2 - 1))) :=
  ⟨by decide, (diag_geometry 2 3 2 (by decide) (by decide) (by decide) (by decide)).1⟩

/-- C17: on a non-negative `M × N` cost matrix (`M, N > 0`), every value `c_dtw` writes to
`S` has `S(i,j) ≥ CSM(i,j) ≥ 0`, hence is above the sentinel `-1`; and at every cell each
candidate `c_dtw` reads from `S` (lines 36-49) passes its feasibility test `> -1` exactly
when its neighbour is inside the matrix: `left` when `j > 0`, `up` when `i > 0`, `diag`
when `i > 0` and `j > 0`. With `debug = 1` the same holds of the raw candidates recorded in
`L`, `U`, `UL` at the cells other than `(0,0)`. -/
theorem c_dtw_sentinel_sound (CSM : FBuf) (P : IBuf) (M N debug : Int) (U L UL S : FBuf)
    (hM : 0 < M) (hN : 0 < N) (h : NonNeg CSM M N) :
    ∀ i j : Int, 0 ≤ i → i < M → 0 ≤ j → j < N →
      0 ≤ CSM (i * N + j) ∧
      CSM (i * N + j) ≤ (c_dtw CSM P M N debug U L UL S).2.S (i * N + j) ∧
      -1 < (c_dtw CSM P M N debug U L UL S).2.S (i * N + j) ∧
      ((cands (c_dtw CSM P M N debug U L UL S).2.S N i j).1 > -1 ↔ 0 < j) ∧
      ((cands (c_dtw CSM P M N debug U L UL S).2.S N i j).2.1 > -1 ↔ 0 < i) ∧
      ((cands (c_dtw CSM P M N debug U L UL S).2.S N i j).2.2 > -1 ↔ (0 < i ∧ 0 < j)) ∧
      (¬ (i = 0 ∧ j = 0) →
        ((c_dtw CSM P M N 1 U L UL S).2.L (i * N + j) > -1 ↔ 0 < j) ∧
        ((c_dtw CSM P M N 1 U L UL S).2.U (i * N + j) > -1 ↔ 0 < i) ∧
        ((c_dtw CSM P M N 1 U L UL S).2.UL (i * N + j) > -1 ↔ (0 < i ∧ 0 < j))) := by
  obtain ⟨m, rfl, hm⟩ := pos_cast M hM
  obtain ⟨n, rfl, hn⟩ := pos_cast N hN
  intro i j hi0 hi hj0 hj
  have hc := h i j hi0 hi hj0 hj
  have hge := Sref_ge CSM m n h.toN i.toNat j.toNat (by omega) (by omega)
  rw [Int.toNat_of_nonneg hi0, Int.toNat_of_nonneg hj0] at hge
  obtain ⟨f1, f2, f3⟩ := cand_feasible CSM m n h i j hi0 hi hj0 hj
  rw [c_dtw_S_int CSM P m n debug U L UL S i j hi0 hi hj0 hj,
    cands_final CSM P m n debug U L UL S i j hi0 hi hj0 hj]
  refine ⟨hc, hge, by linarith, f1, f2, f3, fun hne => ?_⟩
  obtain ⟨b1, b2, b3⟩ := c_dtw_debug_int CSM P m n U L UL S i j hi0 hi hj0 hj hne
  rw [b1, b2, b3]
  exact ⟨f1, f2, f3⟩

/-- Witness of `c_dtw_sentinel_sound`: the cell `(1,1)` of the all-ones `2 × 2` cost
matrix. -/
theorem c_dtw_sentinel_sound_witness :
    NonNeg (fun _ => 1) 2 2 ∧
    -1 < (c_dtw (fun _ => 1) (fun _ => 0) 2 2 0 (fun _ => 0) (fun _ => 0) (fun _ => 0)
      (fun _ => 0)).2.S (1 * 2 + 1) :=
  ⟨fun _ _ _ _ _ _ => zero_le_one,
   (c_dtw_sentinel_sound (fun _ => 1) (fun _ => 0) 2 2 0 (fun _ => 0) (fun _ => 0)
      (fun _ => 0) (fun _ => 0) (by decide) (by decide) (fun _ _ _ _ _ _ => zero_le_one)
      1 1 (by decide) (by decide) (by decide) (by decide)).2.2.1⟩

/-- C18: for all values `left`, `up`, `diag`, the sentinel `-1` included, the selection
chain of `c_dtw` (with `diag ≤ score`) and the selection chain of `c_diag_step` (with
`diag < score`), both started from `score = -1`, end with the same score. -/
theorem select_same_score (left up diag : ℚ) (P : IBuf) (k : Int) :
    c_diag_select left up diag (-1) = (c_dtw_select left up diag P k).1 := by
  rw [c_dtw_select_fst, c_diag_select_eq left up diag (-1) (Or.inr rfl)]

/-- C20: on a non-negative `M × N` cost matrix (`M, N > 0`), if `CSMt` is the transposed
matrix (`N` rows, `M` columns, `CSMt(j,i) = CSM(i,j)`), then the `S` that `c_dtw` computes
on `CSMt` is the transpose of the `S` it computes on `CSM`, and the two calls return the
same total cost. -/
theorem c_dtw_transpose (CSM CSMt : FBuf) (P Pt : IBuf) (M N debug debugt : Int)
    (U L UL S Ut Lt ULt St : FBuf) (hM : 0 < M) (hN : 0 < N) (h : NonNeg CSM M N)
    (ht : ∀ i j : Int, 0 ≤ i → i < M → 0 ≤ j → j < N → CSMt (j * M + i) = CSM (i * N + j)) :
    (∀ i j : Int, 0 ≤ i → i < M → 0 ≤ j → j < N →
      (c_dtw CSMt Pt N M debugt Ut Lt ULt St).2.S (j * M + i)
        = (c_dtw CSM P M N debug U L UL S).2.S (i * N + j)) ∧
    (c_dtw CSMt Pt N M debugt Ut Lt ULt St).1 = (c_dtw CSM P M N debug U L UL S).1 := by
  obtain ⟨m, rfl, hm⟩ := pos_cast M hM
  obtain ⟨n, rfl, hn⟩ := pos_cast N hN
  have key : ∀ i j : Int, 0 ≤ i → i < m → 0 ≤ j → j < n →
      (c_dtw CSMt Pt n m debugt Ut Lt ULt St).2.S (j * m + i)
        = (c_dtw CSM P m n debug U L UL S).2.S (i * n + j) := by
    intro i j hi0 hi hj0 hj
    rw [c_dtw_S_int CSMt Pt n m debugt Ut Lt ULt St j i hj0 hj hi0 hi,
      c_dtw_S_int CSM P m n debug U L UL S i j hi0 hi hj0 hj]
    exact Sref_transpose CSM CSMt m n h.toN
      (fun a b ha hb => ht a b (by omega) (by omega) (by omega) (by omega))
      (i.toNat + j.toNat) i.toNat j.toNat rfl (by omega) (by omega)
  refine ⟨key, ?_⟩
  rw [c_dtw_fst, c_dtw_fst]
  have e1 : (n : Int) * m - 1 = ((n : Int) - 1) * m + ((m : Int) - 1) := by ring
  have e2 : (m : Int) * n - 1 = ((m : Int) - 1) * n + ((n : Int) - 1) := by ring
  rw [e1, e2]
  exact key _ _ (by omega) (by omega) (by omega) (by omega)

/-- Witness of `c_dtw_transpose`: the all-ones `2 × 3` cost matrix and its transpose. -/
theorem c_dtw_transpose_witness :
    NonNeg (fun _ => 1) 2 3 ∧
    (c_dtw (fun _ => 1) (fun _ => 0) 3 2 0 (fun _ => 0) (fun _ => 0) (fun _ => 0)
        (fun _ => 0)).1
      = (c_dtw (fun _ => 1) (fun _ => 0) 2 3 0 (fun _ => 0) (fun _ => 0) (fun _ => 0)
        (fun _ => 0)).1 :=
  ⟨fun _ _ _ _ _ _ => zero_le_one,
   (c_dtw_transpose (fun _ => 1) (fun _ => 1) (fun _ => 0) (fun _ => 0) 2 3 0 0
      (fun _ => 0) (fun _ => 0) (fun _ => 0) (fun _ => 0) (fun _ => 0) (fun _ => 0)
      (fun _ => 0) (fun _ => 0) (by decide) (by decide) (fun _ _ _ _ _ _ => zero_le_one)
      (fun _ _ _ _ _ _ => rfl)).2⟩

end DTW
